import Mathlib

/-!
# SpaceSaver transcoder core — verification development

Shallow embedding of the persistent per-file state machine of the
SpaceSaver on-demand transcoding service and proofs about it.

Sources embedded (paths relative to the repository root):
* `app/src/models.py`      — `FileStatus`, `Entry`, `Progress` rows
* `app/src/db.py`          — store operations over the three tables
* `app/src/app.py` and `app/src/controllers.py` — admission handlers
* `app/src/transcoder.py`  — skip oracle, encoder driver, startup hook
* `app/src/classifier.py`  — `clean_filename`

Modelling conventions:
* SQLite tables are lists of rows in `rowid` (insertion) order.
* Python `float` columns (`progress`) and float arithmetic are modelled
  exactly over `ℚ`; every float computation the embedded code performs
  (percentages, the CRF interpolation at integer CRFs) is exact in
  binary floating point on the intended ranges, so the rational model
  agrees with the code there.  Python `int(x)` is truncation toward
  zero, modelled by `Int.tdiv` on numerator/denominator.
* Python `**kwargs` dicts are modelled as association lists of
  `(key, value)` pairs with distinct keys.
* The filesystem is a list of absolute paths.
-/

set_option maxHeartbeats 1000000
set_option maxRecDepth 100000

namespace SpaceSaver

/-- Truncation toward zero of a rational, Python's `int(x)`. -/
def pyTrunc (q : ℚ) : Int := Int.tdiv q.num q.den

/-! ## Data model (`models.py`) -/

/-- `models.FileStatus` (string enum in the source). -/
inductive FileStatus where
  | unknown
  | pending
  | queued
  | in_progress
  | optimum
  | done
deriving DecidableEq, Repr

/-- `models.Entry` — identity row in the `entries` table. -/
structure Entry where
  uuid : String
  name : String
  hash : String
  path : String
  size : Int
deriving DecidableEq, Repr

/-- `models.MetadataKind`. -/
inductive MetadataKind where
  | declared
  | actual
deriving DecidableEq, Repr

/-- `models.Metadata` — row of the `metadata` table (stream properties).
`extra` is kept as its serialised JSON string form. -/
structure Metadata where
  uuid : String
  kind : MetadataKind
  codec : String
  format : String
  sar : String
  dar : String
  resolution : String
  framerate : ℚ
  extra : String
deriving DecidableEq, Repr

/-- `models.Progress` — row of the `progress` table. -/
structure ProgressRow where
  uuid : String
  status : FileStatus
  progress : ℚ
  frame_current : Int
  frame_total : Int
  workfile : Option String
deriving DecidableEq, Repr

/-- The persistent store: the three tables, each in rowid order. -/
structure Db where
  entries : List Entry
  metadata : List Metadata
  progress : List ProgressRow
deriving DecidableEq, Repr

/-! ## Store operations (`db.py`) -/

/-- `db.get_entry_by_uuid`. -/
def get_entry_by_uuid (db : Db) (u : String) : Option Entry :=
  db.entries.find? (fun e => e.uuid == u)

/-- `db.get_entry_by_hash_and_path`. -/
def get_entry_by_hash_and_path (db : Db) (h p : String) : Option Entry :=
  db.entries.find? (fun e => e.hash == h && e.path == p)

/-- `db.get_progress`. -/
def get_progress (db : Db) (u : String) : Option ProgressRow :=
  db.progress.find? (fun r => r.uuid == u)

/-- The status of the progress row for `u`, when that row exists. -/
def statusOf (db : Db) (u : String) : Option FileStatus :=
  (get_progress db u).map (fun r => r.status)

/-- `db.set_status` — `UPDATE progress SET status = ? WHERE uuid = ?`. -/
def set_status (db : Db) (u : String) (s : FileStatus) : Db :=
  { db with progress :=
      db.progress.map (fun r => if r.uuid = u then { r with status := s } else r) }

/-- A value passed for one keyword argument of `db.update_progress`.
The SQL layer is dynamically typed; the embedding restricts values to
the column types actually used by the callers. -/
inductive FieldVal where
  | fstat (s : FileStatus)
  | frat (q : ℚ)
  | fint (n : Int)
  | fwork (w : Option String)
deriving DecidableEq, Repr

/-- The `allowed` set in `db.update_progress`. -/
def allowed_update_keys : List String :=
  ["status", "progress", "frame_current", "frame_total", "workfile"]

/-- One `col = ?` assignment of the generated `SET` clause applied to a
row.  A key/value pair whose value does not fit the column's type is a
no-op (the SQL layer would store it untyped; no embedded caller does
this). -/
def apply_field (r : ProgressRow) (kv : String × FieldVal) : ProgressRow :=
  if kv.1 = "status" then
    match kv.2 with
    | FieldVal.fstat s => { r with status := s }
    | _ => r
  else if kv.1 = "progress" then
    match kv.2 with
    | FieldVal.frat q => { r with progress := q }
    | _ => r
  else if kv.1 = "frame_current" then
    match kv.2 with
    | FieldVal.fint n => { r with frame_current := n }
    | _ => r
  else if kv.1 = "frame_total" then
    match kv.2 with
    | FieldVal.fint n => { r with frame_total := n }
    | _ => r
  else if kv.1 = "workfile" then
    match kv.2 with
    | FieldVal.fwork w => { r with workfile := w }
    | _ => r
  else r

/-- `db.update_progress(conn, uuid, **fields)` — filters `fields` to the
allowed column names, returns unchanged on an empty update, otherwise
applies the `SET` clause to the row keyed by `uuid`. -/
def update_progress (db : Db) (u : String) (fields : List (String × FieldVal)) : Db :=
  let updates := fields.filter (fun kv => allowed_update_keys.contains kv.1)
  if updates.isEmpty then db
  else { db with progress :=
      db.progress.map (fun r => if r.uuid = u then updates.foldl apply_field r else r) }

/-- Entries joined with a `PENDING` progress row, in rowid order
(the join of `db.query_best_candidate`). -/
def pending_entries (db : Db) : List Entry :=
  db.entries.filter (fun e => decide (statusOf db e.uuid = some FileStatus.pending))

/-- First entry of maximal `size` in list order — the result of
`ORDER BY e.size DESC LIMIT 1`, with ties in rowid order as produced by
scanning the `idx_entries_size_desc` index (equal keys in rowid order). -/
def pick_largest : List Entry → Option Entry
  | [] => none
  | e :: es =>
    match pick_largest es with
    | none => some e
    | some b => if b.size > e.size then some b else some e

/-- `db.query_best_candidate`. -/
def query_best_candidate (db : Db) : Option Entry :=
  pick_largest (pending_entries db)

/-- `db.has_active_queue` — any row `QUEUED` or `IN_PROGRESS`. -/
def has_active_queue (db : Db) : Bool :=
  db.progress.any (fun r =>
    r.status == FileStatus.queued || r.status == FileStatus.in_progress)

/-- `transcoder._pick_next_queued` — oldest-inserted `QUEUED` entry. -/
def pick_next_queued (db : Db) : Option Entry :=
  (db.entries.filter (fun e => decide (statusOf db e.uuid = some FileStatus.queued))).head?

/-- `INSERT OR IGNORE INTO entries` — keyed by the `uuid` primary key. -/
def insert_entry_or_ignore (es : List Entry) (e : Entry) : List Entry :=
  if es.any (fun x => x.uuid == e.uuid) then es else es ++ [e]

/-- `INSERT OR REPLACE INTO metadata` — keyed by `(uuid, kind)`. -/
def insert_metadata_or_replace (ms : List Metadata) (m : Metadata) : List Metadata :=
  (ms.filter (fun x => !(x.uuid == m.uuid && x.kind == m.kind))) ++ [m]

/-- `INSERT OR IGNORE INTO progress` — keyed by the `uuid` primary key. -/
def insert_progress_or_ignore (ps : List ProgressRow) (p : ProgressRow) : List ProgressRow :=
  if ps.any (fun x => x.uuid == p.uuid) then ps else ps ++ [p]

/-- `db.insert_new_file` — entry + metadata rows + a `PENDING` progress
row `(uuid, 'pending', 0.0, 0, 0, NULL)`, in one transaction. -/
def insert_new_file (db : Db) (e : Entry) (metadatas : List Metadata) : Db :=
  { entries := insert_entry_or_ignore db.entries e
    metadata := metadatas.foldl insert_metadata_or_replace db.metadata
    progress := insert_progress_or_ignore db.progress
      { uuid := e.uuid, status := FileStatus.pending, progress := 0,
        frame_current := 0, frame_total := 0, workfile := none } }

/-! ## Schema validation (`db.py`) -/

/-- Splitter behind `str.split()` with no argument: maximal
non-whitespace runs, empties dropped.  `cur` is the current word,
reversed. -/
def words_aux (cs : List Char) (cur : List Char) : List String :=
  match cs with
  | [] => if cur = [] then [] else [⟨cur.reverse⟩]
  | c :: rest =>
    if Char.isWhitespace c then
      if cur = [] then words_aux rest [] else (⟨cur.reverse⟩ : String) :: words_aux rest []
    else words_aux rest (c :: cur)

/-- `db._normalise_sql` — `" ".join(sql.split())`: split on whitespace
runs, re-join with single spaces. -/
def normalise_sql (s : String) : String :=
  " ".intercalate (words_aux s.data [])

/-- The literal `CREATE TABLE` statements of `db._SCHEMA_SQL` as SQLite
stores them in `sqlite_master` (statement text without the trailing
semicolon). -/
def schema_sql_entries : String :=
  "CREATE TABLE entries (uuid TEXT PRIMARY KEY, name TEXT NOT NULL, hash TEXT NOT NULL, path TEXT NOT NULL, size INTEGER NOT NULL)"

def schema_sql_metadata : String :=
  "CREATE TABLE metadata (uuid TEXT NOT NULL REFERENCES entries(uuid), kind TEXT NOT NULL, codec TEXT NOT NULL DEFAULT 'Unknown', format TEXT NOT NULL DEFAULT 'Unknown', sar TEXT NOT NULL DEFAULT 'Unknown', dar TEXT NOT NULL DEFAULT 'Unknown', resolution TEXT NOT NULL DEFAULT 'Unknown', framerate REAL NOT NULL DEFAULT 0.0, extra TEXT NOT NULL DEFAULT '\x7b\x7d', PRIMARY KEY (uuid, kind))"

def schema_sql_progress : String :=
  "CREATE TABLE progress (uuid TEXT PRIMARY KEY REFERENCES entries(uuid), status TEXT NOT NULL DEFAULT 'pending', progress REAL NOT NULL DEFAULT 0.0, frame_current INTEGER NOT NULL DEFAULT 0, frame_total INTEGER NOT NULL DEFAULT 0, workfile TEXT)"

/-- The `db._EXPECTED_TABLES` entries — separate literals in the source
(adjacent-string concatenation there; the concatenated text is spelled
out here). -/
def expected_sql_entries : String :=
  "CREATE TABLE entries (uuid TEXT PRIMARY KEY, name TEXT NOT NULL, hash TEXT NOT NULL, path TEXT NOT NULL, size INTEGER NOT NULL)"

def expected_sql_metadata : String :=
  "CREATE TABLE metadata (uuid TEXT NOT NULL REFERENCES entries(uuid), kind TEXT NOT NULL, codec TEXT NOT NULL DEFAULT 'Unknown', format TEXT NOT NULL DEFAULT 'Unknown', sar TEXT NOT NULL DEFAULT 'Unknown', dar TEXT NOT NULL DEFAULT 'Unknown', resolution TEXT NOT NULL DEFAULT 'Unknown', framerate REAL NOT NULL DEFAULT 0.0, extra TEXT NOT NULL DEFAULT '\x7b\x7d', PRIMARY KEY (uuid, kind))"

def expected_sql_progress : String :=
  "CREATE TABLE progress (uuid TEXT PRIMARY KEY REFERENCES entries(uuid), status TEXT NOT NULL DEFAULT 'pending', progress REAL NOT NULL DEFAULT 0.0, frame_current INTEGER NOT NULL DEFAULT 0, frame_total INTEGER NOT NULL DEFAULT 0, workfile TEXT)"

/-- `db._EXPECTED_TABLES`. -/
def expected_tables : List (String × String) :=
  [("entries", expected_sql_entries),
   ("metadata", expected_sql_metadata),
   ("progress", expected_sql_progress)]

/-- The rows of `sqlite_master` restricted to `type='table'`:
table name ↦ stored `CREATE TABLE` text. -/
abbrev SqliteMaster := List (String × String)

/-- The master table of a database freshly created from
`db._SCHEMA_SQL` (indexes omitted — `validate_schema` only queries
`type='table'`). -/
def fresh_master : SqliteMaster :=
  [("entries", schema_sql_entries),
   ("metadata", schema_sql_metadata),
   ("progress", schema_sql_progress)]

/-- `db.validate_schema` — compares the observed table definitions with
the expected ones after whitespace normalisation; on any mismatch or
missing table drops all three tables and recreates the schema.  Returns
`(was_already_valid, resulting master)`. -/
def validate_schema (master : SqliteMaster) : Bool × SqliteMaster :=
  let names := ["entries", "metadata", "progress"]
  let existing := (master : List (String × String)).filter (fun kv => names.contains kv.1)
  let all_match := expected_tables.all (fun te =>
    match existing.lookup te.1 with
    | none => false
    | some sql => normalise_sql sql == normalise_sql te.2)
  if all_match && existing.length == expected_tables.length then
    (true, master)
  else
    (false, fresh_master)

/-! ## Admission handlers (`app.py` / `controllers.py`)

`app.enqueue_uuid` / `controllers.enqueue_uuid` and `app.enqueue_best` /
`controllers.enqueue_best` are line-for-line the same logic; each is
embedded once. -/

/-- A JSON response body of the admission endpoints. -/
inductive RespBody where
  | err (msg : String)
  | queued_resp (uuid : String)
  | best_resp (uuid name : String) (size : Int)
deriving DecidableEq, Repr

/-- An HTTP response: body and status code. -/
structure HttpResp where
  body : RespBody
  code : Nat
deriving DecidableEq, Repr

/-- `FileStatus.value` — the stored string form of the status enum. -/
def status_value : FileStatus → String
  | FileStatus.unknown => "unknown"
  | FileStatus.pending => "pending"
  | FileStatus.queued => "queued"
  | FileStatus.in_progress => "in_progress"
  | FileStatus.optimum => "optimum"
  | FileStatus.done => "done"

/-- `POST /request/enqueue/<uuid>` continued (see section comment):
lookup entry (404 if missing), reject 409 if already `QUEUED` or
`IN_PROGRESS`, else set status to `QUEUED` and return 202. -/
def enqueue_uuid (db : Db) (u : String) : HttpResp × Db :=
  match get_entry_by_uuid db u with
  | none => ({ body := RespBody.err "not found", code := 404 }, db)
  | some _ =>
    match get_progress db u with
    | some p =>
      if p.status = FileStatus.queued ∨ p.status = FileStatus.in_progress then
        ({ body := RespBody.err ("already " ++ status_value p.status), code := 409 }, db)
      else
        ({ body := RespBody.queued_resp u, code := 202 }, set_status db u FileStatus.queued)
    | none =>
      ({ body := RespBody.queued_resp u, code := 202 }, set_status db u FileStatus.queued)

/-- `POST /request/enqueue/best`:
409 when the queue is active, 404 when no `PENDING` candidate, else
queue the best candidate and return 202 with its summary. -/
def enqueue_best (db : Db) : HttpResp × Db :=
  if has_active_queue db then
    ({ body := RespBody.err "queue already active", code := 409 }, db)
  else
    match query_best_candidate db with
    | none => ({ body := RespBody.err "no eligible candidates", code := 404 }, db)
    | some best =>
      ({ body := RespBody.best_resp best.uuid best.name best.size, code := 202 },
       set_status db best.uuid FileStatus.queued)

/-! ## Transcoder worker (`transcoder.py`) -/

/-- `transcoder.WORKDIR`. -/
def WORKDIR : String := "/workdir"

/-- The workfile path `os.path.join(WORKDIR, f"<uuid>.mkv")`. -/
def tmp_path_for (u : String) : String := WORKDIR ++ "/" ++ u ++ ".mkv"

/-- Python `max(iterable, default=d)` over integers. -/
def py_max_default (l : List Int) (d : Int) : Int :=
  match l with
  | [] => d
  | x :: xs => xs.foldl max x

/-- Python `max(iterable)`/`min(iterable)` over a nonempty list
(`default=None` handled by the callers through `Option`). -/
def py_max? (l : List Int) : Option Int :=
  match l with
  | [] => none
  | x :: xs => some (xs.foldl max x)

def py_min? (l : List Int) : Option Int :=
  match l with
  | [] => none
  | x :: xs => some (xs.foldl min x)

/-- `transcoder._CRF_BITRATE_TABLE`. -/
def crf_bitrate_table : List (Int × Int) :=
  [(16, 8000), (18, 5500), (20, 3800), (22, 2500), (24, 1700), (26, 1200), (28, 800)]

def crf_table_keys : List Int := crf_bitrate_table.map Prod.fst

/-- `_CRF_BITRATE_TABLE[k]` for a key known to be present. -/
def table_lookup (k : Int) : Int := (crf_bitrate_table.lookup k).getD 0

/-- `transcoder._crf_bitrate_threshold`.  The float interpolation
`int(lo_bps + ratio * (hi_bps - lo_bps))` is exact for the integer CRFs
between adjacent table rows (ratio is exactly 1/2 and all level
differences are even), so the rational model agrees with the float
code. -/
def crf_bitrate_threshold (crf : Int) : Int :=
  if crf_table_keys.contains crf then table_lookup crf
  else
    let lower := py_max? (crf_table_keys.filter (fun k => decide (k ≤ crf)))
    let upper := py_min? (crf_table_keys.filter (fun k => decide (crf ≤ k)))
    match lower, upper with
    | none, _ => table_lookup ((py_min? crf_table_keys).getD 0)
    | some _, none => table_lookup ((py_max? crf_table_keys).getD 0)
    | some lo, some up =>
      let lo_bps := table_lookup lo
      let hi_bps := table_lookup up
      pyTrunc ((lo_bps : ℚ) +
        (((crf : ℚ) - (lo : ℚ)) / ((up : ℚ) - (lo : ℚ))) * ((hi_bps : ℚ) - (lo_bps : ℚ)))

/-- One element of the ffprobe `streams` array, restricted to the keys
the embedded code reads.  `Option` marks keys that may be absent (the
code supplies per-call-site defaults via `.get`).  `r_frame_rate` is
the parsed form of the `"num/den"` string: `none` stands for an absent
or unparseable value (both make the code fall back to 25 fps);
`duration` is the parsed seconds value, `none` when absent, empty or
unparseable (all of which leave the code's 0.0 default). -/
structure StreamInfo where
  codec_type : String
  codec_name : String
  profile : String
  height : Option Int
  width : Option Int
  channels : Option Int
  r_frame_rate : Option (ℚ × ℚ)
  duration : Option ℚ
deriving DecidableEq, Repr

/-- The ffprobe `format` object: `bit_rate` parsed to an integer
(`none` = absent or unparseable, which the code turns into 0), and
`duration` in seconds (`none` = absent/unparseable → 0.0). -/
structure ProbeFormat where
  bit_rate : Option Int
  duration : Option ℚ
deriving DecidableEq, Repr

/-- A parsed ffprobe document. -/
structure ProbeDoc where
  format : ProbeFormat
  streams : List StreamInfo
deriving DecidableEq, Repr

/-- The effective config: `cfg.movie_crf` / `cfg.movie_res_cap`. -/
structure Config where
  movie_crf : Int
  movie_res_cap : Int
deriving DecidableEq, Repr

/-- `transcoder._effective_crf` (global config; per-file overrides
removed in the source). -/
def effective_crf (cfg : Config) (_e : Entry) : Int := cfg.movie_crf

/-- `transcoder._effective_res_cap`. -/
def effective_res_cap (cfg : Config) (_e : Entry) : Int := cfg.movie_res_cap

/-- `[s for s in streams if s.get("codec_type") == "video"]`. -/
def video_streams (streams : List StreamInfo) : List StreamInfo :=
  streams.filter (fun s => s.codec_type == "video")

/-- `transcoder._HEVC_CODECS`. -/
def hevc_codecs : List String := ["hevc", "h265"]

/-- Python `str.lower()` per character (codec names are ASCII). -/
def py_lower (s : String) : String := ⟨s.data.map Char.toLower⟩

/-- `transcoder._PIXELS_1080P = 1920 * 1080`. -/
def PIXELS_1080P : Int := 1920 * 1080

/-- `transcoder._should_skip`.  Returns `(skip, reason)`.
`int(probe...bit_rate) // 1000` is Python floor division (`Int.fdiv`);
`int(source_kbps * _PIXELS_1080P / max(max_pixels, 1))` is a float
division truncated toward zero (`pyTrunc`), exact below 2^53. -/
def should_skip (cfg : Config) (e : Entry) (streams : List StreamInfo) (probe : ProbeDoc) :
    Bool × String :=
  let vs := video_streams streams
  let res_cap := effective_res_cap cfg e
  if res_cap > 0 ∧ py_max_default (vs.map (fun s => s.height.getD 0)) 0 > res_cap then
    (false, "")
  else if vs.any (fun s => hevc_codecs.contains (py_lower s.codec_name)) then
    (true, "source is already HEVC/H.265")
  else
    let source_kbps := Int.fdiv (probe.format.bit_rate.getD 0) 1000
    if source_kbps > 0 then
      let max_pixels :=
        py_max_default (vs.map (fun s => (s.width.getD 1920) * (s.height.getD 1080))) PIXELS_1080P
      let normalised_kbps :=
        pyTrunc ((source_kbps : ℚ) * (PIXELS_1080P : ℚ) / ((max max_pixels 1 : Int) : ℚ))
      let crf := effective_crf cfg e
      let threshold := crf_bitrate_threshold crf
      if normalised_kbps < threshold then
        (true, "source bitrate " ++ toString source_kbps ++ " kbps (≈" ++
          toString normalised_kbps ++ " kbps @1080p) already below CRF " ++
          toString crf ++ " threshold " ++ toString threshold ++ " kbps")
      else (false, "")
    else (false, "")

/-- Environment of one `transcoder._process_file` run: the outcomes of
the external interactions (probes, encoder child, filesystem moves),
which the embedding takes as inputs. -/
structure ProcEnv where
  /-- Result of `_probe_streams` / `ffmpeg.probe`: `none` = `ffmpeg.Error`. -/
  probe1 : Option ProbeDoc
  /-- Result of the second `ffmpeg.probe` in `_process_file`. -/
  probe2 : Option ProbeDoc
  /-- Result of the `ffmpeg.probe` fallback inside `_encode`: `none` = raised. -/
  fallback_probe : Option ProbeDoc
  /-- Lines the encoder child writes to stdout. -/
  stdout_lines : List String
  /-- Exit code of the encoder child. -/
  returncode : Int
  /-- Everything the encoder child wrote to stderr. -/
  stderr : String
  /-- Whether `os.makedirs` + `shutil.move` of the publish step succeed. -/
  publish_ok : Bool
  /-- Whether the best-effort `os.remove(entry.path)` succeeds. -/
  source_remove_ok : Bool
deriving Repr

/-- Python `str.strip()` on both ends (whitespace). -/
def py_strip (s : String) : String :=
  ⟨(s.data.dropWhile Char.isWhitespace).reverse.dropWhile Char.isWhitespace |>.reverse⟩

/-- Decimal value of a digit run. -/
def digits_to_nat (ds : List Char) : Nat :=
  ds.foldl (fun acc c => acc * 10 + (c.toNat - '0'.toNat)) 0

/-- Python `int(str)` — optional sign and nonempty digit run after
stripping whitespace (`None` on anything else; the numeric-literal
underscore forms never occur in encoder output). -/
def py_parse_int (s : String) : Option Int :=
  let t := py_strip s
  match t.data with
  | [] => none
  | '-' :: ds => if ds ≠ [] ∧ ds.all Char.isDigit then some (-(digits_to_nat ds : Int)) else none
  | '+' :: ds => if ds ≠ [] ∧ ds.all Char.isDigit then some ((digits_to_nat ds : Int)) else none
  | ds => if ds.all Char.isDigit then some ((digits_to_nat ds : Int)) else none

/-- fps of one video stream in `_encode`'s frame estimate:
`float(num)/float(den) if float(den) else 25.0`, falling back to 25.0
when the `r_frame_rate` string is absent (default `"25/1"`) or does
not parse. -/
def parse_fps (s : StreamInfo) : ℚ :=
  match s.r_frame_rate with
  | none => 25
  | some nd => if nd.2 = 0 then 25 else nd.1 / nd.2

/-- `float(vs.get("duration") or 0)` with parse failures leaving 0.0. -/
def parse_duration (s : StreamInfo) : ℚ := s.duration.getD 0

/-- `_encode`'s total-frame estimate: `sum(int(fps * duration))` over
video streams, falling back to `int(container_duration * 25)` when the
sum is zero. -/
def total_frames_estimate (streams : List StreamInfo) (fallback : Option ProbeDoc) : Int :=
  let t := (video_streams streams).foldl
    (fun acc s => acc + pyTrunc (parse_fps s * parse_duration s)) 0
  if t = 0 then
    match fallback with
    | none => t
    | some probe => pyTrunc ((probe.format.duration.getD 0) * 25)
  else t

/-- The last ≤ 600 characters `stderr_out[-600:]` of the stripped
stderr. -/
def stderr_tail (stderr : String) : String :=
  ⟨((py_strip stderr).data.reverse.take 600).reverse⟩

/-- One iteration of `_encode`'s stdout loop: on a `frame=N` line,
update `frames_done` (unparseable `N` keeps the previous value) and
commit `progress` / `frame_current`.  The state is
`(frames_done, store, commits so far)`. -/
def encode_line_step (u : String) (total : Int) (st : Int × Db × List Db)
    (line : String) : Int × Db × List Db :=
  let ls := py_strip line
  if ls.startsWith "frame=" then
    let frames' := (py_parse_int (ls.drop 6)).getD st.1
    let prog : ℚ :=
      if total > 0 then min 99 (((frames' : ℚ) * 100) / (total : ℚ)) else 0
    let db' := update_progress st.2.1 u
      [("progress", FieldVal.frat prog), ("frame_current", FieldVal.fint frames')]
    (frames', db', st.2.2 ++ [db'])
  else st

/-- `transcoder._encode` — frame-total estimate, the stdout streaming
loop, and the exit-code check.  Returns the resulting store, the list
of store states after each commit, and the raised error message when
the child exited non-zero. -/
def encode (db : Db) (e : Entry) (streams : List StreamInfo) (env : ProcEnv) :
    Db × List Db × Option String :=
  let total := total_frames_estimate streams env.fallback_probe
  let db1 := update_progress db e.uuid [("frame_total", FieldVal.fint total)]
  let res := env.stdout_lines.foldl (encode_line_step e.uuid total) (0, db1, [db1])
  let failure :=
    if env.returncode ≠ 0 then
      some ("ffmpeg exited " ++ toString env.returncode ++ ": " ++ stderr_tail env.stderr)
    else none
  (res.2.1, res.2.2, failure)

/-- `os.path.dirname` — everything before the last `/` (empty when the
path has no `/`). -/
def py_dirname (p : String) : String :=
  match (p.data.reverse.dropWhile (fun c => c ≠ '/')) with
  | [] => ""
  | _ :: rest => ⟨rest.reverse⟩

/-- `transcoder._dest_path_for`. -/
def dest_path_for (e : Entry) : String :=
  py_dirname e.path ++ "/" ++ e.hash ++ "." ++ e.name ++ ".mkv"

/-- `transcoder._cleanup_workdir` — delete the workfile if present. -/
def cleanup_workdir (fs : List String) (u : String) : List String :=
  fs.filter (fun p => p ≠ tmp_path_for u)

/-- Result of one `_process_file` run: final store, the store after
each commit (in commit order), resulting filesystem, and the error
message of the `except` branch when it ran. -/
structure ProcOut where
  final : Db
  commits : List Db
  fs : List String
  failure : Option String
deriving Repr

/-- `transcoder._process_file` — probe, skip decision, the
`IN_PROGRESS` transition, encode, publish-or-rollback.  Every
`db.update_progress` call of the source is one commit in `commits`. -/
def process_file (cfg : Config) (db : Db) (fs : List String) (e : Entry) (env : ProcEnv) :
    ProcOut :=
  let tmp := tmp_path_for e.uuid
  let streams := (env.probe1.map ProbeDoc.streams).getD []
  if streams.isEmpty then
    let db1 := update_progress db e.uuid [("status", FieldVal.fstat FileStatus.pending)]
    { final := db1, commits := [db1], fs := fs, failure := none }
  else
    match env.probe2 with
    | none =>
      let db1 := update_progress db e.uuid [("status", FieldVal.fstat FileStatus.pending)]
      { final := db1, commits := [db1], fs := fs, failure := none }
    | some probe =>
      if (should_skip cfg e streams probe).1 then
        let db1 := update_progress db e.uuid
          [("status", FieldVal.fstat FileStatus.optimum), ("progress", FieldVal.frat 100)]
        { final := db1, commits := [db1], fs := fs, failure := none }
      else
        let db1 := update_progress db e.uuid
          [("status", FieldVal.fstat FileStatus.in_progress),
           ("progress", FieldVal.frat 0),
           ("workfile", FieldVal.fwork (some tmp))]
        let enc := encode db1 e streams env
        let fs1 := fs ++ [tmp]
        match enc.2.2 with
        | none =>
          if env.publish_ok then
            let fs2 := (fs1.filter (fun p => p ≠ tmp)) ++ [dest_path_for e]
            let db3 := update_progress enc.1 e.uuid
              [("status", FieldVal.fstat FileStatus.done),
               ("progress", FieldVal.frat 100),
               ("workfile", FieldVal.fwork none)]
            let fs3 := if env.source_remove_ok then fs2.filter (fun p => p ≠ e.path) else fs2
            { final := db3, commits := db1 :: enc.2.1 ++ [db3], fs := fs3, failure := none }
          else
            let fs2 := cleanup_workdir fs1 e.uuid
            let db3 := update_progress enc.1 e.uuid
              [("status", FieldVal.fstat FileStatus.pending),
               ("progress", FieldVal.frat 0),
               ("workfile", FieldVal.fwork none)]
            { final := db3, commits := db1 :: enc.2.1 ++ [db3], fs := fs2,
              failure := some "publish failed" }
        | some msg =>
          let fs2 := cleanup_workdir fs1 e.uuid
          let db3 := update_progress enc.1 e.uuid
            [("status", FieldVal.fstat FileStatus.pending),
             ("progress", FieldVal.frat 0),
             ("workfile", FieldVal.fwork none)]
          { final := db3, commits := db1 :: enc.2.1 ++ [db3], fs := fs2,
            failure := some msg }

/-- A path is a direct `<name>.mkv` child of the workdir
(`os.listdir(WORKDIR)` entries ending in `.mkv`). -/
def is_workdir_mkv (p : String) : Bool :=
  (WORKDIR ++ "/").data.isPrefixOf p.data && ".mkv".data.isSuffixOf p.data &&
    !((p.data.drop 9).contains '/')

/-- `transcoder._on_startup_cleanup` — deletes every leftover `*.mkv`
directly under the workdir.  The function takes no store connection
and performs no store access. -/
def on_startup_cleanup (fs : List String) : List String :=
  fs.filter (fun p => !(is_workdir_mkv p))

/-! ## Scanner and startup (`scanner.py`, `app.py`) -/

/-- One candidate file of a scan, with the values the injected helpers
(`hasher`, `classify_fn`, `clean_fn`, `probe_fn`) and `Entry.new`
produce for it. -/
structure ScanFile where
  path : String
  hash : String
  size : Int
  uuid : String
  name : String
  declared : Metadata
  actual : Metadata
deriving Repr

/-- `scanner.scan_sources`, restricted to its store effect: for each
discovered candidate, skip when `(hash, path)` is already present,
otherwise `insert_new_file` with entry, both metadata rows and a
`PENDING` progress row. -/
def scan_sources (db : Db) (found : List ScanFile) : Db :=
  found.foldl
    (fun db f =>
      match get_entry_by_hash_and_path db f.hash f.path with
      | some _ => db
      | none =>
        insert_new_file db
          { uuid := f.uuid, name := f.name, hash := f.hash, path := f.path, size := f.size }
          [f.declared, f.actual])
    db

/-- `app._ensure_started` — init the store (drop-and-recreate empties
the three tables), run the one-shot scan, then the transcoder worker's
startup hook (`_on_startup_cleanup`), which touches only the
filesystem. -/
def ensure_started (master : SqliteMaster) (db : Db) (fs : List String)
    (found : List ScanFile) : SqliteMaster × Db × List String :=
  let v := validate_schema master
  let db1 := if v.1 then db else { entries := [], metadata := [], progress := [] }
  let db2 := scan_sources db1 found
  let fs1 := on_startup_cleanup fs
  (v.2, db2, fs1)

/-! ## Invariants, well-formedness and commit traces -/

/-- The workfile invariant: `status = IN_PROGRESS` ⇔ `workfile`
non-null, for every progress row. -/
def inv_workfile (db : Db) : Prop :=
  ∀ r ∈ db.progress, (r.status = FileStatus.in_progress ↔ r.workfile ≠ none)

/-- Primary-key well-formedness of the progress table. -/
def wf_progress_keys (db : Db) : Prop :=
  (db.progress.map ProgressRow.uuid).Nodup

/-- No stored row carries the never-written `unknown` status. -/
def wf_statuses (db : Db) : Prop :=
  ∀ r ∈ db.progress, r.status ≠ FileStatus.unknown

/-- The ordered status pairs along a list of committed store states,
for one uuid: each adjacent pair of states where the row's status
changed contributes `(old, new)`. -/
def status_changes (states : List Db) (u : String) : List (FileStatus × FileStatus) :=
  match states with
  | [] => []
  | [_] => []
  | a :: b :: rest =>
    (match statusOf a u, statusOf b u with
     | some s1, some s2 => if s1 ≠ s2 then [(s1, s2)] else []
     | _, _ => []) ++ status_changes (b :: rest) u

/-- The seven transitions the specification's transition table lists. -/
def claimed_transitions : List (FileStatus × FileStatus) :=
  [(FileStatus.pending, FileStatus.queued),
   (FileStatus.queued, FileStatus.in_progress),
   (FileStatus.in_progress, FileStatus.done),
   (FileStatus.in_progress, FileStatus.optimum),
   (FileStatus.in_progress, FileStatus.pending),
   (FileStatus.done, FileStatus.queued),
   (FileStatus.optimum, FileStatus.queued)]

/-- The transitions the code actually commits: the worker decides skip
and probe failure before setting `IN_PROGRESS`, so `QUEUED → OPTIMUM`
and `QUEUED → PENDING` are committed as well. -/
def observed_transitions : List (FileStatus × FileStatus) :=
  claimed_transitions ++
    [(FileStatus.queued, FileStatus.optimum), (FileStatus.queued, FileStatus.pending)]

/-- Commit trace of `enqueue_uuid`: initial state plus its single
transaction. -/
def enqueue_uuid_trace (db : Db) (u : String) : List Db :=
  [db, (enqueue_uuid db u).2]

/-- Commit trace of `enqueue_best`. -/
def enqueue_best_trace (db : Db) : List Db :=
  [db, (enqueue_best db).2]

/-- Commit trace of the Scanner's per-file insert. -/
def insert_new_file_trace (db : Db) (e : Entry) (ms : List Metadata) : List Db :=
  [db, insert_new_file db e ms]

/-- Commit trace of one `_process_file` run. -/
def process_file_trace (cfg : Config) (db : Db) (fs : List String) (e : Entry)
    (env : ProcEnv) : List Db :=
  db :: (process_file cfg db fs e env).commits

/-! ## Claim-side specification functions

These two definitions follow the wording of the specification (for the
refinement claim about the skip oracle); they are compared against the
source-derived `should_skip` / `crf_bitrate_threshold` above. -/

/-- The 1080p bitrate threshold as the specification words it: exact
lookup in the CRF table, linear interpolation between adjacent rows,
clamping to the nearest end outside `[16, 28]`. -/
def crf_threshold_spec (crf : Int) : Int :=
  if crf ≤ 16 then 8000
  else if 28 ≤ crf then 800
  else
    let lo := 16 + 2 * ((crf - 16) / 2)
    let hi := lo + 2
    table_lookup lo + (crf - lo) * (table_lookup hi - table_lookup lo) / 2

/-- The skip decision as the specification words it: do not skip when a
video stream is taller than a positive `res_cap`; skip when a video
codec is HEVC/H.265; otherwise, with positive `source_kbps`, skip iff
the bitrate normalised to 1080p pixels (integer arithmetic) is strictly
below the CRF threshold. -/
def should_skip_spec (cfg : Config) (streams : List StreamInfo) (probe : ProbeDoc) : Bool :=
  let vs := video_streams streams
  if cfg.movie_res_cap > 0 ∧ ∃ s ∈ vs, s.height.getD 0 > cfg.movie_res_cap then
    false
  else if ∃ s ∈ vs, py_lower s.codec_name = "hevc" ∨ py_lower s.codec_name = "h265" then
    true
  else
    let source_kbps := Int.fdiv (probe.format.bit_rate.getD 0) 1000
    if 0 < source_kbps then
      let max_pixels :=
        py_max_default (vs.map (fun s => (s.width.getD 1920) * (s.height.getD 1080))) (1920 * 1080)
      decide (source_kbps * (1920 * 1080) / max_pixels < crf_threshold_spec cfg.movie_crf)
    else false

/-! ## Classifier (`classifier.py`) — character-level embedding

Python regex/string semantics are modelled at the character level
(ASCII case tables, as all patterns and callers use ASCII).  `\s` is
Python's `[ \t\n\r\f\v]`, `\w` is alphanumeric plus underscore. -/

/-- Python `\s`. -/
def py_ws (c : Char) : Bool :=
  c == ' ' || c == '\t' || c == '\n' || c == '\r' || c == '\x0c' || c == '\x0b'

/-- Python `\w` (ASCII view). -/
def is_word (c : Char) : Bool := c.isAlphanum || c == '_'

/-- `_PUNCT_RE`'s class `[.\-_]`. -/
def is_punct3 (c : Char) : Bool := c == '.' || c == '-' || c == '_'

/-- `_BRACKETS_RE`'s class. -/
def is_bracket (c : Char) : Bool :=
  c == '[' || c == ']' || c == '(' || c == ')' ||
  c == Char.ofNat 123 || c == Char.ofNat 125 || c == '<' || c == '>'

/-- `str.strip()` on a character list. -/
def pstrip (l : List Char) : List Char :=
  ((l.dropWhile py_ws).reverse.dropWhile py_ws).reverse

/-- `os.path.basename`. -/
def py_basename (l : List Char) : List Char :=
  (l.reverse.takeWhile (fun c => c ≠ '/')).reverse

/-- The stem of `os.path.splitext`: cut at the last dot, unless every
character before it is a dot. -/
def splitext_stem (l : List Char) : List Char :=
  match l.reverse.findIdx? (fun c => c == '.') with
  | none => l
  | some k =>
    let j := l.length - 1 - k
    if (l.take j).any (fun c => c ≠ '.') then l.take j else l

/-- Case-insensitive prefix match against a lowercase pattern. -/
def ci_pref : List Char → List Char → Bool
  | [], _ => true
  | _ :: _, [] => false
  | p :: ps, c :: cs => c.toLower == p && ci_pref ps cs

/-- Length of the maximal run satisfying `p`. -/
def run_len (p : Char → Bool) (l : List Char) : Nat := (l.takeWhile p).length

/-- `[\w\-]`. -/
def is_wd (c : Char) : Bool := is_word c || c == '-'

/-- The all-optional tail `[\s._\-]*(?:-\s*)?` of `_URL_WATERMARK_RE`
(the optional part never fires: `-` already belongs to the class). -/
def url_tail_len (l : List Char) : Nat :=
  run_len (fun c => py_ws c || c == '.' || c == '_' || c == '-') l

/-- Match of `_URL_WATERMARK_RE` at position 0 (the pattern is
anchored): `www\.[\w\-]+\.[\w]{2,6}` first, else
`[\w\-]+\.(?:com|net|org|io|tv|me)`, each followed by the optional
tail.  Returns the matched length. -/
def match_url (l : List Char) : Option Nat :=
  let alt1 : Option Nat :=
    if ci_pref ['w', 'w', 'w', '.'] l then
      let l1 := l.drop 4
      let r1 := run_len is_wd l1
      if r1 = 0 then none
      else match l1.drop r1 with
        | '.' :: l2 =>
          let r2 := run_len is_word l2
          if r2 ≥ 2 then
            let w := min r2 6
            some (4 + r1 + 1 + w + url_tail_len (l2.drop w))
          else none
        | _ => none
    else none
  match alt1 with
  | some n => some n
  | none =>
    let r1 := run_len is_wd l
    if r1 = 0 then none
    else match l.drop r1 with
      | '.' :: l2 =>
        match ["com", "net", "org", "io", "tv", "me"].find?
            (fun t => ci_pref t.data l2) with
        | some t => some (r1 + 1 + t.data.length + url_tail_len (l2.drop t.data.length))
        | none => none
      | _ => none

/-- `_URL_WATERMARK_RE.sub("", text)`. -/
def url_sub (l : List Char) : List Char :=
  match match_url l with
  | some n => l.drop n
  | none => l

/-- `[\w\.\s]`. -/
def is_tagchar (c : Char) : Bool := is_word c || c == '.' || py_ws c

/-- `\s+-\s+` matched at the head (greedy). -/
def tag_tail (l : List Char) : Option Nat :=
  let r1 := run_len py_ws l
  if r1 = 0 then none
  else match l.drop r1 with
    | '-' :: l2 =>
      let r2 := run_len py_ws l2
      if r2 = 0 then none else some (r1 + 1 + r2)
    | _ => none

/-- Backtracking of the greedy `[\w\.\s]{1,40}`: try the longest
first-part length first. -/
def match_tag_from (l : List Char) : Nat → Option Nat
  | 0 => none
  | k + 1 =>
    match tag_tail (l.drop (k + 1)) with
    | some m => some (k + 1 + m)
    | none => match_tag_from l k

/-- `_LEADING_TAG_RE.match(text)`, returning the end of the match. -/
def match_tag (l : List Char) : Option Nat :=
  match_tag_from l (min (run_len is_tagchar l) 40)

/-- `classifier._strip_watermark`. -/
def strip_watermark (l : List Char) : List Char :=
  let cleaned := pstrip (url_sub l)
  if cleaned ≠ l then cleaned
  else match match_tag l with
    | some n =>
      let candidate := pstrip (l.drop n)
      if candidate.length ≥ 3 then candidate else l
    | none => l

mutual

/-- `_PUNCT_RE.sub(" ", ·)` — each maximal `[.\-_]+` run becomes one
space. -/
def punct_sub : List Char → List Char
  | [] => []
  | c :: rest =>
    if is_punct3 c then ' ' :: punct_skip rest else c :: punct_sub rest

/-- Continuation of `punct_sub` inside a punctuation run. -/
def punct_skip : List Char → List Char
  | [] => []
  | c :: rest =>
    if is_punct3 c then punct_skip rest else c :: punct_sub rest

end

/-- `_BRACKETS_RE.sub(" ", ·)`. -/
def brackets_sub (l : List Char) : List Char :=
  l.map (fun c => if is_bracket c then ' ' else c)

/-- `_YEAR_RE` (`\b(19|20)\d{2}\b`) matched at the head, `prev` being
the character before it. -/
def year_at (prev : Option Char) (l : List Char) : Bool :=
  match l with
  | a :: b :: c :: d :: rest =>
    (match prev with | none => true | some p => !(is_word p)) &&
    ((a == '1' && b == '9') || (a == '2' && b == '0')) &&
    c.isDigit && d.isDigit &&
    (match rest with | [] => true | e :: _ => !(is_word e))
  | _ => false

/-- Scan for the first `_YEAR_RE` match (`re.search`). -/
def year_find_aux : Option Char → Nat → List Char → Option Nat
  | _, _, [] => none
  | prev, i, c :: rest =>
    if year_at prev (c :: rest) then some i
    else year_find_aux (some c) (i + 1) rest

def year_find (l : List Char) : Option Nat := year_find_aux none 0 l

/-- One alternative of `_JUNK_TOKENS`: a literal, or a literal pair
with an optional one-character separator class between them (the
greedy `?` tries the separator first). -/
inductive JunkTok where
  | lit (s : String)
  | sep2 (a : String) (cls : Char → Bool) (b : String)

/-- `[\._\-]`. -/
def cls_dh (c : Char) : Bool := c == '.' || c == '_' || c == '-'

/-- `[\._\s]`. -/
def cls_ds (c : Char) : Bool := c == '.' || c == '_' || py_ws c

/-- The `_JUNK_TOKENS` alternation, in source order (`x?` expanded
greedily), in four chunks. -/
def junk_tokens1 : List JunkTok :=
  [.lit "2160p", .lit "1080p", .lit "1080i", .lit "720p", .lit "576p", .lit "480p",
   .lit "4k", .lit "uhd",
   .lit "hdr", .lit "hdr10", .lit "hdr10+", .lit "dv", .sep2 "dolby" cls_ds "vision",
   .lit "hlg",
   .lit "bluray", .sep2 "blu" cls_dh "ray", .lit "bdrip", .lit "bdremux", .lit "bdmux",
   .sep2 "web" cls_dh "dl", .lit "webrip", .lit "web", .lit "amzn", .lit "nf",
   .lit "hmax", .lit "dsnp", .lit "atvp", .lit "pcok"]

def junk_tokens2 : List JunkTok :=
  [.lit "hdtv", .lit "dvdrip", .lit "dvdscr", .lit "dvd", .lit "ts", .lit "cam",
   .lit "r5", .lit "scr",
   .lit "hevc", .lit "x265", .lit "x264", .lit "h264", .lit "h265", .lit "avc",
   .lit "xvid", .lit "divx", .lit "av1", .lit "vp9", .lit "vp8",
   .sep2 "10" cls_dh "bit", .lit "10bit", .lit "8bit", .lit "12bit", .lit "hq"]

def junk_tokens3 : List JunkTok :=
  [.lit "aac", .lit "dts", .lit "truehd", .lit "atmos", .lit "dd5.1", .lit "dd2.0",
   .lit "ac3", .lit "eac3", .lit "opus", .lit "flac", .lit "mp3", .lit "lpcm", .lit "pcm",
   .lit "dolby", .sep2 "dolby" cls_ds "digital", .sep2 "dolby" cls_ds "atmos",
   .lit "remux", .lit "repack", .lit "proper", .lit "extended", .lit "theatrical",
   .sep2 "directors" cls_ds "cut", .lit "unrated", .lit "retail",
   .lit "internal", .lit "limited", .lit "complete", .lit "season", .lit "episode"]

def junk_tokens4 : List JunkTok :=
  [.lit "yts", .lit "yify", .lit "rarbg", .lit "eztv", .lit "ettv", .lit "mkvcage",
   .lit "sparks", .lit "fgt", .lit "ntb", .lit "nf", .lit "ion10",
   .lit "tigole", .lit "qxr", .lit "bhdstudio", .lit "framestor", .lit "cinemageddon",
   .lit "sample", .lit "trailer", .lit "featurette", .lit "extras", .lit "extra"]

def junk_tokens : List JunkTok :=
  junk_tokens1 ++ junk_tokens2 ++ junk_tokens3 ++ junk_tokens4

/-- The characters one alternative consumes at the head of `l`. -/
def junk_tok_match (t : JunkTok) (l : List Char) : Option Nat :=
  match t with
  | .lit s => if ci_pref s.data l then some s.data.length else none
  | .sep2 a cls b =>
    if ci_pref a.data l then
      let l1 := l.drop a.data.length
      if (match l1 with
          | c :: l2 => cls c && ci_pref b.data l2
          | [] => false) then
        some (a.data.length + 1 + b.data.length)
      else if ci_pref b.data l1 then some (a.data.length + b.data.length)
      else none
    else none

/-- An alternative together with the trailing `\b`. -/
def junk_alt_ok (t : JunkTok) (l : List Char) : Option Nat :=
  match junk_tok_match t l with
  | some n =>
    match l.drop (n - 1) with
    | lc :: rest2 =>
      let nextw := match rest2 with | [] => false | d :: _ => is_word d
      if is_word lc != nextw then some n else none
    | [] => none
  | none => none

/-- First alternative (in source order) that matches. -/
def junk_find_alt : List JunkTok → List Char → Option Nat
  | [], _ => none
  | t :: ts, l =>
    match junk_alt_ok t l with
    | some n => some n
    | none => junk_find_alt ts l

/-- `_JUNK_TOKENS` match at the current position (`prev` the previous
character, for the leading `\b`; every alternative starts with a word
character). -/
def junk_match_here (prev : Option Char) (l : List Char) : Option Nat :=
  if (match prev with | none => true | some p => !(is_word p)) then
    junk_find_alt junk_tokens l
  else none

/-- `_JUNK_TOKENS.sub("", ·)` — left-to-right scan, continuing after
each match (fuel = remaining length). -/
def junk_sub_aux : Nat → Option Char → List Char → List Char
  | 0, _, l => l
  | fuel + 1, prev, l =>
    match l with
    | [] => []
    | c :: rest =>
      match junk_match_here prev l with
      | some n => junk_sub_aux fuel ((l.drop (n - 1)).head?) (l.drop n)
      | none => c :: junk_sub_aux fuel (some c) rest

def junk_sub (l : List Char) : List Char := junk_sub_aux l.length none l

mutual

/-- `_MULTI_SPACE_RE.sub(" ", ·)` — each `\s{2,}` run becomes one
space; single whitespace characters stay as they are. -/
def msp : List Char → List Char
  | [] => []
  | c :: rest =>
    if py_ws c && (match rest with | [] => false | d :: _ => py_ws d) then
      ' ' :: msp_skip rest
    else c :: msp rest

/-- Continuation of `msp` inside a whitespace run. -/
def msp_skip : List Char → List Char
  | [] => []
  | c :: rest => if py_ws c then msp_skip rest else c :: msp rest

end

/-- `.strip(" -_.")`'s character set. -/
def strip_set (c : Char) : Bool := c == ' ' || c == '-' || c == '_' || c == '.'

/-- `.strip(" -_.")`. -/
def strip_chars (l : List Char) : List Char :=
  ((l.dropWhile strip_set).reverse.dropWhile strip_set).reverse

/-- `str.title()` — uppercase a letter after an uncased character,
lowercase a letter after a cased one (ASCII case tables). -/
def py_title_aux : Bool → List Char → List Char
  | _, [] => []
  | prev, c :: rest =>
    (if c.isAlpha then (if prev then c.toLower else c.toUpper) else c) ::
      py_title_aux c.isAlpha rest

def py_title (l : List Char) : List Char := py_title_aux false l

/-- `result[:120].rsplit(" ", 1)[0]`'s split: everything before the
last space (the whole string when there is none). -/
def rsplit_head (l : List Char) : List Char :=
  match l.reverse.dropWhile (fun c => !(c == ' ')) with
  | [] => l
  | _ :: post => post.reverse

/-- The final truncation of `clean_filename`. -/
def truncate120 (l : List Char) : List Char :=
  if l.length > 120 then rsplit_head (l.take 120) else l

/-- `clean_filename`'s cleaning pipeline before title-casing. -/
def clean_stem (raw : String) : List Char :=
  let name0 := splitext_stem (py_basename raw.data)
  let name1 := strip_watermark name0
  let name2 := brackets_sub (punct_sub name1)
  let name3 :=
    match year_find name2 with
    | some i => pstrip (name2.take i)
    | none => junk_sub name2
  strip_chars (msp name3)

/-- `classifier.clean_filename`. -/
def clean_filename (raw : String) : String :=
  let name := clean_stem raw
  let result := if name ≠ [] then py_title name else pstrip raw.data
  ⟨truncate120 result⟩

/-- The per-character mapping of `py_title_aux`. -/
def tmap (prev : Bool) (c : Char) : Char :=
  if c.isAlpha then (if prev then c.toLower else c.toUpper) else c

/-- No two adjacent whitespace characters. -/
def Rws (a b : Char) : Prop := ¬(py_ws a = true ∧ py_ws b = true)

/-! ## Example fixtures used by witnesses and counterexamples -/

def exEntry : Entry :=
  { uuid := "u1", name := "Movie", hash := "h1", path := "/source/a.mkv", size := 5 }

def exEntry2 : Entry :=
  { uuid := "u2", name := "Other", hash := "h2", path := "/source/b.mkv", size := 9 }

def exRow (s : FileStatus) : ProgressRow :=
  { uuid := "u1", status := s, progress := 0, frame_current := 0, frame_total := 0,
    workfile := none }

def exRow2 (s : FileStatus) : ProgressRow :=
  { uuid := "u2", status := s, progress := 0, frame_current := 0, frame_total := 0,
    workfile := none }

def exDbDone : Db :=
  { entries := [exEntry], metadata := [], progress := [exRow FileStatus.done] }

def exDbPending2 : Db :=
  { entries := [exEntry, exEntry2], metadata := [],
    progress := [exRow FileStatus.pending, exRow2 FileStatus.pending] }

def exDbQueued : Db :=
  { entries := [exEntry], metadata := [], progress := [exRow FileStatus.queued] }

/-- A 1080p HEVC video stream, as ffprobe reports it. -/
def exHevcStream : StreamInfo :=
  { codec_type := "video", codec_name := "hevc", profile := "Main",
    height := some 1080, width := some 1920, channels := none,
    r_frame_rate := some (25, 1), duration := some 60 }

def exProbeDoc : ProbeDoc :=
  { format := { bit_rate := some 5000000, duration := some 60 },
    streams := [exHevcStream] }

/-- A run environment in which both probes succeed on an
already-HEVC source, so the skip oracle fires. -/
def exSkipEnv : ProcEnv :=
  { probe1 := some exProbeDoc, probe2 := some exProbeDoc, fallback_probe := none,
    stdout_lines := [], returncode := 0, stderr := "", publish_ok := true,
    source_remove_ok := true }

def exCfg : Config := { movie_crf := 21, movie_res_cap := 1080 }

/-- A 1080p H.264 stream with no reported duration or bitrate, so the
skip oracle declines. -/
def exH264Stream : StreamInfo :=
  { codec_type := "video", codec_name := "h264", profile := "High",
    height := some 1080, width := some 1920, channels := none,
    r_frame_rate := none, duration := none }

def exProbe264 : ProbeDoc :=
  { format := { bit_rate := none, duration := none }, streams := [exH264Stream] }

/-- A row left `IN_PROGRESS` by a crash, pointing at its workfile. -/
def exRowIp : ProgressRow :=
  { uuid := "u1", status := FileStatus.in_progress, progress := 50,
    frame_current := 0, frame_total := 0, workfile := some (tmp_path_for "u1") }

def exDbIp : Db :=
  { entries := [exEntry], metadata := [], progress := [exRowIp] }

/-- A run environment whose encode succeeds but whose publish step
(`shutil.move`) fails. -/
def exFailEnv : ProcEnv :=
  { probe1 := some exProbe264, probe2 := some exProbe264, fallback_probe := none,
    stdout_lines := [], returncode := 0, stderr := "", publish_ok := false,
    source_remove_ok := true }

/-! # Theorems

## Store-level helper lemmas -/

theorem apply_field_uuid (r : ProgressRow) (kv : String × FieldVal) :
    (apply_field r kv).uuid = r.uuid := by
  unfold apply_field
  repeat' split
  all_goals rfl

theorem foldl_apply_field_uuid (l : List (String × FieldVal)) (r : ProgressRow) :
    (l.foldl apply_field r).uuid = r.uuid := by
  induction l generalizing r with
  | nil => rfl
  | cons kv l ih => rw [List.foldl_cons, ih, apply_field_uuid]

/-- `find?` over a per-uuid row update commutes with the update. -/
theorem find?_update (l : List ProgressRow) (u v : String) (f : ProgressRow → ProgressRow)
    (hf : ∀ r, (f r).uuid = r.uuid) :
    (l.map (fun r => if r.uuid = u then f r else r)).find? (fun r => r.uuid == v)
      = (l.find? (fun r => r.uuid == v)).map (fun r => if r.uuid = u then f r else r) := by
  induction l with
  | nil => rfl
  | cons a l ih =>
    have huuid : (if a.uuid = u then f a else a).uuid = a.uuid := by
      split
      · exact hf a
      · rfl
    by_cases ha : a.uuid = v
    · rw [List.map_cons, List.find?_cons_of_pos, List.find?_cons_of_pos]
      · rfl
      · simp [ha]
      · rw [huuid]
        simp [ha]
    · rw [List.map_cons, List.find?_cons_of_neg, List.find?_cons_of_neg, ih]
      · simp [ha]
      · rw [huuid]
        simp [ha]

theorem get_progress_set_status (db : Db) (u : String) (s : FileStatus) (v : String) :
    get_progress (set_status db u s) v
      = (get_progress db v).map (fun r => if r.uuid = u then { r with status := s } else r) := by
  unfold get_progress set_status
  exact find?_update db.progress u v _ (fun r => rfl)

theorem get_progress_update_progress (db : Db) (u : String)
    (fields : List (String × FieldVal)) (v : String) :
    get_progress (update_progress db u fields) v
      = (get_progress db v).map (fun r =>
          if r.uuid = u then
            (fields.filter (fun kv => allowed_update_keys.contains kv.1)).foldl apply_field r
          else r) := by
  unfold update_progress
  set updates := fields.filter (fun kv => allowed_update_keys.contains kv.1) with hup
  by_cases h : updates.isEmpty
  · have hnil : updates = [] := List.isEmpty_iff.mp h
    rw [if_pos h]
    cases hgp : get_progress db v with
    | none => simp
    | some r => simp [hnil]
  · rw [if_neg h]
    unfold get_progress
    exact find?_update db.progress u v _ (fun r => foldl_apply_field_uuid _ r)

/-- A found progress row carries the uuid it was found under. -/
theorem get_progress_uuid (db : Db) (u : String) (p : ProgressRow)
    (h : get_progress db u = some p) : p.uuid = u := by
  have := List.find?_some h
  simpa using this

theorem get_entry_uuid (db : Db) (u : String) (e : Entry)
    (h : get_entry_by_uuid db u = some e) : e.uuid = u := by
  have := List.find?_some h
  simpa using this

theorem set_status_entries (db : Db) (u : String) (s : FileStatus) :
    (set_status db u s).entries = db.entries := rfl

theorem set_status_metadata (db : Db) (u : String) (s : FileStatus) :
    (set_status db u s).metadata = db.metadata := rfl

/-! ## C4 — enqueue-by-uuid contract -/

/-- C4: for every uuid, `enqueue_uuid` returns `not_found` (404)
without mutation when no entry exists; `conflict` (409) without
mutation when the progress status is `QUEUED` or `IN_PROGRESS`; and
otherwise (including status `DONE` or `OPTIMUM`) commits exactly the
status change to `QUEUED` and returns `accepted` (202). -/
theorem C4_enqueue_uuid_contract (db : Db) (u : String) :
    (get_entry_by_uuid db u = none →
      enqueue_uuid db u = ({ body := RespBody.err "not found", code := 404 }, db)) ∧
    (∀ e p, get_entry_by_uuid db u = some e → get_progress db u = some p →
      (p.status = FileStatus.queued ∨ p.status = FileStatus.in_progress) →
      enqueue_uuid db u =
        ({ body := RespBody.err ("already " ++ status_value p.status), code := 409 }, db)) ∧
    (∀ e p, get_entry_by_uuid db u = some e → get_progress db u = some p →
      ¬(p.status = FileStatus.queued ∨ p.status = FileStatus.in_progress) →
      (enqueue_uuid db u).1 = { body := RespBody.queued_resp u, code := 202 } ∧
      get_progress (enqueue_uuid db u).2 u = some { p with status := FileStatus.queued } ∧
      (∀ v, v ≠ u → get_progress (enqueue_uuid db u).2 v = get_progress db v) ∧
      (enqueue_uuid db u).2.entries = db.entries ∧
      (enqueue_uuid db u).2.metadata = db.metadata) := by
  refine ⟨?_, ?_, ?_⟩
  · intro h
    simp [enqueue_uuid, h]
  · intro e p he hp hq
    simp [enqueue_uuid, he, hp, hq]
  · intro e p he hp hq
    have hres : enqueue_uuid db u =
        ({ body := RespBody.queued_resp u, code := 202 }, set_status db u FileStatus.queued) := by
      simp [enqueue_uuid, he, hp, hq]
    rw [hres]
    refine ⟨rfl, ?_, ?_, rfl, rfl⟩
    · rw [get_progress_set_status, hp]
      have hu := get_progress_uuid db u p hp
      simp [hu]
    · intro v hv
      rw [get_progress_set_status]
      cases hgp : get_progress db v with
      | none => rfl
      | some r =>
        have hr : r.uuid = v := get_progress_uuid db v r hgp
        simp [hr, hv]

/-- Witness for C4 at a concrete store: a `DONE` row is re-enqueued. -/
theorem C4_enqueue_uuid_contract_witness :
    (enqueue_uuid exDbDone "u1").1 = { body := RespBody.queued_resp "u1", code := 202 } ∧
    get_progress (enqueue_uuid exDbDone "u1").2 "u1"
      = some { exRow FileStatus.done with status := FileStatus.queued } := by
  have h := (C4_enqueue_uuid_contract exDbDone "u1").2.2 exEntry (exRow FileStatus.done)
    rfl rfl (by decide)
  exact ⟨h.1, h.2.1⟩

/-! ## C5 — best-candidate selection and enqueue-best contract -/

theorem pick_largest_eq_none (l : List Entry) : pick_largest l = none ↔ l = [] := by
  cases l with
  | nil => simp [pick_largest]
  | cons a es =>
    simp only [pick_largest]
    cases h : pick_largest es <;> simp
    split <;> simp

theorem pick_largest_spec (l : List Entry) (e : Entry) (h : pick_largest l = some e) :
    ∃ l1 l2, l = l1 ++ e :: l2 ∧
      (∀ x ∈ l1, x.size < e.size) ∧ (∀ x ∈ l2, x.size ≤ e.size) := by
  induction l generalizing e with
  | nil => cases h
  | cons a es ih =>
    rw [show pick_largest (a :: es) =
        (match pick_largest es with
         | none => some a
         | some b => if b.size > a.size then some b else some a) from rfl] at h
    cases hb : pick_largest es with
    | none =>
      rw [hb] at h
      replace h : some a = some e := h
      cases h
      have hnil : es = [] := (pick_largest_eq_none es).mp hb
      subst hnil
      exact ⟨[], [], rfl, by simp, by simp⟩
    | some b =>
      rw [hb] at h
      replace h : (if b.size > a.size then some b else some a) = some e := h
      obtain ⟨l1, l2, hl, h1, h2⟩ := ih b hb
      by_cases hgt : b.size > a.size
      · rw [if_pos hgt] at h
        cases h
        refine ⟨a :: l1, l2, by rw [hl]; rfl, ?_, h2⟩
        intro x hx
        rcases List.mem_cons.mp hx with hx | hx
        · subst hx; exact hgt
        · exact h1 x hx
      · rw [if_neg hgt] at h
        cases h
        push_neg at hgt
        refine ⟨[], es, rfl, by simp, ?_⟩
        intro x hx
        rw [hl] at hx
        rcases List.mem_append.mp hx with hx | hx
        · exact le_of_lt (lt_of_lt_of_le (h1 x hx) hgt)
        · rcases List.mem_cons.mp hx with hx | hx
          · subst hx; exact hgt
          · exact le_trans (h2 x hx) hgt

/-- C5: `query_best_candidate` returns the first entry of maximal size
among the `PENDING` entries in insertion order (none when there are
none), and `enqueue_best` returns `conflict` when a row is `QUEUED` or
`IN_PROGRESS`, `not_found` when there is no candidate, and otherwise
queues exactly the best candidate and returns it with 202. -/
theorem C5_best_candidate_contract (db : Db) :
    (query_best_candidate db = none ↔ pending_entries db = []) ∧
    (∀ e, query_best_candidate db = some e →
      statusOf db e.uuid = some FileStatus.pending ∧
      ∃ l1 l2, pending_entries db = l1 ++ e :: l2 ∧
        (∀ x ∈ l1, x.size < e.size) ∧ (∀ x ∈ l2, x.size ≤ e.size)) ∧
    ((has_active_queue db = true) ↔ ∃ r ∈ db.progress,
      r.status = FileStatus.queued ∨ r.status = FileStatus.in_progress) ∧
    (has_active_queue db = true →
      enqueue_best db = ({ body := RespBody.err "queue already active", code := 409 }, db)) ∧
    (has_active_queue db = false → query_best_candidate db = none →
      enqueue_best db = ({ body := RespBody.err "no eligible candidates", code := 404 }, db)) ∧
    (∀ best, has_active_queue db = false → query_best_candidate db = some best →
      (enqueue_best db).1
        = { body := RespBody.best_resp best.uuid best.name best.size, code := 202 } ∧
      get_progress (enqueue_best db).2 best.uuid
        = (get_progress db best.uuid).map (fun r => { r with status := FileStatus.queued }) ∧
      (∀ v, v ≠ best.uuid → get_progress (enqueue_best db).2 v = get_progress db v) ∧
      (enqueue_best db).2.entries = db.entries ∧
      (enqueue_best db).2.metadata = db.metadata) := by
  refine ⟨pick_largest_eq_none _, ?_, ?_, ?_, ?_, ?_⟩
  · intro e he
    obtain ⟨l1, l2, hl, h1, h2⟩ := pick_largest_spec _ e he
    have hmem : e ∈ pending_entries db := by
      rw [hl]; exact List.mem_append.mpr (Or.inr (List.mem_cons_self _ _))
    have := List.mem_filter.mp hmem
    refine ⟨of_decide_eq_true this.2, l1, l2, hl, h1, h2⟩
  · constructor
    · intro h
      obtain ⟨r, hr, hstat⟩ := List.any_eq_true.mp h
      refine ⟨r, hr, ?_⟩
      rcases Bool.or_eq_true_iff.mp hstat with h' | h'
      · exact Or.inl (by simpa using h')
      · exact Or.inr (by simpa using h')
    · intro ⟨r, hr, hstat⟩
      refine List.any_eq_true.mpr ⟨r, hr, ?_⟩
      rcases hstat with h' | h' <;> simp [h']
  · intro h
    simp [enqueue_best, h]
  · intro h hq
    simp [enqueue_best, h, hq]
  · intro best h hq
    have hres : enqueue_best db =
        ({ body := RespBody.best_resp best.uuid best.name best.size, code := 202 },
         set_status db best.uuid FileStatus.queued) := by
      simp [enqueue_best, h, hq]
    rw [hres]
    refine ⟨rfl, ?_, ?_, rfl, rfl⟩
    · rw [get_progress_set_status]
      cases hgp : get_progress db best.uuid with
      | none => rfl
      | some r =>
        have hr : r.uuid = best.uuid := get_progress_uuid _ _ _ hgp
        simp [hr]
    · intro v hv
      rw [get_progress_set_status]
      cases hgp : get_progress db v with
      | none => rfl
      | some r =>
        have hr : r.uuid = v := get_progress_uuid _ _ _ hgp
        simp [hr, hv]

/-- Witness for C5: two `PENDING` entries of sizes 5 and 9 — the larger
one is selected and queued. -/
theorem C5_best_candidate_contract_witness :
    query_best_candidate exDbPending2 = some exEntry2 ∧
    (enqueue_best exDbPending2).1
      = { body := RespBody.best_resp "u2" "Other" 9, code := 202 } ∧
    get_progress (enqueue_best exDbPending2).2 "u2"
      = some { exRow2 FileStatus.pending with status := FileStatus.queued } := by
  have h := (C5_best_candidate_contract exDbPending2).2.2.2.2.2 exEntry2 rfl rfl
  exact ⟨rfl, h.1, h.2.1.trans rfl⟩

/-! ## C10 — frame effect of `update_progress` -/

theorem apply_field_status_ne (r : ProgressRow) (kv : String × FieldVal)
    (h : kv.1 ≠ "status") : (apply_field r kv).status = r.status := by
  unfold apply_field
  rw [if_neg h]
  repeat' split
  all_goals rfl

theorem apply_field_progress_ne (r : ProgressRow) (kv : String × FieldVal)
    (h : kv.1 ≠ "progress") : (apply_field r kv).progress = r.progress := by
  unfold apply_field
  repeat' split
  all_goals first | rfl | exact absurd (by assumption) h

theorem apply_field_frame_current_ne (r : ProgressRow) (kv : String × FieldVal)
    (h : kv.1 ≠ "frame_current") : (apply_field r kv).frame_current = r.frame_current := by
  unfold apply_field
  repeat' split
  all_goals first | rfl | exact absurd (by assumption) h

theorem apply_field_frame_total_ne (r : ProgressRow) (kv : String × FieldVal)
    (h : kv.1 ≠ "frame_total") : (apply_field r kv).frame_total = r.frame_total := by
  unfold apply_field
  repeat' split
  all_goals first | rfl | exact absurd (by assumption) h

theorem apply_field_workfile_ne (r : ProgressRow) (kv : String × FieldVal)
    (h : kv.1 ≠ "workfile") : (apply_field r kv).workfile = r.workfile := by
  unfold apply_field
  repeat' split
  all_goals first | rfl | exact absurd (by assumption) h

theorem foldl_apply_field_status_ne (l : List (String × FieldVal)) (r : ProgressRow)
    (h : "status" ∉ l.map Prod.fst) : (l.foldl apply_field r).status = r.status := by
  induction l generalizing r with
  | nil => rfl
  | cons kv l ih =>
    rw [List.map_cons, List.mem_cons] at h
    push_neg at h
    rw [List.foldl_cons, ih _ h.2, apply_field_status_ne _ _ (fun hk => h.1 hk.symm)]

theorem foldl_apply_field_progress_ne (l : List (String × FieldVal)) (r : ProgressRow)
    (h : "progress" ∉ l.map Prod.fst) : (l.foldl apply_field r).progress = r.progress := by
  induction l generalizing r with
  | nil => rfl
  | cons kv l ih =>
    rw [List.map_cons, List.mem_cons] at h
    push_neg at h
    rw [List.foldl_cons, ih _ h.2, apply_field_progress_ne _ _ (fun hk => h.1 hk.symm)]

theorem foldl_apply_field_frame_current_ne (l : List (String × FieldVal)) (r : ProgressRow)
    (h : "frame_current" ∉ l.map Prod.fst) :
    (l.foldl apply_field r).frame_current = r.frame_current := by
  induction l generalizing r with
  | nil => rfl
  | cons kv l ih =>
    rw [List.map_cons, List.mem_cons] at h
    push_neg at h
    rw [List.foldl_cons, ih _ h.2, apply_field_frame_current_ne _ _ (fun hk => h.1 hk.symm)]

theorem foldl_apply_field_frame_total_ne (l : List (String × FieldVal)) (r : ProgressRow)
    (h : "frame_total" ∉ l.map Prod.fst) :
    (l.foldl apply_field r).frame_total = r.frame_total := by
  induction l generalizing r with
  | nil => rfl
  | cons kv l ih =>
    rw [List.map_cons, List.mem_cons] at h
    push_neg at h
    rw [List.foldl_cons, ih _ h.2, apply_field_frame_total_ne _ _ (fun hk => h.1 hk.symm)]

theorem foldl_apply_field_workfile_ne (l : List (String × FieldVal)) (r : ProgressRow)
    (h : "workfile" ∉ l.map Prod.fst) : (l.foldl apply_field r).workfile = r.workfile := by
  induction l generalizing r with
  | nil => rfl
  | cons kv l ih =>
    rw [List.map_cons, List.mem_cons] at h
    push_neg at h
    rw [List.foldl_cons, ih _ h.2, apply_field_workfile_ne _ _ (fun hk => h.1 hk.symm)]

theorem update_progress_entries (db : Db) (u : String) (fields : List (String × FieldVal)) :
    (update_progress db u fields).entries = db.entries := by
  unfold update_progress
  dsimp only
  split <;> rfl

theorem update_progress_metadata (db : Db) (u : String) (fields : List (String × FieldVal)) :
    (update_progress db u fields).metadata = db.metadata := by
  unfold update_progress
  dsimp only
  split <;> rfl

/-- C10: `update_progress` touches only the allowed columns that were
actually passed, on the row of the given uuid only; keyword arguments
outside the allowed set are silently ignored, and a call passing no
allowed field writes nothing at all. -/
theorem C10_update_progress_frame_effect (db : Db) (u : String)
    (fields : List (String × FieldVal)) :
    (update_progress db u fields
      = update_progress db u (fields.filter (fun kv => allowed_update_keys.contains kv.1))) ∧
    (fields.filter (fun kv => allowed_update_keys.contains kv.1) = [] →
      update_progress db u fields = db) ∧
    ((update_progress db u fields).entries = db.entries ∧
     (update_progress db u fields).metadata = db.metadata) ∧
    (∀ v, v ≠ u → get_progress (update_progress db u fields) v = get_progress db v) ∧
    (∀ p, get_progress db u = some p →
      ∃ p', get_progress (update_progress db u fields) u = some p' ∧
        p'.uuid = p.uuid ∧
        ("status" ∉ fields.map Prod.fst → p'.status = p.status) ∧
        ("progress" ∉ fields.map Prod.fst → p'.progress = p.progress) ∧
        ("frame_current" ∉ fields.map Prod.fst → p'.frame_current = p.frame_current) ∧
        ("frame_total" ∉ fields.map Prod.fst → p'.frame_total = p.frame_total) ∧
        ("workfile" ∉ fields.map Prod.fst → p'.workfile = p.workfile)) := by
  refine ⟨?_, ?_, ⟨update_progress_entries db u fields, update_progress_metadata db u fields⟩,
    ?_, ?_⟩
  · have hidem : (fields.filter (fun kv => allowed_update_keys.contains kv.1)).filter
        (fun kv => allowed_update_keys.contains kv.1)
        = fields.filter (fun kv => allowed_update_keys.contains kv.1) := by
      rw [List.filter_filter]
      simp only [Bool.and_self]
    unfold update_progress
    dsimp only
    rw [hidem]
  · intro h
    unfold update_progress
    rw [h]
    rfl
  · intro v hv
    rw [get_progress_update_progress]
    cases hgp : get_progress db v with
    | none => rfl
    | some r =>
      have hr : r.uuid = v := get_progress_uuid _ _ _ hgp
      simp [hr, hv]
  · intro p hp
    have hu : p.uuid = u := get_progress_uuid _ _ _ hp
    have hsub : ∀ k : String,
        k ∉ fields.map Prod.fst →
        k ∉ (fields.filter (fun kv => allowed_update_keys.contains kv.1)).map Prod.fst := by
      intro k hk hmem
      obtain ⟨kv, hkv, hfst⟩ := List.mem_map.mp hmem
      exact hk (List.mem_map.mpr ⟨kv, List.mem_of_mem_filter hkv, hfst⟩)
    refine ⟨(fields.filter (fun kv => allowed_update_keys.contains kv.1)).foldl apply_field p,
      ?_, foldl_apply_field_uuid _ _, ?_, ?_, ?_, ?_, ?_⟩
    · rw [get_progress_update_progress, hp]
      simp [hu]
    · intro h; exact foldl_apply_field_status_ne _ _ (hsub _ h)
    · intro h; exact foldl_apply_field_progress_ne _ _ (hsub _ h)
    · intro h; exact foldl_apply_field_frame_current_ne _ _ (hsub _ h)
    · intro h; exact foldl_apply_field_frame_total_ne _ _ (hsub _ h)
    · intro h; exact foldl_apply_field_workfile_ne _ _ (hsub _ h)

/-- Witness for C10: an update passing `progress` plus an unknown key
changes only the `progress` column of the addressed row. -/
theorem C10_update_progress_frame_effect_witness :
    (update_progress exDbDone "u1" [("bogus", FieldVal.fint 3), ("progress", FieldVal.frat 50)]).entries
      = exDbDone.entries ∧
    ∃ p', get_progress (update_progress exDbDone "u1"
        [("bogus", FieldVal.fint 3), ("progress", FieldVal.frat 50)]) "u1" = some p' ∧
      p'.status = FileStatus.done ∧ p'.workfile = none := by
  have h := C10_update_progress_frame_effect exDbDone "u1"
    [("bogus", FieldVal.fint 3), ("progress", FieldVal.frat 50)]
  obtain ⟨-, -, ⟨hent, -⟩, -, hrow⟩ := h
  obtain ⟨p', hp', -, hstat, -, -, -, hwork⟩ := hrow (exRow FileStatus.done) rfl
  exact ⟨hent, p', hp', by rw [hstat (by decide)]; rfl, by rw [hwork (by decide)]; rfl⟩

/-! ## C8 — schema validation contract -/

/-- `lookup` commutes with a filter whose predicate holds on the key
looked up and depends only on keys. -/
theorem lookup_filter_of_key (l : List (String × String)) (names : List String)
    (k : String) (hk : names.contains k = true) :
    (l.filter (fun kv => names.contains kv.1)).lookup k = l.lookup k := by
  induction l with
  | nil => rfl
  | cons a l ih =>
    rcases a with ⟨k', v⟩
    by_cases hp : names.contains k' = true
    · rw [List.filter_cons, if_pos (by simpa using hp)]
      cases hbeq : (k == k') with
      | true => simp only [List.lookup, hbeq]
      | false =>
        simp only [List.lookup, hbeq]
        exact ih
    · rw [List.filter_cons, if_neg (by simpa using hp)]
      cases hbeq : (k == k') with
      | true =>
        have hkk : k = k' := by simpa using hbeq
        subst hkk
        exact absurd hk hp
      | false =>
        simp only [List.lookup, hbeq]
        exact ih

/-- A successful `lookup` exhibits a member with that key. -/
theorem lookup_mem_key (l : List (String × String)) (k v : String)
    (h : l.lookup k = some v) : k ∈ l.map Prod.fst := by
  induction l with
  | nil => cases h
  | cons a l ih =>
    rcases a with ⟨k', v'⟩
    cases hbeq : (k == k') with
    | true =>
      have : k = k' := by simpa using hbeq
      simp [this]
    | false =>
      simp only [List.lookup, hbeq] at h
      simpa using Or.inr (ih h)

/-- C8: `validate_schema` returns `true` iff the three stored table
definitions match the expected ones after whitespace normalisation
(leaving the schema untouched), returns `false` exactly when it dropped
and recreated the schema; on a fresh empty database the first call
returns `false` and creates the schema and a second call returns
`true`. -/
theorem C8_validate_schema_contract (master : SqliteMaster)
    (hnodup : ((master : List (String × String)).map Prod.fst).Nodup) :
    ((validate_schema master).1 = true ↔
      (∀ te ∈ expected_tables, ∃ sql,
        (master : List (String × String)).lookup te.1 = some sql ∧
        normalise_sql sql = normalise_sql te.2)) ∧
    ((validate_schema master).1 = true → (validate_schema master).2 = master) ∧
    ((validate_schema master).1 = false → (validate_schema master).2 = fresh_master) ∧
    validate_schema ([] : List (String × String)) = (false, fresh_master) ∧
    validate_schema fresh_master = (true, fresh_master) := by
  have names_eq : ∀ te ∈ expected_tables,
      (["entries", "metadata", "progress"].contains te.1 = true) := by decide
  refine ⟨?_, ?_, ?_, rfl, rfl⟩
  · constructor
    · intro h
      unfold validate_schema at h
      dsimp only at h
      split at h
      case isTrue hcond =>
        have hall := (Bool.and_eq_true _ _).mp hcond |>.1
        intro te hte
        have := List.all_eq_true.mp hall te hte
        cases hlk : (master.filter
            (fun kv => (["entries", "metadata", "progress"] : List String).contains kv.1)).lookup te.1 with
        | none => rw [hlk] at this; cases this
        | some sql =>
          rw [hlk] at this
          refine ⟨sql, ?_, by simpa using this⟩
          rw [← lookup_filter_of_key master _ te.1 (names_eq te hte)]
          exact hlk
      case isFalse hcond => cases h
    · intro h
      unfold validate_schema
      dsimp only
      rw [if_pos]
      refine (Bool.and_eq_true _ _).mpr ⟨?_, ?_⟩
      · refine List.all_eq_true.mpr ?_
        intro te hte
        obtain ⟨sql, hlk, hnorm⟩ := h te hte
        rw [lookup_filter_of_key master _ te.1 (names_eq te hte), hlk]
        simpa using hnorm
      · -- the filtered list has exactly the three table names
        set fl := master.filter
          (fun kv => (["entries", "metadata", "progress"] : List String).contains kv.1) with hfl
        have hsub : fl.Sublist master := List.filter_sublist _
        have hnd : (fl.map Prod.fst).Nodup := (hsub.map Prod.fst).nodup hnodup
        have hsubset : ∀ k ∈ fl.map Prod.fst, k ∈ (["entries", "metadata", "progress"] : List String) := by
          intro k hkmem
          obtain ⟨kv, hkv, rfl⟩ := List.mem_map.mp hkmem
          have := List.of_mem_filter hkv
          simpa using this
        have hnames_sub : (["entries", "metadata", "progress"] : List String) ⊆ fl.map Prod.fst := by
          intro k hkmem
          have hte : ∃ te ∈ expected_tables, te.1 = k := by
            fin_cases hkmem
            · exact ⟨("entries", expected_sql_entries), by simp [expected_tables], rfl⟩
            · exact ⟨("metadata", expected_sql_metadata), by simp [expected_tables], rfl⟩
            · exact ⟨("progress", expected_sql_progress), by simp [expected_tables], rfl⟩
          obtain ⟨te, hte, rfl⟩ := hte
          obtain ⟨sql, hlk, -⟩ := h te hte
          refine lookup_mem_key fl te.1 sql ?_
          rw [lookup_filter_of_key master _ te.1 (names_eq te hte)]
          exact hlk
        have hle : (fl.map Prod.fst).length ≤ 3 :=
          (List.subperm_of_subset hnd hsubset).length_le
        have hge : 3 ≤ (fl.map Prod.fst).length :=
          (List.subperm_of_subset (by decide) hnames_sub).length_le
        have hlen : fl.length = 3 := by
          have := le_antisymm hle hge
          simpa using this
        simp [hlen, expected_tables]
  · unfold validate_schema
    dsimp only
    split
    · intro _
      rfl
    · intro h
      simp at h
  · unfold validate_schema
    dsimp only
    split
    · intro h
      simp at h
    · intro _
      rfl

/-- Witness for C8: the fresh schema validates as already valid. -/
theorem C8_validate_schema_contract_witness :
    (validate_schema fresh_master).1 = true ∧
    (validate_schema fresh_master).2 = fresh_master := by
  have h := C8_validate_schema_contract fresh_master (by decide)
  rw [h.2.2.2.2]
  exact ⟨rfl, rfl⟩

/-! ## C3 — skip oracle refinement -/

theorem pyTrunc_intCast (n : Int) : pyTrunc ((n : ℚ)) = n := by
  simp [pyTrunc, Rat.num_intCast, Rat.den_intCast]

theorem pyTrunc_eq (q : ℚ) (n : Int) (h : q = (n : ℚ)) : pyTrunc q = n := by
  rw [h]; exact pyTrunc_intCast n

theorem tl16 : table_lookup 16 = 8000 := rfl
theorem tl18 : table_lookup 18 = 5500 := rfl
theorem tl20 : table_lookup 20 = 3800 := rfl
theorem tl22 : table_lookup 22 = 2500 := rfl
theorem tl24 : table_lookup 24 = 1700 := rfl
theorem tl26 : table_lookup 26 = 1200 := rfl
theorem tl28 : table_lookup 28 = 800 := rfl

theorem crf_threshold_eq (crf : Int) : crf_bitrate_threshold crf = crf_threshold_spec crf := by
  by_cases hlo : crf < 16
  · have hc : crf_table_keys.contains crf = false := by
      simp only [crf_table_keys, crf_bitrate_table, List.map_cons, List.map_nil,
        List.contains_cons]
      simp only [List.contains_nil, Bool.or_false]
      have hne : ∀ k : Int, crf ≠ k → (crf == k) = false := fun k h => beq_eq_false_iff_ne.mpr h
      rw [hne 16 (by omega), hne 18 (by omega), hne 20 (by omega), hne 22 (by omega),
        hne 24 (by omega), hne 26 (by omega), hne 28 (by omega)]
      rfl
    have h16 : decide ((16:Int) ≤ crf) = false := decide_eq_false (by omega)
    have h18 : decide ((18:Int) ≤ crf) = false := decide_eq_false (by omega)
    have h20 : decide ((20:Int) ≤ crf) = false := decide_eq_false (by omega)
    have h22 : decide ((22:Int) ≤ crf) = false := decide_eq_false (by omega)
    have h24 : decide ((24:Int) ≤ crf) = false := decide_eq_false (by omega)
    have h26 : decide ((26:Int) ≤ crf) = false := decide_eq_false (by omega)
    have h28 : decide ((28:Int) ≤ crf) = false := decide_eq_false (by omega)
    unfold crf_bitrate_threshold
    rw [hc]
    simp only [Bool.false_eq_true, if_false, crf_table_keys, crf_bitrate_table, List.map_cons,
      List.map_nil, List.filter_cons, h16, h18, h20, h22, h24, h26, h28]
    simp only [List.filter_nil, py_max?, py_min?]
    unfold crf_threshold_spec
    rw [if_pos (by omega : crf ≤ 16)]
    rfl
  · by_cases hhi : 28 < crf
    · have hc : crf_table_keys.contains crf = false := by
        simp only [crf_table_keys, crf_bitrate_table, List.map_cons, List.map_nil,
          List.contains_cons, List.contains_nil, Bool.or_false]
        have hne : ∀ k : Int, crf ≠ k → (crf == k) = false := fun k h => beq_eq_false_iff_ne.mpr h
        rw [hne 16 (by omega), hne 18 (by omega), hne 20 (by omega), hne 22 (by omega),
          hne 24 (by omega), hne 26 (by omega), hne 28 (by omega)]
        rfl
      have h16 : decide ((16:Int) ≤ crf) = true := decide_eq_true (by omega)
      have h18 : decide ((18:Int) ≤ crf) = true := decide_eq_true (by omega)
      have h20 : decide ((20:Int) ≤ crf) = true := decide_eq_true (by omega)
      have h22 : decide ((22:Int) ≤ crf) = true := decide_eq_true (by omega)
      have h24 : decide ((24:Int) ≤ crf) = true := decide_eq_true (by omega)
      have h26 : decide ((26:Int) ≤ crf) = true := decide_eq_true (by omega)
      have h28 : decide ((28:Int) ≤ crf) = true := decide_eq_true (by omega)
      have g16 : decide (crf ≤ (16:Int)) = false := decide_eq_false (by omega)
      have g18 : decide (crf ≤ (18:Int)) = false := decide_eq_false (by omega)
      have g20 : decide (crf ≤ (20:Int)) = false := decide_eq_false (by omega)
      have g22 : decide (crf ≤ (22:Int)) = false := decide_eq_false (by omega)
      have g24 : decide (crf ≤ (24:Int)) = false := decide_eq_false (by omega)
      have g26 : decide (crf ≤ (26:Int)) = false := decide_eq_false (by omega)
      have g28 : decide (crf ≤ (28:Int)) = false := decide_eq_false (by omega)
      unfold crf_bitrate_threshold
      rw [hc]
      simp only [Bool.false_eq_true, if_false, crf_table_keys, crf_bitrate_table, List.map_cons,
        List.map_nil, List.filter_cons, h16, h18, h20, h22, h24, h26, h28,
        g16, g18, g20, g22, g24, g26, g28]
      simp only [List.filter_nil, py_max?, py_min?]
      unfold crf_threshold_spec
      rw [if_neg (by omega : ¬crf ≤ 16), if_pos (by omega : 28 ≤ crf)]
      simp only [ite_true, ite_false, if_true, if_false]
      norm_num [py_max?, py_min?, tl28]
    · have hr : 16 ≤ crf ∧ crf ≤ 28 := by omega
      interval_cases crf <;>
        first
          | decide
          | (simp only [crf_bitrate_threshold, crf_threshold_spec, crf_table_keys,
               crf_bitrate_table, py_max?, py_min?]
             norm_num [tl16, tl18, tl20, tl22, tl24, tl26, tl28]
             refine pyTrunc_eq _ _ (by norm_num))

theorem pyTrunc_eq_floor (q : ℚ) (h : 0 ≤ q) : pyTrunc q = ⌊q⌋ := by
  rw [Rat.floor_def]
  unfold pyTrunc
  have h1 : 0 ≤ q.num := Rat.num_nonneg.mpr h
  obtain ⟨a, ha⟩ := Int.eq_ofNat_of_zero_le h1
  rw [ha]
  rfl

theorem pyTrunc_int_div (a b : Int) (ha : 0 ≤ a) (hb : 0 < b) :
    pyTrunc ((a : ℚ) / (b : ℚ)) = a / b := by
  have hq : (0 : ℚ) ≤ (a : ℚ) / (b : ℚ) := by
    apply div_nonneg
    · exact_mod_cast ha
    · exact_mod_cast hb.le
  rw [pyTrunc_eq_floor _ hq]
  obtain ⟨n, rfl⟩ : ∃ n : ℕ, b = (n : Int) := ⟨b.toNat, (Int.toNat_of_nonneg hb.le).symm⟩
  rw [show ((n : Int) : ℚ) = ((n : ℕ) : ℚ) by push_cast; ring]
  exact Rat.floor_intCast_div_natCast a n

theorem foldl_max_lt_iff (xs : List Int) (x c : Int) :
    c < xs.foldl max x ↔ c < x ∨ ∃ y ∈ xs, c < y := by
  induction xs generalizing x with
  | nil => simp
  | cons a xs ih =>
    rw [List.foldl_cons, ih, lt_max_iff]
    constructor
    · rintro ((h | h) | ⟨y, hy, h⟩)
      · exact Or.inl h
      · exact Or.inr ⟨a, by simp, h⟩
      · exact Or.inr ⟨y, by simp [hy], h⟩
    · rintro (h | ⟨y, hy, h⟩)
      · exact Or.inl (Or.inl h)
      · rcases List.mem_cons.mp hy with rfl | hy
        · exact Or.inl (Or.inr h)
        · exact Or.inr ⟨y, hy, h⟩

theorem py_max_default_gt_iff (l : List Int) (c : Int) (hc : 0 ≤ c) :
    c < py_max_default l 0 ↔ ∃ x ∈ l, c < x := by
  cases l with
  | nil =>
    simp only [py_max_default, List.not_mem_nil]
    constructor
    · intro h; omega
    · rintro ⟨x, hx, -⟩; cases hx
  | cons x xs =>
    rw [show py_max_default (x :: xs) 0 = xs.foldl max x from rfl, foldl_max_lt_iff]
    constructor
    · rintro (h | ⟨y, hy, h⟩)
      · exact ⟨x, by simp, h⟩
      · exact ⟨y, by simp [hy], h⟩
    · rintro ⟨y, hy, h⟩
      rcases List.mem_cons.mp hy with rfl | hy
      · exact Or.inl h
      · exact Or.inr ⟨y, hy, h⟩

/-- C3: the skip oracle decides exactly as specified — no skip when a
video stream is taller than a positive `res_cap`; skip when a video
codec is HEVC/H.265; otherwise, with positive `source_kbps`, skip iff
the bitrate normalised to 1080p pixels (integer arithmetic) is strictly
below the CRF threshold from the table by exact lookup, linear
interpolation and clamping; false in all remaining cases.  The
hypothesis excludes degenerate probe documents whose video streams
declare a non-positive pixel area. -/
theorem C3_should_skip_refines_spec (cfg : Config) (e : Entry)
    (streams : List StreamInfo) (probe : ProbeDoc)
    (hmax : 0 < py_max_default
      ((video_streams streams).map (fun s => (s.width.getD 1920) * (s.height.getD 1080)))
      PIXELS_1080P) :
    (should_skip cfg e streams probe).1 = should_skip_spec cfg streams probe ∧
    (cfg.movie_res_cap > 0 ∧
        (∃ s ∈ video_streams streams, s.height.getD 0 > cfg.movie_res_cap) →
      should_skip cfg e streams probe = (false, "")) := by
  have hcap_iff : (cfg.movie_res_cap > 0 ∧
        py_max_default ((video_streams streams).map (fun s => s.height.getD 0)) 0
          > cfg.movie_res_cap)
      ↔ (cfg.movie_res_cap > 0 ∧
        ∃ s ∈ video_streams streams, s.height.getD 0 > cfg.movie_res_cap) := by
    constructor
    · rintro ⟨hpos, hgt⟩
      refine ⟨hpos, ?_⟩
      obtain ⟨x, hx, hcx⟩ := (py_max_default_gt_iff _ _ hpos.le).mp hgt
      obtain ⟨s, hs, rfl⟩ := List.mem_map.mp hx
      exact ⟨s, hs, hcx⟩
    · rintro ⟨hpos, s, hs, hgt⟩
      exact ⟨hpos, (py_max_default_gt_iff _ _ hpos.le).mpr
        ⟨_, List.mem_map.mpr ⟨s, hs, rfl⟩, hgt⟩⟩
  have hhevc_iff : ((video_streams streams).any
        (fun s => hevc_codecs.contains (py_lower s.codec_name)) = true)
      ↔ (∃ s ∈ video_streams streams,
          py_lower s.codec_name = "hevc" ∨ py_lower s.codec_name = "h265") := by
    rw [List.any_eq_true]
    apply exists_congr
    intro s
    simp [hevc_codecs]
  have hdiv : 0 < Int.fdiv (probe.format.bit_rate.getD 0) 1000 →
      pyTrunc ((Int.fdiv (probe.format.bit_rate.getD 0) 1000 : ℚ) * (PIXELS_1080P : ℚ)
          / ((max (py_max_default ((video_streams streams).map
              (fun s => (s.width.getD 1920) * (s.height.getD 1080))) PIXELS_1080P) 1 : Int) : ℚ))
        = Int.fdiv (probe.format.bit_rate.getD 0) 1000 * (1920 * 1080)
          / py_max_default ((video_streams streams).map
              (fun s => (s.width.getD 1920) * (s.height.getD 1080))) PIXELS_1080P := by
    intro hk
    set k := Int.fdiv (probe.format.bit_rate.getD 0) 1000
    set mp := py_max_default ((video_streams streams).map
      (fun s => (s.width.getD 1920) * (s.height.getD 1080))) PIXELS_1080P
    have hmp1 : max mp 1 = mp := max_eq_left (by omega)
    rw [hmp1]
    have hcast : (k : ℚ) * (PIXELS_1080P : ℚ) = ((k * (1920 * 1080) : Int) : ℚ) := by
      rw [show PIXELS_1080P = 1920 * 1080 from rfl]
      push_cast
      ring
    rw [hcast, pyTrunc_int_div _ _ (by positivity) hmax]
  constructor
  · simp only [should_skip, should_skip_spec, effective_res_cap, effective_crf]
    by_cases h1 : cfg.movie_res_cap > 0 ∧
        py_max_default ((video_streams streams).map (fun s => s.height.getD 0)) 0
          > cfg.movie_res_cap
    · rw [if_pos h1, if_pos (hcap_iff.mp h1)]
    · rw [if_neg h1, if_neg (fun hc => h1 (hcap_iff.mpr hc))]
      by_cases h2 : (video_streams streams).any
          (fun s => hevc_codecs.contains (py_lower s.codec_name)) = true
      · rw [if_pos h2, if_pos (hhevc_iff.mp h2)]
      · rw [if_neg h2, if_neg (fun hc => h2 (hhevc_iff.mpr hc))]
        by_cases h3 : Int.fdiv (probe.format.bit_rate.getD 0) 1000 > 0
        · rw [if_pos h3, if_pos h3, hdiv h3, crf_threshold_eq]
          by_cases h4 : Int.fdiv (probe.format.bit_rate.getD 0) 1000 * (1920 * 1080)
              / py_max_default ((video_streams streams).map
                  (fun s => (s.width.getD 1920) * (s.height.getD 1080))) PIXELS_1080P
              < crf_threshold_spec cfg.movie_crf
          · rw [if_pos h4]
            have h4' := h4
            norm_num [PIXELS_1080P] at h4'
            simp [h4']
          · rw [if_neg h4]
            have h4' := h4
            norm_num [PIXELS_1080P] at h4'
            simp [h4']
        · rw [if_neg h3, if_neg h3]
  · intro hc
    simp only [should_skip, effective_res_cap]
    rw [if_pos (hcap_iff.mpr hc)]

/-- Witness for C3 at a concrete probe: an HEVC 1080p source under a
2160 res_cap is skipped, and a 3840×2160 source above a 1080 res_cap is
not. -/
theorem C3_should_skip_refines_spec_witness :
    (should_skip { movie_crf := 18, movie_res_cap := 0 } exEntry
        [{ codec_type := "video", codec_name := "hevc", profile := "",
           height := some 1080, width := some 1920, channels := none,
           r_frame_rate := none, duration := none }]
        { format := { bit_rate := some 500000, duration := none }, streams := [] }).1
      = should_skip_spec { movie_crf := 18, movie_res_cap := 0 }
        [{ codec_type := "video", codec_name := "hevc", profile := "",
           height := some 1080, width := some 1920, channels := none,
           r_frame_rate := none, duration := none }]
        { format := { bit_rate := some 500000, duration := none }, streams := [] } ∧
    should_skip { movie_crf := 18, movie_res_cap := 1080 } exEntry
        [{ codec_type := "video", codec_name := "hevc", profile := "",
           height := some 2160, width := some 3840, channels := none,
           r_frame_rate := none, duration := none }]
        { format := { bit_rate := some 2000000, duration := none }, streams := [] }
      = (false, "") := by
  refine ⟨(C3_should_skip_refines_spec _ exEntry _ _ (by decide)).1, ?_⟩
  exact (C3_should_skip_refines_spec { movie_crf := 18, movie_res_cap := 1080 } exEntry _ _
    (by decide)).2 (by refine ⟨by decide, ?_⟩; refine ⟨_, List.mem_cons_self _ _, by decide⟩)

/-! ## Commit-level helper lemmas for the encoder driver -/

theorem key_not_mem_filter (k : String) (fields : List (String × FieldVal))
    (h : k ∉ fields.map Prod.fst) :
    k ∉ (fields.filter (fun kv => allowed_update_keys.contains kv.1)).map Prod.fst := by
  intro hmem
  obtain ⟨kv, hkv, hfst⟩ := List.mem_map.mp hmem
  exact h (List.mem_map.mpr ⟨kv, List.mem_of_mem_filter hkv, hfst⟩)

/-- Rows with the key of a found progress row are that row, when the
progress table's primary key is respected. -/
theorem row_unique (db : Db) (hnd : wf_progress_keys db) (u : String) (p : ProgressRow)
    (hp : get_progress db u = some p) :
    ∀ r ∈ db.progress, r.uuid = u → r = p := by
  intro r hr hru
  have hpmem : p ∈ db.progress := List.mem_of_find?_eq_some hp
  have hpu : p.uuid = u := get_progress_uuid db u p hp
  exact List.inj_on_of_nodup_map hnd hr hpmem (by rw [hru, hpu])

/-- `update_progress` with fields that do not touch `status` or
`workfile` leaves the `(status, workfile)` view of every row's lookup
unchanged. -/
theorem update_progress_preserves_sw (db : Db) (u : String)
    (fields : List (String × FieldVal))
    (hs : "status" ∉ fields.map Prod.fst) (hw : "workfile" ∉ fields.map Prod.fst)
    (v : String) :
    (get_progress (update_progress db u fields) v).map (fun r => (r.status, r.workfile))
      = (get_progress db v).map (fun r => (r.status, r.workfile)) := by
  rw [get_progress_update_progress]
  cases hgp : get_progress db v with
  | none => rfl
  | some r =>
    simp only [Option.map_some']
    by_cases h : r.uuid = u
    · rw [if_pos h]
      rw [foldl_apply_field_status_ne _ _ (key_not_mem_filter _ _ hs),
        foldl_apply_field_workfile_ne _ _ (key_not_mem_filter _ _ hw)]
    · rw [if_neg h]

/-- Invariant preservation for an update that does not touch `status`
or `workfile`. -/
theorem inv_update_progress_no_sw (db : Db) (u : String)
    (fields : List (String × FieldVal))
    (hs : "status" ∉ fields.map Prod.fst) (hw : "workfile" ∉ fields.map Prod.fst)
    (hinv : inv_workfile db) : inv_workfile (update_progress db u fields) := by
  intro r' hr'
  unfold update_progress at hr'
  dsimp only at hr'
  split at hr'
  · exact hinv r' hr'
  · obtain ⟨r, hr, rfl⟩ := List.mem_map.mp hr'
    by_cases h : r.uuid = u
    · rw [if_pos h,
        foldl_apply_field_status_ne _ _ (key_not_mem_filter _ _ hs),
        foldl_apply_field_workfile_ne _ _ (key_not_mem_filter _ _ hw)]
      exact hinv r hr
    · rw [if_neg h]
      exact hinv r hr

/-- Invariant preservation for a per-row map update whose result
satisfies the invariant on the addressed rows. -/
theorem inv_map_update (db : Db) (u : String) (f : ProgressRow → ProgressRow)
    (hf : ∀ r ∈ db.progress, r.uuid = u →
      ((f r).status = FileStatus.in_progress ↔ (f r).workfile ≠ none))
    (hinv : inv_workfile db) :
    inv_workfile { db with
      progress := db.progress.map (fun r => if r.uuid = u then f r else r) } := by
  intro r' hr'
  obtain ⟨r, hr, rfl⟩ := List.mem_map.mp hr'
  by_cases h : r.uuid = u
  · rw [if_pos h]
    exact hf r hr h
  · rw [if_neg h]
    exact hinv r hr

/-- The concrete single-transaction updates of the encoder driver as
row-level record updates. -/
theorem upd_status_pending (db : Db) (u : String) :
    update_progress db u [("status", FieldVal.fstat FileStatus.pending)]
      = { db with
          progress := db.progress.map (fun r =>
            if r.uuid = u then { r with status := FileStatus.pending } else r) } := rfl

theorem upd_skip_optimum (db : Db) (u : String) :
    update_progress db u [("status", FieldVal.fstat FileStatus.optimum),
        ("progress", FieldVal.frat 100)]
      = { db with
          progress := db.progress.map (fun r =>
            if r.uuid = u then
              { r with status := FileStatus.optimum, progress := 100 } else r) } := rfl

theorem upd_in_progress (db : Db) (u : String) (tmp : String) :
    update_progress db u [("status", FieldVal.fstat FileStatus.in_progress),
        ("progress", FieldVal.frat 0), ("workfile", FieldVal.fwork (some tmp))]
      = { db with
          progress := db.progress.map (fun r =>
            if r.uuid = u then
              { r with status := FileStatus.in_progress, progress := 0, workfile := some tmp }
            else r) } := rfl

theorem upd_done (db : Db) (u : String) :
    update_progress db u [("status", FieldVal.fstat FileStatus.done),
        ("progress", FieldVal.frat 100), ("workfile", FieldVal.fwork none)]
      = { db with
          progress := db.progress.map (fun r =>
            if r.uuid = u then
              { r with status := FileStatus.done, progress := 100, workfile := none }
            else r) } := rfl

theorem upd_rollback (db : Db) (u : String) :
    update_progress db u [("status", FieldVal.fstat FileStatus.pending),
        ("progress", FieldVal.frat 0), ("workfile", FieldVal.fwork none)]
      = { db with
          progress := db.progress.map (fun r =>
            if r.uuid = u then
              { r with status := FileStatus.pending, progress := 0, workfile := none }
            else r) } := rfl

/-- Specialisations of the two preservation lemmas to the concrete
field lists of `_encode` (progress/frame updates). -/
theorem inv_update_pf (db : Db) (u : String) (q : ℚ) (n : Int)
    (hinv : inv_workfile db) :
    inv_workfile (update_progress db u
      [("progress", FieldVal.frat q), ("frame_current", FieldVal.fint n)]) :=
  inv_update_progress_no_sw db u _ (by simp) (by simp) hinv

theorem inv_update_ft (db : Db) (u : String) (n : Int) (hinv : inv_workfile db) :
    inv_workfile (update_progress db u [("frame_total", FieldVal.fint n)]) :=
  inv_update_progress_no_sw db u _ (by simp) (by simp) hinv

theorem preserves_sw_pf (db : Db) (u : String) (q : ℚ) (n : Int) (v : String) :
    (get_progress (update_progress db u
        [("progress", FieldVal.frat q), ("frame_current", FieldVal.fint n)]) v).map
        (fun r => (r.status, r.workfile))
      = (get_progress db v).map (fun r => (r.status, r.workfile)) :=
  update_progress_preserves_sw db u _ (by simp) (by simp) v

theorem preserves_sw_ft (db : Db) (u : String) (n : Int) (v : String) :
    (get_progress (update_progress db u [("frame_total", FieldVal.fint n)]) v).map
        (fun r => (r.status, r.workfile))
      = (get_progress db v).map (fun r => (r.status, r.workfile)) :=
  update_progress_preserves_sw db u _ (by simp) (by simp) v

/-- One stdout-loop iteration preserves the workfile invariant of the
current store and of every accumulated commit. -/
theorem encode_line_step_inv (u : String) (total : Int) (st : Int × Db × List Db)
    (line : String) (h1 : inv_workfile st.2.1) (h2 : ∀ d ∈ st.2.2, inv_workfile d) :
    inv_workfile (encode_line_step u total st line).2.1 ∧
    ∀ d ∈ (encode_line_step u total st line).2.2, inv_workfile d := by
  unfold encode_line_step
  dsimp only
  by_cases hls : (py_strip line).startsWith "frame=" = true
  · rw [if_pos hls]
    dsimp only
    refine ⟨inv_update_pf _ u _ _ h1, ?_⟩
    intro d hd
    rcases List.mem_append.mp hd with hd | hd
    · exact h2 d hd
    · rw [List.mem_singleton.mp hd]
      exact inv_update_pf _ u _ _ h1
  · rw [if_neg hls]
    exact ⟨h1, h2⟩

/-- One stdout-loop iteration keeps the `(status, workfile)` view of
every row unchanged. -/
theorem encode_line_step_sw (u : String) (total : Int) (st : Int × Db × List Db)
    (line : String) (v : String) :
    (get_progress (encode_line_step u total st line).2.1 v).map
        (fun r => (r.status, r.workfile))
      = (get_progress st.2.1 v).map (fun r => (r.status, r.workfile)) := by
  unfold encode_line_step
  dsimp only
  by_cases hls : (py_strip line).startsWith "frame=" = true
  · rw [if_pos hls]
    dsimp only
    exact preserves_sw_pf _ u _ _ v
  · rw [if_neg hls]

/-- Commits added by one stdout-loop iteration have the same
`(status, workfile)` view as the current store. -/
theorem encode_line_step_commits (u : String) (total : Int) (st : Int × Db × List Db)
    (line : String) :
    ∀ d ∈ (encode_line_step u total st line).2.2,
      d ∈ st.2.2 ∨ ∀ v, (get_progress d v).map (fun r => (r.status, r.workfile))
        = (get_progress st.2.1 v).map (fun r => (r.status, r.workfile)) := by
  unfold encode_line_step
  dsimp only
  by_cases hls : (py_strip line).startsWith "frame=" = true
  · rw [if_pos hls]
    dsimp only
    intro d hd
    rcases List.mem_append.mp hd with hd | hd
    · exact Or.inl hd
    · rw [List.mem_singleton.mp hd]
      exact Or.inr (fun v => preserves_sw_pf _ u _ _ v)
  · rw [if_neg hls]
    intro d hd
    exact Or.inl hd

/-- The stdout loop of `_encode` keeps the `(status, workfile)` view of
every row unchanged. -/
theorem encode_loop_preserves_sw (u : String) (total : Int) (lines : List String) :
    ∀ start : Int × Db × List Db, ∀ v,
      (get_progress (lines.foldl (encode_line_step u total) start).2.1 v).map
          (fun r => (r.status, r.workfile))
        = (get_progress start.2.1 v).map (fun r => (r.status, r.workfile)) := by
  induction lines with
  | nil => intro start v; rfl
  | cons line lines ih =>
    intro start v
    rw [List.foldl_cons]
    rw [ih (encode_line_step u total start line) v]
    exact encode_line_step_sw u total start line v

/-- The stdout loop of `_encode` preserves the workfile invariant at
the final state and at every accumulated commit. -/
theorem encode_loop_inv (u : String) (total : Int) (lines : List String) :
    ∀ start : Int × Db × List Db,
      inv_workfile start.2.1 → (∀ d ∈ start.2.2, inv_workfile d) →
      inv_workfile ((lines.foldl (encode_line_step u total) start).2.1) ∧
      ∀ d ∈ (lines.foldl (encode_line_step u total) start).2.2, inv_workfile d := by
  induction lines with
  | nil => intro start h1 h2; exact ⟨h1, h2⟩
  | cons line lines ih =>
    intro start h1 h2
    rw [List.foldl_cons]
    have hstep := encode_line_step_inv u total start line h1 h2
    exact ih (encode_line_step u total start line) hstep.1 hstep.2

/-- Every commit accumulated by the stdout loop is a prior commit or
has the same `(status, workfile)` view as the starting store. -/
theorem encode_loop_commits_sw (u : String) (total : Int) (lines : List String) :
    ∀ start : Int × Db × List Db,
      ∀ d ∈ (lines.foldl (encode_line_step u total) start).2.2,
        d ∈ start.2.2 ∨ ∀ v, (get_progress d v).map (fun r => (r.status, r.workfile))
          = (get_progress start.2.1 v).map (fun r => (r.status, r.workfile)) := by
  induction lines with
  | nil =>
    intro start d hd
    exact Or.inl hd
  | cons line lines ih =>
    intro start d hd
    rw [List.foldl_cons] at hd
    rcases ih (encode_line_step u total start line) d hd with hd' | hd'
    · rcases encode_line_step_commits u total start line d hd' with hd'' | hd''
      · exact Or.inl hd''
      · exact Or.inr hd''
    · refine Or.inr (fun v => ?_)
      rw [hd' v]
      exact encode_line_step_sw u total start line v

/-- `_encode` preserves the workfile invariant at its final state and
at every commit. -/
theorem encode_inv (db : Db) (e : Entry) (streams : List StreamInfo) (env : ProcEnv)
    (hinv : inv_workfile db) :
    inv_workfile (encode db e streams env).1 ∧
    ∀ d ∈ (encode db e streams env).2.1, inv_workfile d := by
  unfold encode
  dsimp only
  have h1 : inv_workfile (update_progress db e.uuid
      [("frame_total", FieldVal.fint (total_frames_estimate streams env.fallback_probe))]) :=
    inv_update_ft db e.uuid _ hinv
  exact encode_loop_inv e.uuid _ env.stdout_lines _ h1
    (by intro d hd; rw [List.mem_singleton.mp hd]; exact h1)

/-- `_encode` keeps the `(status, workfile)` view of every row's lookup
unchanged. -/
theorem encode_preserves_sw (db : Db) (e : Entry) (streams : List StreamInfo)
    (env : ProcEnv) (v : String) :
    (get_progress (encode db e streams env).1 v).map (fun r => (r.status, r.workfile))
      = (get_progress db v).map (fun r => (r.status, r.workfile)) := by
  unfold encode
  dsimp only
  rw [encode_loop_preserves_sw]
  exact preserves_sw_ft db e.uuid _ v

/-- `_encode`'s commits keep the `(status, workfile)` view of every
row's lookup as in the store it started from. -/
theorem encode_commits_sw (db : Db) (e : Entry) (streams : List StreamInfo)
    (env : ProcEnv) :
    ∀ d ∈ (encode db e streams env).2.1, ∀ v,
      (get_progress d v).map (fun r => (r.status, r.workfile))
        = (get_progress db v).map (fun r => (r.status, r.workfile)) := by
  unfold encode
  dsimp only
  intro d hd v
  rcases encode_loop_commits_sw e.uuid _ env.stdout_lines _ d hd with h | h
  · rw [List.mem_singleton.mp h]
    exact preserves_sw_ft db e.uuid _ v
  · rw [h v]
    exact preserves_sw_ft db e.uuid _ v

/-- A missing progress row means no row carries that uuid. -/
theorem no_row_of_get_progress_none (db : Db) (u : String)
    (h : get_progress db u = none) : ∀ r ∈ db.progress, r.uuid ≠ u := by
  intro r hr hru
  have := List.find?_eq_none.mp h r hr
  simp [hru] at this

/-- Setting a non-`IN_PROGRESS` status (without touching `workfile`) on
a row whose current status is not `IN_PROGRESS` preserves the
invariant. -/
theorem inv_map_nonip (db : Db) (u : String) (f : ProgressRow → ProgressRow)
    (hstat : ∀ r, (f r).status ≠ FileStatus.in_progress)
    (hwf : ∀ r, (f r).workfile = r.workfile)
    (hinv : inv_workfile db) (hnd : wf_progress_keys db)
    (hsafe : ∀ p, get_progress db u = some p → p.status ≠ FileStatus.in_progress) :
    inv_workfile { db with
      progress := db.progress.map (fun r => if r.uuid = u then f r else r) } := by
  apply inv_map_update _ _ _ _ hinv
  intro r hr hru
  cases hgp : get_progress db u with
  | none => exact absurd hru (no_row_of_get_progress_none db u hgp r hr)
  | some p =>
    have hrp := row_unique db hnd u p hgp r hr hru
    subst hrp
    have hwnone : r.workfile = none := by
      by_contra hw
      exact hsafe r hgp ((hinv r hr).mpr hw)
    rw [hwf r, hwnone]
    simp [hstat r]

/-- Updates that re-establish the invariant on the touched row
unconditionally (both sides of the equivalence forced). -/
theorem inv_map_forced (db : Db) (u : String) (f : ProgressRow → ProgressRow)
    (hiff : ∀ r, ((f r).status = FileStatus.in_progress ↔ (f r).workfile ≠ none))
    (hinv : inv_workfile db) :
    inv_workfile { db with
      progress := db.progress.map (fun r => if r.uuid = u then f r else r) } :=
  inv_map_update db u f (fun r _ _ => hiff r) hinv

/-- `enqueue_uuid` preserves the workfile invariant. -/
theorem enqueue_uuid_inv (db : Db) (u : String) (hinv : inv_workfile db)
    (hnd : wf_progress_keys db) : inv_workfile (enqueue_uuid db u).2 := by
  unfold enqueue_uuid
  cases hgE : get_entry_by_uuid db u with
  | none => exact hinv
  | some e0 =>
    cases hgp : get_progress db u with
    | some p =>
      dsimp only
      by_cases hq : p.status = FileStatus.queued ∨ p.status = FileStatus.in_progress
      · rw [if_pos hq]
        exact hinv
      · rw [if_neg hq]
        show inv_workfile (set_status db u FileStatus.queued)
        unfold set_status
        apply inv_map_nonip db u _ (by intro r; simp) (by intro r; rfl) hinv hnd
        intro p' hp'
        rw [hgp] at hp'
        cases hp'
        intro hip
        exact hq (Or.inr hip)
    | none =>
      show inv_workfile (set_status db u FileStatus.queued)
      unfold set_status
      apply inv_map_nonip db u _ (by intro r; simp) (by intro r; rfl) hinv hnd
      intro p' hp'
      rw [hgp] at hp'
      cases hp'

/-- When no row is queued or in progress, every row's status says so. -/
theorem has_active_queue_false_rows (db : Db) (h : has_active_queue db = false) :
    ∀ r ∈ db.progress,
      r.status ≠ FileStatus.queued ∧ r.status ≠ FileStatus.in_progress := by
  intro r hr
  have := List.any_eq_false.mp h r hr
  constructor
  · intro hq; rw [hq] at this; simp at this
  · intro hq; rw [hq] at this; simp at this

/-- `enqueue_best` preserves the workfile invariant. -/
theorem enqueue_best_inv (db : Db) (hinv : inv_workfile db) :
    inv_workfile (enqueue_best db).2 := by
  unfold enqueue_best
  by_cases hact : has_active_queue db = true
  · rw [if_pos hact]
    exact hinv
  · rw [if_neg hact]
    cases hbest : query_best_candidate db with
    | none => exact hinv
    | some best =>
      show inv_workfile (set_status db best.uuid FileStatus.queued)
      unfold set_status
      apply inv_map_update _ _ _ _ hinv
      intro r hr hru
      have hnot := has_active_queue_false_rows db (Bool.not_eq_true _ ▸ eq_false_of_ne_true hact) r hr
      have hwnone : r.workfile = none := by
        by_contra hw
        exact hnot.2 ((hinv r hr).mpr hw)
      simp [hwnone]

/-- The Scanner's per-file insert preserves the workfile invariant. -/
theorem insert_new_file_inv (db : Db) (e : Entry) (ms : List Metadata)
    (hinv : inv_workfile db) : inv_workfile (insert_new_file db e ms) := by
  intro r hr
  unfold insert_new_file insert_progress_or_ignore at hr
  dsimp only at hr
  split at hr
  · exact hinv r hr
  · rcases List.mem_append.mp hr with hr | hr
    · exact hinv r hr
    · rw [List.mem_singleton.mp hr]
      simp

/-- Every commit of `_process_file` preserves the workfile invariant,
when the processed entry's row is currently `QUEUED` (which is how the
worker loop selects it). -/
theorem process_file_inv (cfg : Config) (db : Db) (fs : List String) (e : Entry)
    (env : ProcEnv) (hinv : inv_workfile db) (hnd : wf_progress_keys db)
    (hq : statusOf db e.uuid = some FileStatus.queued) :
    ∀ d ∈ (process_file cfg db fs e env).commits, inv_workfile d := by
  have hsafe : ∀ p, get_progress db e.uuid = some p →
      p.status ≠ FileStatus.in_progress := by
    intro p hp
    unfold statusOf at hq
    rw [hp] at hq
    simp only [Option.map_some'] at hq
    have hpq : p.status = FileStatus.queued := Option.some.inj hq
    rw [hpq]
    intro hip
    cases hip
  have hpend : inv_workfile (update_progress db e.uuid
      [("status", FieldVal.fstat FileStatus.pending)]) := by
    rw [upd_status_pending]
    exact inv_map_nonip db e.uuid _ (by intro r; simp) (by intro r; rfl) hinv hnd hsafe
  have hopt : inv_workfile (update_progress db e.uuid
      [("status", FieldVal.fstat FileStatus.optimum), ("progress", FieldVal.frat 100)]) := by
    rw [upd_skip_optimum]
    exact inv_map_nonip db e.uuid _ (by intro r; simp) (by intro r; rfl) hinv hnd hsafe
  have hip : inv_workfile (update_progress db e.uuid
      [("status", FieldVal.fstat FileStatus.in_progress),
       ("progress", FieldVal.frat 0),
       ("workfile", FieldVal.fwork (some (tmp_path_for e.uuid)))]) := by
    rw [upd_in_progress]
    exact inv_map_forced _ e.uuid _ (by intro r; simp) hinv
  intro d hd
  unfold process_file at hd
  dsimp only at hd
  cases hp1 : env.probe1 with
  | none =>
    rw [hp1] at hd
    simp only [Option.map_none', Option.getD_none] at hd
    rw [if_pos (by rfl)] at hd
    dsimp only at hd
    rw [List.mem_singleton.mp hd]
    exact hpend
  | some pd =>
    rw [hp1] at hd
    simp only [Option.map_some', Option.getD_some] at hd
    by_cases hse : pd.streams.isEmpty = true
    · rw [if_pos hse] at hd
      dsimp only at hd
      rw [List.mem_singleton.mp hd]
      exact hpend
    · rw [if_neg hse] at hd
      cases hp2 : env.probe2 with
      | none =>
        rw [hp2] at hd
        dsimp only at hd
        rw [List.mem_singleton.mp hd]
        exact hpend
      | some probe =>
        rw [hp2] at hd
        dsimp only at hd
        by_cases hsk : (should_skip cfg e pd.streams probe).1 = true
        · rw [if_pos hsk] at hd
          dsimp only at hd
          rw [List.mem_singleton.mp hd]
          exact hopt
        · rw [if_neg hsk] at hd
          have henc_inv := encode_inv (update_progress db e.uuid
            [("status", FieldVal.fstat FileStatus.in_progress),
             ("progress", FieldVal.frat 0),
             ("workfile", FieldVal.fwork (some (tmp_path_for e.uuid)))]) e pd.streams env hip
          cases henc : (encode (update_progress db e.uuid
              [("status", FieldVal.fstat FileStatus.in_progress),
               ("progress", FieldVal.frat 0),
               ("workfile", FieldVal.fwork (some (tmp_path_for e.uuid)))]) e pd.streams env).2.2 with
          | none =>
            rw [henc] at hd
            dsimp only at hd
            by_cases hpub : env.publish_ok = true
            · rw [if_pos hpub] at hd
              dsimp only at hd
              rcases List.mem_cons.mp hd with hd | hd
              · rw [hd]; exact hip
              · rcases List.mem_append.mp hd with hd | hd
                · exact henc_inv.2 d hd
                · rw [List.mem_singleton.mp hd, upd_done]
                  exact inv_map_forced _ e.uuid _ (by intro r; simp) henc_inv.1
            · rw [if_neg hpub] at hd
              dsimp only at hd
              rcases List.mem_cons.mp hd with hd | hd
              · rw [hd]; exact hip
              · rcases List.mem_append.mp hd with hd | hd
                · exact henc_inv.2 d hd
                · rw [List.mem_singleton.mp hd, upd_rollback]
                  exact inv_map_forced _ e.uuid _ (by intro r; simp) henc_inv.1
          | some msg =>
            rw [henc] at hd
            dsimp only at hd
            rcases List.mem_cons.mp hd with hd | hd
            · rw [hd]; exact hip
            · rcases List.mem_append.mp hd with hd | hd
              · exact henc_inv.2 d hd
              · rw [List.mem_singleton.mp hd, upd_rollback]
                exact inv_map_forced _ e.uuid _ (by intro r; simp) henc_inv.1

/-- C7: the workfile invariant — a Progress row has status
`IN_PROGRESS` iff its `workfile` is non-null — is preserved at every
commit of every core operation: `enqueue_uuid`, `enqueue_best`, the
Scanner's `insert_new_file`, and `_process_file` on a `QUEUED` row
(the only rows the worker loop hands to it); in particular no
operation ever commits a non-null `workfile` together with any status
other than `IN_PROGRESS`. -/
theorem C7_workfile_invariant (db : Db) (hinv : inv_workfile db)
    (hnd : wf_progress_keys db) :
    (∀ u, ∀ d ∈ enqueue_uuid_trace db u, inv_workfile d) ∧
    (∀ d ∈ enqueue_best_trace db, inv_workfile d) ∧
    (∀ e ms, ∀ d ∈ insert_new_file_trace db e ms, inv_workfile d) ∧
    (∀ cfg fs e env, statusOf db e.uuid = some FileStatus.queued →
      ∀ d ∈ process_file_trace cfg db fs e env, inv_workfile d) := by
  refine ⟨?_, ?_, ?_, ?_⟩
  · intro u d hd
    rcases List.mem_cons.mp hd with hd | hd
    · rw [hd]; exact hinv
    · rw [List.mem_singleton.mp hd]
      exact enqueue_uuid_inv db u hinv hnd
  · intro d hd
    rcases List.mem_cons.mp hd with hd | hd
    · rw [hd]; exact hinv
    · rw [List.mem_singleton.mp hd]
      exact enqueue_best_inv db hinv
  · intro e ms d hd
    rcases List.mem_cons.mp hd with hd | hd
    · rw [hd]; exact hinv
    · rw [List.mem_singleton.mp hd]
      exact insert_new_file_inv db e ms hinv
  · intro cfg fs e env hq d hd
    rcases List.mem_cons.mp hd with hd | hd
    · rw [hd]; exact hinv
    · exact process_file_inv cfg db fs e env hinv hnd hq d hd

/-- Witness: C7 applied to the concrete single-`DONE`-row store. -/
theorem C7_workfile_invariant_witness :
    inv_workfile (enqueue_best exDbDone).2 :=
  (C7_workfile_invariant exDbDone
      (by unfold inv_workfile; decide)
      (by unfold wf_progress_keys; decide)).2.1
    (enqueue_best exDbDone).2
    (List.mem_cons_of_mem _ (List.mem_singleton.mpr rfl))

/-! ## C2 — committed status transitions -/

theorem get_progress_mem (db : Db) (v : String) (r : ProgressRow)
    (h : get_progress db v = some r) : r ∈ db.progress :=
  List.mem_of_find?_eq_some h

/-- Equal `(status, workfile)` views give equal statuses. -/
theorem statusOf_eq_of_sw (d d' : Db) (v : String)
    (h : (get_progress d v).map (fun r => (r.status, r.workfile))
       = (get_progress d' v).map (fun r => (r.status, r.workfile))) :
    statusOf d v = statusOf d' v := by
  unfold statusOf
  have h2 := congrArg (Option.map Prod.fst) h
  simpa [Option.map_map, Function.comp] using h2

/-- The status read back after a per-uuid row update. -/
theorem statusOf_map_update (db : Db) (u : String) (f : ProgressRow → ProgressRow)
    (hf : ∀ r, (f r).uuid = r.uuid) (v : String) :
    statusOf { db with
      progress := db.progress.map (fun r => if r.uuid = u then f r else r) } v
      = (get_progress db v).map (fun r => if r.uuid = u then (f r).status else r.status) := by
  unfold statusOf get_progress
  dsimp only
  rw [find?_update db.progress u v f hf]
  cases db.progress.find? (fun r => r.uuid == v) with
  | none => rfl
  | some r =>
    dsimp only [Option.map_some']
    by_cases hru : r.uuid = u
    · rw [if_pos hru, if_pos hru]
    · rw [if_neg hru, if_neg hru]

/-- A status change across a per-uuid row update pins down the changed
row: the observed uuid is the updated one, and the two statuses are the
old row's and its update's. -/
theorem map_update_transition (db : Db) (u : String) (f : ProgressRow → ProgressRow)
    (hf : ∀ r, (f r).uuid = r.uuid) (v : String) (s1 s2 : FileStatus)
    (h1 : statusOf db v = some s1)
    (h2 : statusOf { db with
        progress := db.progress.map (fun r => if r.uuid = u then f r else r) } v = some s2)
    (hne : s1 ≠ s2) :
    v = u ∧ ∃ r, get_progress db u = some r ∧ r.status = s1 ∧ (f r).status = s2 := by
  rw [statusOf_map_update db u f hf v] at h2
  unfold statusOf at h1
  cases hgp : get_progress db v with
  | none => rw [hgp] at h1; cases h1
  | some r =>
    rw [hgp] at h1 h2
    simp only [Option.map_some'] at h1 h2
    replace h1 : r.status = s1 := Option.some.inj h1
    replace h2 : (if r.uuid = u then (f r).status else r.status) = s2 := Option.some.inj h2
    by_cases hru : r.uuid = u
    · rw [if_pos hru] at h2
      have hvu : v = u := by
        rw [← get_progress_uuid db v r hgp]
        exact hru
      refine ⟨hvu, r, ?_, h1, h2⟩
      rw [← hvu]
      exact hgp
    · rw [if_neg hru] at h2
      exact absurd (h1.symm.trans h2) hne

/-- A status change between two adjacent committed states names both
statuses. -/
theorem status_changes_pair_sub (a b : Db) (v : String) :
    ∀ t ∈ status_changes [a, b] v,
      ∃ s1 s2, statusOf a v = some s1 ∧ statusOf b v = some s2 ∧ s1 ≠ s2 ∧ t = (s1, s2) := by
  intro t ht
  unfold status_changes at ht
  unfold status_changes at ht
  simp only [List.append_nil] at ht
  cases h1 : statusOf a v with
  | none => rw [h1] at ht; simp at ht
  | some s1 =>
    cases h2 : statusOf b v with
    | none => rw [h1, h2] at ht; simp at ht
    | some s2 =>
      rw [h1, h2] at ht
      by_cases hne : s1 = s2
      · subst hne
        simp at ht
      · simp [hne] at ht
        exact ⟨s1, s2, rfl, rfl, hne, ht⟩

/-- Along a segment whose middle states all share the head's status,
every change is between the head and the last state. -/
theorem status_changes_seg_sub (b z : Db) (mid : List Db) (v : String)
    (hmid : ∀ c ∈ mid, statusOf c v = statusOf b v) :
    ∀ t ∈ status_changes (b :: mid ++ [z]) v,
      ∃ s1 s2, statusOf b v = some s1 ∧ statusOf z v = some s2 ∧ s1 ≠ s2 ∧ t = (s1, s2) := by
  induction mid generalizing b with
  | nil =>
    intro t ht
    exact status_changes_pair_sub b z v t ht
  | cons c mid ih =>
    intro t ht
    simp only [List.cons_append] at ht
    unfold status_changes at ht
    have hbc : statusOf c v = statusOf b v := hmid c (List.mem_cons_self _ _)
    rcases List.mem_append.mp ht with ht | ht
    · exfalso
      rw [hbc] at ht
      cases hsb : statusOf b v with
      | none => rw [hsb] at ht; simp at ht
      | some s => rw [hsb] at ht; simp at ht
    · obtain ⟨s1, s2, hc1, hz2, hne, rfl⟩ :=
        ih c (fun c' hc' => (hmid c' (List.mem_cons_of_mem _ hc')).trans hbc.symm) t ht
      refine ⟨s1, s2, ?_, hz2, hne, rfl⟩
      rw [← hbc]
      exact hc1

/-- For a trace `a :: b :: mid ++ [z]` whose middle states share `b`'s
status, every change is either the `a → b` one or the `b → z` one. -/
theorem status_changes_trace_sub (a b z : Db) (mid : List Db) (v : String)
    (hmid : ∀ c ∈ mid, statusOf c v = statusOf b v) :
    ∀ t ∈ status_changes (a :: b :: mid ++ [z]) v,
      (∃ s1 s2, statusOf a v = some s1 ∧ statusOf b v = some s2 ∧ s1 ≠ s2 ∧ t = (s1, s2)) ∨
      (∃ s1 s2, statusOf b v = some s1 ∧ statusOf z v = some s2 ∧ s1 ≠ s2 ∧ t = (s1, s2)) := by
  intro t ht
  unfold status_changes at ht
  rcases List.mem_append.mp ht with ht | ht
  · left
    cases h1 : statusOf a v with
    | none => rw [h1] at ht; simp at ht
    | some s1 =>
      cases h2 : statusOf b v with
      | none => rw [h1, h2] at ht; simp at ht
      | some s2 =>
        rw [h1, h2] at ht
        by_cases hne : s1 = s2
        · subst hne
          simp at ht
        · simp [hne] at ht
          exact ⟨s1, s2, rfl, rfl, hne, ht⟩
  · right
    exact status_changes_seg_sub b z mid v hmid t ht

theorem status_changes_trace_cases (a b z : Db) (mid : List Db) (v : String)
    (hmid : ∀ c ∈ mid, statusOf c v = statusOf b v)
    (hab : ∀ s1 s2, statusOf a v = some s1 → statusOf b v = some s2 → s1 ≠ s2 →
      (s1, s2) ∈ observed_transitions)
    (hbz : ∀ s1 s2, statusOf b v = some s1 → statusOf z v = some s2 → s1 ≠ s2 →
      (s1, s2) ∈ observed_transitions) :
    ∀ t ∈ status_changes (a :: b :: mid ++ [z]) v, t ∈ observed_transitions := by
  intro t ht
  rcases status_changes_trace_sub a b z mid v hmid t ht with
    ⟨s1, s2, h1, h2, hne, rfl⟩ | ⟨s1, s2, h1, h2, hne, rfl⟩
  · exact hab s1 s2 h1 h2 hne
  · exact hbz s1 s2 h1 h2 hne

/-- An existing row's lookup is unchanged by the Scanner's per-file
insert. -/
theorem get_progress_insert_new_file (db : Db) (e : Entry) (ms : List Metadata)
    (v : String) (r : ProgressRow) (h : get_progress db v = some r) :
    get_progress (insert_new_file db e ms) v = some r := by
  unfold get_progress at h ⊢
  unfold insert_new_file insert_progress_or_ignore
  dsimp only
  split
  · exact h
  · rw [List.find?_append, h]
    rfl

/-- `enqueue_uuid` either leaves the store untouched or queues a row
that was neither `QUEUED` nor `IN_PROGRESS`. -/
theorem enqueue_uuid_db_cases (db : Db) (u : String) :
    (enqueue_uuid db u).2 = db ∨
    ((enqueue_uuid db u).2 = set_status db u FileStatus.queued ∧
      ∀ p, get_progress db u = some p →
        ¬(p.status = FileStatus.queued ∨ p.status = FileStatus.in_progress)) := by
  unfold enqueue_uuid
  cases hgE : get_entry_by_uuid db u with
  | none => exact Or.inl rfl
  | some e0 =>
    cases hgp : get_progress db u with
    | some p =>
      dsimp only
      by_cases hq : p.status = FileStatus.queued ∨ p.status = FileStatus.in_progress
      · rw [if_pos hq]
        exact Or.inl rfl
      · rw [if_neg hq]
        refine Or.inr ⟨rfl, ?_⟩
        intro p' hp'
        cases hp'
        exact hq
    | none =>
      refine Or.inr ⟨rfl, ?_⟩
      intro p' hp'
      cases hp'

/-- `enqueue_best` either leaves the store untouched or queues the best
candidate while no row was active. -/
theorem enqueue_best_db_cases (db : Db) :
    (enqueue_best db).2 = db ∨
    ∃ best, query_best_candidate db = some best ∧
      (enqueue_best db).2 = set_status db best.uuid FileStatus.queued ∧
      has_active_queue db = false := by
  unfold enqueue_best
  by_cases hact : has_active_queue db = true
  · rw [if_pos hact]
    exact Or.inl rfl
  · rw [if_neg hact]
    cases hbest : query_best_candidate db with
    | none => exact Or.inl rfl
    | some best =>
      exact Or.inr ⟨best, rfl, rfl, eq_false_of_ne_true hact⟩

theorem enqueue_uuid_transitions (db : Db) (u v : String) (hwf : wf_statuses db) :
    ∀ t ∈ status_changes (enqueue_uuid_trace db u) v, t ∈ observed_transitions := by
  intro t ht
  unfold enqueue_uuid_trace at ht
  obtain ⟨s1, s2, h1, h2, hne, rfl⟩ := status_changes_pair_sub db (enqueue_uuid db u).2 v t ht
  rcases enqueue_uuid_db_cases db u with hdb | ⟨hdb, hnq⟩
  · rw [hdb, h1] at h2
    exact absurd (Option.some.inj h2) hne
  · rw [hdb] at h2
    unfold set_status at h2
    obtain ⟨hvu, r, hgr, hr1, hr2⟩ := map_update_transition db u
      (fun r => { r with status := FileStatus.queued }) (fun r => rfl) v s1 s2 h1 h2 hne
    have hs2 : s2 = FileStatus.queued := hr2.symm
    have hnq' := hnq r hgr
    have hunk : r.status ≠ FileStatus.unknown := hwf r (get_progress_mem db u r hgr)
    rw [hr1] at hnq' hunk
    rw [hs2]
    cases s1 with
    | unknown => exact absurd rfl hunk
    | pending => decide
    | queued => exact absurd (Or.inl rfl) hnq'
    | in_progress => exact absurd (Or.inr rfl) hnq'
    | optimum => decide
    | done => decide

theorem enqueue_best_transitions (db : Db) (v : String) (hwf : wf_statuses db) :
    ∀ t ∈ status_changes (enqueue_best_trace db) v, t ∈ observed_transitions := by
  intro t ht
  unfold enqueue_best_trace at ht
  obtain ⟨s1, s2, h1, h2, hne, rfl⟩ := status_changes_pair_sub db (enqueue_best db).2 v t ht
  rcases enqueue_best_db_cases db with hdb | ⟨best, hbest, hdb, hact⟩
  · rw [hdb, h1] at h2
    exact absurd (Option.some.inj h2) hne
  · rw [hdb] at h2
    unfold set_status at h2
    obtain ⟨hvu, r, hgr, hr1, hr2⟩ := map_update_transition db best.uuid
      (fun r => { r with status := FileStatus.queued }) (fun r => rfl) v s1 s2 h1 h2 hne
    have hs2 : s2 = FileStatus.queued := hr2.symm
    have hmem := get_progress_mem db best.uuid r hgr
    have hnq' := has_active_queue_false_rows db hact r hmem
    have hunk : r.status ≠ FileStatus.unknown := hwf r hmem
    rw [hr1] at hnq' hunk
    rw [hs2]
    cases s1 with
    | unknown => exact absurd rfl hunk
    | pending => decide
    | queued => exact absurd rfl hnq'.1
    | in_progress => exact absurd rfl hnq'.2
    | optimum => decide
    | done => decide

theorem insert_new_file_transitions (db : Db) (e : Entry) (ms : List Metadata)
    (v : String) :
    ∀ t ∈ status_changes (insert_new_file_trace db e ms) v, t ∈ observed_transitions := by
  intro t ht
  unfold insert_new_file_trace at ht
  obtain ⟨s1, s2, h1, h2, hne, rfl⟩ := status_changes_pair_sub db _ v t ht
  exfalso
  unfold statusOf at h1 h2
  cases hgp : get_progress db v with
  | none => rw [hgp] at h1; cases h1
  | some r =>
    rw [get_progress_insert_new_file db e ms v r hgp] at h2
    rw [hgp] at h1
    simp only [Option.map_some'] at h1 h2
    exact hne ((Option.some.inj h1).symm.trans (Option.some.inj h2))

theorem process_file_transitions (cfg : Config) (db : Db) (fs : List String) (e : Entry)
    (env : ProcEnv) (v : String)
    (hq : statusOf db e.uuid = some FileStatus.queued) :
    ∀ t ∈ status_changes (process_file_trace cfg db fs e env) v, t ∈ observed_transitions := by
  obtain ⟨p, hp, hpq⟩ : ∃ p, get_progress db e.uuid = some p ∧ p.status = FileStatus.queued := by
    unfold statusOf at hq
    cases hgp : get_progress db e.uuid with
    | none => rw [hgp] at hq; cases hq
    | some p =>
      rw [hgp] at hq
      simp only [Option.map_some'] at hq
      exact ⟨p, rfl, Option.some.inj hq⟩
  have hpend : ∀ s1 s2, statusOf db v = some s1 →
      statusOf (update_progress db e.uuid
        [("status", FieldVal.fstat FileStatus.pending)]) v = some s2 → s1 ≠ s2 →
      (s1, s2) ∈ observed_transitions := by
    intro s1 s2 h1 h2 hne
    rw [upd_status_pending] at h2
    obtain ⟨hvu, r, hgr, hr1, hr2⟩ := map_update_transition db e.uuid
      (fun r => { r with status := FileStatus.pending }) (fun r => rfl) v s1 s2 h1 h2 hne
    have hs2 : s2 = FileStatus.pending := hr2.symm
    have hpr : r = p := Option.some.inj (hgr.symm.trans hp)
    have hs1 : s1 = FileStatus.queued := by
      rw [← hr1, hpr]
      exact hpq
    rw [hs1, hs2]
    decide
  have hdb1ip : statusOf (update_progress db e.uuid
      [("status", FieldVal.fstat FileStatus.in_progress),
       ("progress", FieldVal.frat 0),
       ("workfile", FieldVal.fwork (some (tmp_path_for e.uuid)))]) e.uuid
      = some FileStatus.in_progress := by
    rw [upd_in_progress, statusOf_map_update db e.uuid
      (fun r => { r with status := FileStatus.in_progress, progress := 0, workfile := some (tmp_path_for e.uuid) })
      (fun r => rfl) e.uuid, hp]
    have hpu := get_progress_uuid db e.uuid p hp
    simp [hpu]
  have hab : ∀ s1 s2, statusOf db v = some s1 →
      statusOf (update_progress db e.uuid
        [("status", FieldVal.fstat FileStatus.in_progress),
         ("progress", FieldVal.frat 0),
         ("workfile", FieldVal.fwork (some (tmp_path_for e.uuid)))]) v = some s2 → s1 ≠ s2 →
      (s1, s2) ∈ observed_transitions := by
    intro s1 s2 h1 h2 hne
    rw [upd_in_progress] at h2
    obtain ⟨hvu, r, hgr, hr1, hr2⟩ := map_update_transition db e.uuid
      (fun r => { r with status := FileStatus.in_progress, progress := 0, workfile := some (tmp_path_for e.uuid) })
      (fun r => rfl) v s1 s2 h1 h2 hne
    have hs2 : s2 = FileStatus.in_progress := hr2.symm
    have hpr : r = p := Option.some.inj (hgr.symm.trans hp)
    have hs1 : s1 = FileStatus.queued := by
      rw [← hr1, hpr]
      exact hpq
    rw [hs1, hs2]
    decide
  intro t ht
  unfold process_file_trace at ht
  unfold process_file at ht
  dsimp only at ht
  cases hp1 : env.probe1 with
  | none =>
    rw [hp1] at ht
    simp only [Option.map_none', Option.getD_none] at ht
    rw [if_pos (by rfl)] at ht
    dsimp only at ht
    obtain ⟨s1, s2, h1, h2, hne, rfl⟩ := status_changes_pair_sub db _ v t ht
    exact hpend s1 s2 h1 h2 hne
  | some pd =>
    rw [hp1] at ht
    simp only [Option.map_some', Option.getD_some] at ht
    by_cases hse : pd.streams.isEmpty = true
    · rw [if_pos hse] at ht
      dsimp only at ht
      obtain ⟨s1, s2, h1, h2, hne, rfl⟩ := status_changes_pair_sub db _ v t ht
      exact hpend s1 s2 h1 h2 hne
    · rw [if_neg hse] at ht
      cases hp2 : env.probe2 with
      | none =>
        rw [hp2] at ht
        dsimp only at ht
        obtain ⟨s1, s2, h1, h2, hne, rfl⟩ := status_changes_pair_sub db _ v t ht
        exact hpend s1 s2 h1 h2 hne
      | some probe =>
        rw [hp2] at ht
        dsimp only at ht
        by_cases hsk : (should_skip cfg e pd.streams probe).1 = true
        · rw [if_pos hsk] at ht
          dsimp only at ht
          obtain ⟨s1, s2, h1, h2, hne, rfl⟩ := status_changes_pair_sub db _ v t ht
          rw [upd_skip_optimum] at h2
          obtain ⟨hvu, r, hgr, hr1, hr2⟩ := map_update_transition db e.uuid
            (fun r => { r with status := FileStatus.optimum, progress := 100 })
            (fun r => rfl) v s1 s2 h1 h2 hne
          have hs2 : s2 = FileStatus.optimum := hr2.symm
          have hpr : r = p := Option.some.inj (hgr.symm.trans hp)
          have hs1 : s1 = FileStatus.queued := by
            rw [← hr1, hpr]
            exact hpq
          rw [hs1, hs2]
          decide
        · rw [if_neg hsk] at ht
          have hencip : statusOf ((encode (update_progress db e.uuid
              [("status", FieldVal.fstat FileStatus.in_progress),
               ("progress", FieldVal.frat 0),
               ("workfile", FieldVal.fwork (some (tmp_path_for e.uuid)))])
              e pd.streams env).1) e.uuid = some FileStatus.in_progress := by
            rw [statusOf_eq_of_sw _ _ e.uuid (encode_preserves_sw _ e pd.streams env e.uuid)]
            exact hdb1ip
          have hsw1 : ∀ s1, statusOf (update_progress db e.uuid
              [("status", FieldVal.fstat FileStatus.in_progress),
               ("progress", FieldVal.frat 0),
               ("workfile", FieldVal.fwork (some (tmp_path_for e.uuid)))]) v = some s1 →
              statusOf ((encode (update_progress db e.uuid
                [("status", FieldVal.fstat FileStatus.in_progress),
                 ("progress", FieldVal.frat 0),
                 ("workfile", FieldVal.fwork (some (tmp_path_for e.uuid)))])
                e pd.streams env).1) v = some s1 := by
            intro s1 h1
            rw [statusOf_eq_of_sw _ _ v (encode_preserves_sw _ e pd.streams env v)]
            exact h1
          have hdone : ∀ s1 s2,
              statusOf (update_progress db e.uuid
                [("status", FieldVal.fstat FileStatus.in_progress),
                 ("progress", FieldVal.frat 0),
                 ("workfile", FieldVal.fwork (some (tmp_path_for e.uuid)))]) v = some s1 →
              statusOf (update_progress ((encode (update_progress db e.uuid
                [("status", FieldVal.fstat FileStatus.in_progress),
                 ("progress", FieldVal.frat 0),
                 ("workfile", FieldVal.fwork (some (tmp_path_for e.uuid)))])
                e pd.streams env).1) e.uuid
                [("status", FieldVal.fstat FileStatus.done),
                 ("progress", FieldVal.frat 100),
                 ("workfile", FieldVal.fwork none)]) v = some s2 →
              s1 ≠ s2 → (s1, s2) ∈ observed_transitions := by
            intro s1 s2 h1 h2 hne
            rw [upd_done] at h2
            obtain ⟨hvu, r, hgr, hr1, hr2⟩ := map_update_transition _ e.uuid
              (fun r => { r with status := FileStatus.done, progress := 100, workfile := none })
              (fun r => rfl) v s1 s2 (hsw1 s1 h1) h2 hne
            have hs2 : s2 = FileStatus.done := hr2.symm
            have hs1 : s1 = FileStatus.in_progress := by
              unfold statusOf at hencip
              rw [hgr] at hencip
              simp only [Option.map_some'] at hencip
              rw [← hr1]
              exact Option.some.inj hencip
            rw [hs1, hs2]
            decide
          have hroll : ∀ s1 s2,
              statusOf (update_progress db e.uuid
                [("status", FieldVal.fstat FileStatus.in_progress),
                 ("progress", FieldVal.frat 0),
                 ("workfile", FieldVal.fwork (some (tmp_path_for e.uuid)))]) v = some s1 →
              statusOf (update_progress ((encode (update_progress db e.uuid
                [("status", FieldVal.fstat FileStatus.in_progress),
                 ("progress", FieldVal.frat 0),
                 ("workfile", FieldVal.fwork (some (tmp_path_for e.uuid)))])
                e pd.streams env).1) e.uuid
                [("status", FieldVal.fstat FileStatus.pending),
                 ("progress", FieldVal.frat 0),
                 ("workfile", FieldVal.fwork none)]) v = some s2 →
              s1 ≠ s2 → (s1, s2) ∈ observed_transitions := by
            intro s1 s2 h1 h2 hne
            rw [upd_rollback] at h2
            obtain ⟨hvu, r, hgr, hr1, hr2⟩ := map_update_transition _ e.uuid
              (fun r => { r with status := FileStatus.pending, progress := 0, workfile := none })
              (fun r => rfl) v s1 s2 (hsw1 s1 h1) h2 hne
            have hs2 : s2 = FileStatus.pending := hr2.symm
            have hs1 : s1 = FileStatus.in_progress := by
              unfold statusOf at hencip
              rw [hgr] at hencip
              simp only [Option.map_some'] at hencip
              rw [← hr1]
              exact Option.some.inj hencip
            rw [hs1, hs2]
            decide
          have hmid : ∀ c ∈ ((encode (update_progress db e.uuid
              [("status", FieldVal.fstat FileStatus.in_progress),
               ("progress", FieldVal.frat 0),
               ("workfile", FieldVal.fwork (some (tmp_path_for e.uuid)))])
              e pd.streams env).2.1),
              statusOf c v = statusOf (update_progress db e.uuid
                [("status", FieldVal.fstat FileStatus.in_progress),
                 ("progress", FieldVal.frat 0),
                 ("workfile", FieldVal.fwork (some (tmp_path_for e.uuid)))]) v :=
            fun c hc => statusOf_eq_of_sw _ _ v (encode_commits_sw _ e pd.streams env c hc v)
          cases henc : (encode (update_progress db e.uuid
              [("status", FieldVal.fstat FileStatus.in_progress),
               ("progress", FieldVal.frat 0),
               ("workfile", FieldVal.fwork (some (tmp_path_for e.uuid)))])
              e pd.streams env).2.2 with
          | none =>
            rw [henc] at ht
            dsimp only at ht
            by_cases hpub : env.publish_ok = true
            · rw [if_pos hpub] at ht
              dsimp only at ht
              exact status_changes_trace_cases db _ _ _ v hmid hab hdone t ht
            · rw [if_neg hpub] at ht
              dsimp only at ht
              exact status_changes_trace_cases db _ _ _ v hmid hab hroll t ht
          | some msg =>
            rw [henc] at ht
            dsimp only at ht
            exact status_changes_trace_cases db _ _ _ v hmid hab hroll t ht

/-- C2 (amended): every status change any core operation commits is
one of NINE transitions: the spec's seven (PENDING→QUEUED,
QUEUED→IN_PROGRESS, IN_PROGRESS→DONE, IN_PROGRESS→OPTIMUM,
IN_PROGRESS→PENDING, DONE→QUEUED, OPTIMUM→QUEUED) plus
QUEUED→OPTIMUM and QUEUED→PENDING, which `_process_file` commits when
the skip decision or a probe failure happens before the `IN_PROGRESS`
transition.  Hypotheses: no stored row carries the never-written
`unknown` status, and `_process_file` runs on a `QUEUED` row (as the
worker loop guarantees). -/
theorem C2_committed_transitions (db : Db) (hwf : wf_statuses db) :
    (∀ u v, ∀ t ∈ status_changes (enqueue_uuid_trace db u) v, t ∈ observed_transitions) ∧
    (∀ v, ∀ t ∈ status_changes (enqueue_best_trace db) v, t ∈ observed_transitions) ∧
    (∀ e ms v, ∀ t ∈ status_changes (insert_new_file_trace db e ms) v,
      t ∈ observed_transitions) ∧
    (∀ cfg fs e env v, statusOf db e.uuid = some FileStatus.queued →
      ∀ t ∈ status_changes (process_file_trace cfg db fs e env) v,
        t ∈ observed_transitions) := by
  refine ⟨?_, ?_, ?_, ?_⟩
  · intro u v
    exact enqueue_uuid_transitions db u v hwf
  · intro v
    exact enqueue_best_transitions db v hwf
  · intro e ms v
    exact insert_new_file_transitions db e ms v
  · intro cfg fs e env v hq
    exact process_file_transitions cfg db fs e env v hq

/-- Witness: C2 applied to the single-`DONE`-row store, observing the
committed `DONE → QUEUED` re-enqueue transition. -/
theorem C2_committed_transitions_witness :
    (FileStatus.done, FileStatus.queued) ∈ observed_transitions :=
  (C2_committed_transitions exDbDone (by unfold wf_statuses; decide)).1 "u1" "u1"
    (FileStatus.done, FileStatus.queued) (by decide)

/-- Counterexample to C2 as stated: on a `QUEUED` row whose source is
already HEVC, `_process_file` commits the transition
`QUEUED → OPTIMUM`, which is not among the seven transitions the
specification's table allows. -/
theorem C2_transition_counterexample :
    status_changes (process_file_trace exCfg exDbQueued [] exEntry exSkipEnv) "u1"
      = [(FileStatus.queued, FileStatus.optimum)] ∧
    (FileStatus.queued, FileStatus.optimum) ∉ claimed_transitions := by
  constructor
  · decide
  · decide

/-! ## C6 — failure rollback -/

theorem stderr_tail_length (s : String) : (stderr_tail s).data.length ≤ 600 := by
  show ((py_strip s).data.reverse.take 600).reverse.length ≤ 600
  rw [List.length_reverse, List.length_take]
  exact min_le_left _ _

theorem stderr_tail_suffix (s : String) :
    (stderr_tail s).data.IsSuffix (py_strip s).data := by
  show ((py_strip s).data.reverse.take 600).reverse <:+ (py_strip s).data
  have hpre : (py_strip s).data.reverse.take 600 <+: (py_strip s).data.reverse :=
    List.take_prefix _ _
  simpa using List.reverse_suffix.mpr hpre

/-- The message `_encode` raises on a non-zero exit. -/
theorem encode_failure_shape (db : Db) (e : Entry) (streams : List StreamInfo)
    (env : ProcEnv) (msg : String)
    (h : (encode db e streams env).2.2 = some msg) :
    msg = "ffmpeg exited " ++ toString env.returncode ++ ": " ++ stderr_tail env.stderr := by
  unfold encode at h
  dsimp only at h
  by_cases hrc : env.returncode ≠ 0
  · rw [if_pos hrc] at h
    exact (Option.some.inj h).symm
  · rw [if_neg hrc] at h
    cases h

/-- `_cleanup_workdir` deletes the workfile. -/
theorem cleanup_workdir_not_mem (fs : List String) (u : String) :
    tmp_path_for u ∉ cleanup_workdir fs u := by
  intro h
  have := List.of_mem_filter h
  simp at this

/-- A worker pick always has a `QUEUED` row. -/
theorem pick_next_queued_status (db : Db) (e' : Entry)
    (h : pick_next_queued db = some e') :
    statusOf db e'.uuid = some FileStatus.queued := by
  unfold pick_next_queued at h
  cases hl : db.entries.filter
      (fun e => decide (statusOf db e.uuid = some FileStatus.queued)) with
  | nil => rw [hl] at h; cases h
  | cons a t =>
    rw [hl] at h
    replace h : some a = some e' := h
    cases h
    have ha : e' ∈ db.entries.filter
        (fun e => decide (statusOf db e.uuid = some FileStatus.queued)) := by
      rw [hl]
      exact List.mem_cons_self _ _
    exact of_decide_eq_true (List.mem_filter.mp ha).2

/-- C6: when the encode fails after `IN_PROGRESS` was set (the child
exits non-zero, or the publish step fails), `_process_file` deletes the
workfile, rolls the row back to `PENDING, 0.0, workfile=null`, raises a
failure that — in the child-exit case — carries at most the stripped
stderr's last 600 characters, and does not re-enqueue the entry: the
worker's next pick can never be this (now `PENDING`) row. -/
theorem C6_failure_rollback (cfg : Config) (db : Db) (fs : List String) (e : Entry)
    (env : ProcEnv) (pd probe : ProbeDoc)
    (hq : statusOf db e.uuid = some FileStatus.queued)
    (hp1 : env.probe1 = some pd) (hse : pd.streams.isEmpty = false)
    (hp2 : env.probe2 = some probe)
    (hsk : (should_skip cfg e pd.streams probe).1 = false)
    (hfail : (encode (update_progress db e.uuid
        [("status", FieldVal.fstat FileStatus.in_progress),
         ("progress", FieldVal.frat 0),
         ("workfile", FieldVal.fwork (some (tmp_path_for e.uuid)))]) e pd.streams env).2.2
          ≠ none
      ∨ env.publish_ok = false) :
    (process_file cfg db fs e env).failure.isSome = true ∧
    tmp_path_for e.uuid ∉ (process_file cfg db fs e env).fs ∧
    (∃ r, get_progress (process_file cfg db fs e env).final e.uuid = some r ∧
      r.status = FileStatus.pending ∧ r.progress = 0 ∧ r.workfile = none) ∧
    (∀ msg, (encode (update_progress db e.uuid
        [("status", FieldVal.fstat FileStatus.in_progress),
         ("progress", FieldVal.frat 0),
         ("workfile", FieldVal.fwork (some (tmp_path_for e.uuid)))]) e pd.streams env).2.2
        = some msg →
      (process_file cfg db fs e env).failure = some msg ∧
      msg = "ffmpeg exited " ++ toString env.returncode ++ ": " ++ stderr_tail env.stderr ∧
      (stderr_tail env.stderr).data.length ≤ 600 ∧
      (stderr_tail env.stderr).data.IsSuffix (py_strip env.stderr).data) ∧
    (∀ e', pick_next_queued (process_file cfg db fs e env).final = some e' →
      e'.uuid ≠ e.uuid) := by
  obtain ⟨p, hp, hpq⟩ : ∃ p, get_progress db e.uuid = some p ∧
      p.status = FileStatus.queued := by
    unfold statusOf at hq
    cases hgp : get_progress db e.uuid with
    | none => rw [hgp] at hq; cases hq
    | some p =>
      rw [hgp] at hq
      simp only [Option.map_some'] at hq
      exact ⟨p, rfl, Option.some.inj hq⟩
  obtain ⟨q1, hq1⟩ : ∃ q1, get_progress (update_progress db e.uuid
      [("status", FieldVal.fstat FileStatus.in_progress),
       ("progress", FieldVal.frat 0),
       ("workfile", FieldVal.fwork (some (tmp_path_for e.uuid)))]) e.uuid = some q1 := by
    rw [get_progress_update_progress, hp]
    exact ⟨_, rfl⟩
  obtain ⟨r2, hr2⟩ : ∃ r2, get_progress ((encode (update_progress db e.uuid
      [("status", FieldVal.fstat FileStatus.in_progress),
       ("progress", FieldVal.frat 0),
       ("workfile", FieldVal.fwork (some (tmp_path_for e.uuid)))]) e pd.streams env).1)
      e.uuid = some r2 := by
    have hsw := encode_preserves_sw (update_progress db e.uuid
      [("status", FieldVal.fstat FileStatus.in_progress),
       ("progress", FieldVal.frat 0),
       ("workfile", FieldVal.fwork (some (tmp_path_for e.uuid)))]) e pd.streams env e.uuid
    cases hgp : get_progress ((encode (update_progress db e.uuid
        [("status", FieldVal.fstat FileStatus.in_progress),
         ("progress", FieldVal.frat 0),
         ("workfile", FieldVal.fwork (some (tmp_path_for e.uuid)))]) e pd.streams env).1)
        e.uuid with
    | none => rw [hgp, hq1] at hsw; cases hsw
    | some r2 => exact ⟨r2, rfl⟩
  have hfin : get_progress (update_progress ((encode (update_progress db e.uuid
      [("status", FieldVal.fstat FileStatus.in_progress),
       ("progress", FieldVal.frat 0),
       ("workfile", FieldVal.fwork (some (tmp_path_for e.uuid)))]) e pd.streams env).1)
      e.uuid
      [("status", FieldVal.fstat FileStatus.pending),
       ("progress", FieldVal.frat 0),
       ("workfile", FieldVal.fwork none)]) e.uuid
      = some { r2 with status := FileStatus.pending, progress := 0, workfile := none } := by
    rw [get_progress_update_progress, hr2]
    have hu := get_progress_uuid _ _ _ hr2
    simp only [Option.map_some']
    rw [if_pos hu]
    rfl
  rcases hfe : (encode (update_progress db e.uuid
      [("status", FieldVal.fstat FileStatus.in_progress),
       ("progress", FieldVal.frat 0),
       ("workfile", FieldVal.fwork (some (tmp_path_for e.uuid)))]) e pd.streams env).2.2
    with _ | msg0
  · have hpub : env.publish_ok = false := by
      rcases hfail with hf | hf
      · exact absurd hfe hf
      · exact hf
    have hout : process_file cfg db fs e env =
        { final := update_progress ((encode (update_progress db e.uuid
            [("status", FieldVal.fstat FileStatus.in_progress),
             ("progress", FieldVal.frat 0),
             ("workfile", FieldVal.fwork (some (tmp_path_for e.uuid)))]) e pd.streams env).1)
            e.uuid
            [("status", FieldVal.fstat FileStatus.pending),
             ("progress", FieldVal.frat 0),
             ("workfile", FieldVal.fwork none)],
          commits := update_progress db e.uuid
            [("status", FieldVal.fstat FileStatus.in_progress),
             ("progress", FieldVal.frat 0),
             ("workfile", FieldVal.fwork (some (tmp_path_for e.uuid)))] ::
            (encode (update_progress db e.uuid
              [("status", FieldVal.fstat FileStatus.in_progress),
               ("progress", FieldVal.frat 0),
               ("workfile", FieldVal.fwork (some (tmp_path_for e.uuid)))]) e pd.streams env).2.1
            ++ [update_progress ((encode (update_progress db e.uuid
              [("status", FieldVal.fstat FileStatus.in_progress),
               ("progress", FieldVal.frat 0),
               ("workfile", FieldVal.fwork (some (tmp_path_for e.uuid)))]) e pd.streams env).1)
              e.uuid
              [("status", FieldVal.fstat FileStatus.pending),
               ("progress", FieldVal.frat 0),
               ("workfile", FieldVal.fwork none)]],
          fs := cleanup_workdir (fs ++ [tmp_path_for e.uuid]) e.uuid,
          failure := some "publish failed" } := by
      unfold process_file
      dsimp only
      rw [hp1]
      simp only [Option.map_some', Option.getD_some]
      rw [if_neg (by simp [hse]), hp2]
      dsimp only
      rw [if_neg (by simp [hsk]), hfe]
      dsimp only
      rw [if_neg (by simp [hpub])]
    rw [hout]
    refine ⟨rfl, cleanup_workdir_not_mem _ _, ⟨_, hfin, rfl, rfl, rfl⟩, ?_, ?_⟩
    · intro msg hmsg
      cases hmsg
    · intro e' he' heq
      have hst := pick_next_queued_status _ e' he'
      rw [heq] at hst
      unfold statusOf at hst
      rw [hfin] at hst
      cases hst
  · have hout : process_file cfg db fs e env =
        { final := update_progress ((encode (update_progress db e.uuid
            [("status", FieldVal.fstat FileStatus.in_progress),
             ("progress", FieldVal.frat 0),
             ("workfile", FieldVal.fwork (some (tmp_path_for e.uuid)))]) e pd.streams env).1)
            e.uuid
            [("status", FieldVal.fstat FileStatus.pending),
             ("progress", FieldVal.frat 0),
             ("workfile", FieldVal.fwork none)],
          commits := update_progress db e.uuid
            [("status", FieldVal.fstat FileStatus.in_progress),
             ("progress", FieldVal.frat 0),
             ("workfile", FieldVal.fwork (some (tmp_path_for e.uuid)))] ::
            (encode (update_progress db e.uuid
              [("status", FieldVal.fstat FileStatus.in_progress),
               ("progress", FieldVal.frat 0),
               ("workfile", FieldVal.fwork (some (tmp_path_for e.uuid)))]) e pd.streams env).2.1
            ++ [update_progress ((encode (update_progress db e.uuid
              [("status", FieldVal.fstat FileStatus.in_progress),
               ("progress", FieldVal.frat 0),
               ("workfile", FieldVal.fwork (some (tmp_path_for e.uuid)))]) e pd.streams env).1)
              e.uuid
              [("status", FieldVal.fstat FileStatus.pending),
               ("progress", FieldVal.frat 0),
               ("workfile", FieldVal.fwork none)]],
          fs := cleanup_workdir (fs ++ [tmp_path_for e.uuid]) e.uuid,
          failure := some msg0 } := by
      unfold process_file
      dsimp only
      rw [hp1]
      simp only [Option.map_some', Option.getD_some]
      rw [if_neg (by simp [hse]), hp2]
      dsimp only
      rw [if_neg (by simp [hsk]), hfe]
    rw [hout]
    refine ⟨rfl, cleanup_workdir_not_mem _ _, ⟨_, hfin, rfl, rfl, rfl⟩, ?_, ?_⟩
    · intro msg hmsg
      cases hmsg
      exact ⟨rfl, encode_failure_shape _ e pd.streams env msg0 hfe,
        stderr_tail_length env.stderr, stderr_tail_suffix env.stderr⟩
    · intro e' he' heq
      have hst := pick_next_queued_status _ e' he'
      rw [heq] at hst
      unfold statusOf at hst
      rw [hfin] at hst
      cases hst

/-- Witness: C6 at a concrete store and a run whose publish step
fails — the workfile is gone afterwards. -/
theorem C6_failure_rollback_witness :
    tmp_path_for exEntry.uuid ∉ (process_file exCfg exDbQueued [] exEntry exFailEnv).fs :=
  (C6_failure_rollback exCfg exDbQueued [] exEntry exFailEnv exProbe264 exProbe264
    (by decide) rfl (by decide) rfl (by decide) (Or.inr rfl)).2.1

/-! ## C1 — startup hook and crash recovery -/

/-- C1 (refuting the claim): starting from a valid schema, a store
whose only Progress row is `IN_PROGRESS` with a recorded workfile, and
a filesystem holding exactly that leftover `<workdir>/<uuid>.mkv`, the
startup path (`validate_schema` → scan → `_on_startup_cleanup`) deletes
the workfile but leaves the row `IN_PROGRESS` with its now-dangling
`workfile` pointer: the reset to `PENDING, 0.0, workfile=null` that the
specification's startup step 3 promises never happens (no store access
exists on this code path). -/
theorem C1_startup_leaves_in_progress_row :
    (ensure_started fresh_master exDbIp [tmp_path_for "u1"] []).2.2 = [] ∧
    statusOf (ensure_started fresh_master exDbIp [tmp_path_for "u1"] []).2.1 "u1"
      = some FileStatus.in_progress ∧
    (get_progress (ensure_started fresh_master exDbIp [tmp_path_for "u1"] []).2.1 "u1").map
        (fun r => r.workfile) = some (some (tmp_path_for "u1")) := by
  refine ⟨?_, ?_, ?_⟩ <;> rfl

/-! ## C9 — the filename cleaner is not idempotent -/

/-- Counterexample to C9 as stated: `x264` survives the first pass
(the year `1999` truncates the name before junk stripping runs), but
the second pass, finding no year, strips it as a junk token:
`clean_filename` is not idempotent. -/
theorem C9_clean_filename_not_idempotent :
    clean_filename "x264.Movie.1999.mkv" = "X264 Movie" ∧
    clean_filename (clean_filename "x264.Movie.1999.mkv")
      ≠ clean_filename "x264.Movie.1999.mkv" := by
  constructor
  · decide
  · decide

/-! ### Character-level facts -/

theorem uint32_le_iff (a b : UInt32) : a ≤ b ↔ a.toNat ≤ b.toNat := by
  rw [UInt32.le_def]
  exact BitVec.le_def

theorem char_toNat_ofNat_valid (n : Nat) (h : n.isValidChar) :
    (Char.ofNat n).toNat = n := by
  unfold Char.ofNat
  rw [dif_pos h]
  unfold Char.ofNatAux Char.toNat
  simp [UInt32.toNat]

theorem char_isLower_iff (c : Char) :
    c.isLower = true ↔ 97 ≤ c.toNat ∧ c.toNat ≤ 122 := by
  unfold Char.isLower
  rw [Bool.and_eq_true]
  unfold Char.toNat
  rw [decide_eq_true_iff, decide_eq_true_iff, ge_iff_le, uint32_le_iff, uint32_le_iff]
  norm_num

theorem char_isUpper_iff (c : Char) :
    c.isUpper = true ↔ 65 ≤ c.toNat ∧ c.toNat ≤ 90 := by
  unfold Char.isUpper
  rw [Bool.and_eq_true]
  unfold Char.toNat
  rw [decide_eq_true_iff, decide_eq_true_iff, ge_iff_le, uint32_le_iff, uint32_le_iff]
  norm_num

theorem char_isAlpha_iff (c : Char) :
    c.isAlpha = true ↔ (65 ≤ c.toNat ∧ c.toNat ≤ 90) ∨ (97 ≤ c.toNat ∧ c.toNat ≤ 122) := by
  unfold Char.isAlpha
  rw [Bool.or_eq_true, char_isUpper_iff, char_isLower_iff]

theorem char_toUpper_isAlpha (c : Char) : (Char.toUpper c).isAlpha = c.isAlpha := by
  unfold Char.toUpper
  by_cases h : Char.toNat c ≥ 97 ∧ Char.toNat c ≤ 122
  · rw [if_pos h]
    have ht : (Char.ofNat (Char.toNat c - 32)).toNat = Char.toNat c - 32 :=
      char_toNat_ofNat_valid _ (Or.inl (by omega))
    have h1 : (Char.ofNat (Char.toNat c - 32)).isAlpha = true := by
      rw [char_isAlpha_iff, ht]
      left
      omega
    have h2 : c.isAlpha = true := by
      rw [char_isAlpha_iff]
      right
      omega
    rw [h1, h2]
  · rw [if_neg h]

theorem char_toLower_isAlpha (c : Char) : (Char.toLower c).isAlpha = c.isAlpha := by
  unfold Char.toLower
  by_cases h : Char.toNat c ≥ 65 ∧ Char.toNat c ≤ 90
  · rw [if_pos h]
    have ht : (Char.ofNat (Char.toNat c + 32)).toNat = Char.toNat c + 32 :=
      char_toNat_ofNat_valid _ (Or.inl (by omega))
    have h1 : (Char.ofNat (Char.toNat c + 32)).isAlpha = true := by
      rw [char_isAlpha_iff, ht]
      right
      omega
    have h2 : c.isAlpha = true := by
      rw [char_isAlpha_iff]
      left
      omega
    rw [h1, h2]
  · rw [if_neg h]

theorem char_toUpper_idem (c : Char) :
    Char.toUpper (Char.toUpper c) = Char.toUpper c := by
  by_cases h : Char.toNat c ≥ 97 ∧ Char.toNat c ≤ 122
  · have ht : (Char.toUpper c).toNat = Char.toNat c - 32 := by
      unfold Char.toUpper
      rw [if_pos h]
      exact char_toNat_ofNat_valid _ (Or.inl (by omega))
    rw [show Char.toUpper (Char.toUpper c)
        = (if Char.toNat (Char.toUpper c) ≥ 97 ∧ Char.toNat (Char.toUpper c) ≤ 122 then
            Char.ofNat (Char.toNat (Char.toUpper c) - 32) else Char.toUpper c) from rfl]
    rw [if_neg (by rw [ht]; omega)]
  · have hc : Char.toUpper c = c := by
      unfold Char.toUpper
      rw [if_neg h]
    rw [hc, hc]

theorem char_toLower_idem (c : Char) :
    Char.toLower (Char.toLower c) = Char.toLower c := by
  by_cases h : Char.toNat c ≥ 65 ∧ Char.toNat c ≤ 90
  · have ht : (Char.toLower c).toNat = Char.toNat c + 32 := by
      unfold Char.toLower
      rw [if_pos h]
      exact char_toNat_ofNat_valid _ (Or.inl (by omega))
    rw [show Char.toLower (Char.toLower c)
        = (if Char.toNat (Char.toLower c) ≥ 65 ∧ Char.toNat (Char.toLower c) ≤ 90 then
            Char.ofNat (Char.toNat (Char.toLower c) + 32) else Char.toLower c) from rfl]
    rw [if_neg (by rw [ht]; omega)]
  · have hc : Char.toLower c = c := by
      unfold Char.toLower
      rw [if_neg h]
    rw [hc, hc]

theorem char_alpha_not_punct3 (c : Char) (h : c.isAlpha = true) : is_punct3 c = false := by
  by_contra hb
  rcases Bool.or_eq_true _ _ |>.mp (Bool.not_eq_false _ |>.mp hb) with h1 | h1
  · rcases Bool.or_eq_true _ _ |>.mp h1 with h2 | h2
    · rw [beq_iff_eq.mp h2] at h
      simp at h
    · rw [beq_iff_eq.mp h2] at h
      simp at h
  · rw [beq_iff_eq.mp h1] at h
    simp at h

theorem bracket_not_alpha (c : Char) (h : is_bracket c = true) : c.isAlpha = false := by
  simp [is_bracket] at h
  rcases h with ((((((rfl | rfl) | rfl) | rfl) | rfl) | rfl) | rfl) | rfl <;> decide

theorem py_ws_not_alpha (c : Char) (h : py_ws c = true) : c.isAlpha = false := by
  simp [py_ws] at h
  rcases h with ((((rfl | rfl) | rfl) | rfl) | rfl) | rfl <;> decide

theorem strip_set_not_alpha (c : Char) (h : strip_set c = true) : c.isAlpha = false := by
  simp [strip_set] at h
  rcases h with ((rfl | rfl) | rfl) | rfl <;> decide

theorem punct3_not_alpha (c : Char) (h : is_punct3 c = true) : c.isAlpha = false := by
  simp [is_punct3] at h
  rcases h with (rfl | rfl) | rfl <;> decide

/-- A character test that only accepts non-letters rejects every
letter. -/
theorem char_alpha_false (F : Char → Bool) (hs : ∀ d : Char, F d = true → d.isAlpha = false)
    (c : Char) (h : c.isAlpha = true) : F c = false := by
  by_contra hb
  rw [Bool.not_eq_false] at hb
  rw [hs c hb] at h
  cases h

theorem py_title_aux_cons (prev : Bool) (c : Char) (rest : List Char) :
    py_title_aux prev (c :: rest) = tmap prev c :: py_title_aux c.isAlpha rest := rfl

theorem tmap_isAlpha (prev : Bool) (c : Char) : (tmap prev c).isAlpha = c.isAlpha := by
  unfold tmap
  by_cases h : c.isAlpha = true
  · rw [if_pos h]
    by_cases hp : prev = true
    · rw [if_pos hp, char_toLower_isAlpha]
    · rw [if_neg hp, char_toUpper_isAlpha]
  · rw [if_neg h]

/-- `tmap` never turns a letter into a non-letter test's positive, nor
touches non-letters: any test false on letters is invariant. -/
theorem tmap_pres (F : Char → Bool) (hs : ∀ d : Char, F d = true → d.isAlpha = false)
    (prev : Bool) (c : Char) : F (tmap prev c) = F c := by
  by_cases h : c.isAlpha = true
  · rw [char_alpha_false F hs _ h, char_alpha_false F hs _ (by rw [tmap_isAlpha]; exact h)]
  · unfold tmap
    rw [if_neg h]

theorem tmap_tmap (prev : Bool) (c : Char) : tmap prev (tmap prev c) = tmap prev c := by
  by_cases h : c.isAlpha = true
  · have h2 : (tmap prev c).isAlpha = true := by rw [tmap_isAlpha]; exact h
    by_cases hp : prev = true
    · have e1 : tmap prev c = c.toLower := by unfold tmap; rw [if_pos h, if_pos hp]
      rw [show tmap prev (tmap prev c)
          = (if (tmap prev c).isAlpha then
              (if prev then (tmap prev c).toLower else (tmap prev c).toUpper)
            else tmap prev c) from rfl]
      rw [if_pos h2, if_pos hp, e1, char_toLower_idem]
    · have e1 : tmap prev c = c.toUpper := by unfold tmap; rw [if_pos h, if_neg hp]
      rw [show tmap prev (tmap prev c)
          = (if (tmap prev c).isAlpha then
              (if prev then (tmap prev c).toLower else (tmap prev c).toUpper)
            else tmap prev c) from rfl]
      rw [if_pos h2, if_neg hp, e1, char_toUpper_idem]
  · have e1 : tmap prev c = c := by unfold tmap; rw [if_neg h]
    rw [e1, e1]

theorem py_title_aux_idem (l : List Char) : ∀ b : Bool,
    py_title_aux b (py_title_aux b l) = py_title_aux b l := by
  induction l with
  | nil => intro b; rfl
  | cons c rest ih =>
    intro b
    rw [py_title_aux_cons, py_title_aux_cons, tmap_tmap, tmap_isAlpha, ih]

theorem py_title_aux_take (l : List Char) : ∀ (b : Bool) (n : Nat),
    py_title_aux b (l.take n) = (py_title_aux b l).take n := by
  induction l with
  | nil => intro b n; cases n <;> rfl
  | cons c rest ih =>
    intro b n
    cases n with
    | zero => rfl
    | succ m =>
      rw [List.take_succ_cons, py_title_aux_cons, py_title_aux_cons, ih,
        List.take_succ_cons]

theorem py_title_aux_length (l : List Char) : ∀ b : Bool,
    (py_title_aux b l).length = l.length := by
  induction l with
  | nil => intro b; rfl
  | cons c rest ih =>
    intro b
    rw [py_title_aux_cons, List.length_cons, List.length_cons, ih]

theorem mem_py_title_aux (l : List Char) : ∀ (b : Bool) (c : Char),
    c ∈ py_title_aux b l → c ∈ l ∨ c.isAlpha = true := by
  induction l with
  | nil => intro b c h; cases h
  | cons a rest ih =>
    intro b c h
    rw [py_title_aux_cons] at h
    rcases List.mem_cons.mp h with h | h
    · by_cases ha : a.isAlpha = true
      · right
        rw [h, tmap_isAlpha]
        exact ha
      · left
        rw [h]
        unfold tmap
        rw [if_neg ha]
        exact List.mem_cons_self _ _
    · rcases ih a.isAlpha c h with h' | h'
      · exact Or.inl (List.mem_cons_of_mem _ h')
      · exact Or.inr h'

/-! ### Stage membership and identity lemmas -/

theorem punct_mem (l : List Char) :
    (∀ c ∈ punct_sub l, is_punct3 c = false ∧ (c ∈ l ∨ c = ' ')) ∧
    (∀ c ∈ punct_skip l, is_punct3 c = false ∧ (c ∈ l ∨ c = ' ')) := by
  induction l with
  | nil => exact ⟨fun c h => absurd h (by simp [punct_sub]), fun c h => absurd h (by simp [punct_skip])⟩
  | cons a rest ih =>
    constructor
    · intro c hc
      rw [show punct_sub (a :: rest)
          = (if is_punct3 a then ' ' :: punct_skip rest else a :: punct_sub rest) from rfl] at hc
      by_cases ha : is_punct3 a = true
      · rw [if_pos ha] at hc
        rcases List.mem_cons.mp hc with hc | hc
        · exact ⟨by rw [hc]; decide, Or.inr hc⟩
        · obtain ⟨h1, h2⟩ := ih.2 c hc
          refine ⟨h1, ?_⟩
          rcases h2 with h2 | h2
          · exact Or.inl (List.mem_cons_of_mem _ h2)
          · exact Or.inr h2
      · rw [if_neg ha] at hc
        rcases List.mem_cons.mp hc with hc | hc
        · exact ⟨by rw [hc]; exact eq_false_of_ne_true ha, Or.inl (by rw [hc]; exact List.mem_cons_self _ _)⟩
        · obtain ⟨h1, h2⟩ := ih.1 c hc
          refine ⟨h1, ?_⟩
          rcases h2 with h2 | h2
          · exact Or.inl (List.mem_cons_of_mem _ h2)
          · exact Or.inr h2
    · intro c hc
      rw [show punct_skip (a :: rest)
          = (if is_punct3 a then punct_skip rest else a :: punct_sub rest) from rfl] at hc
      by_cases ha : is_punct3 a = true
      · rw [if_pos ha] at hc
        obtain ⟨h1, h2⟩ := ih.2 c hc
        refine ⟨h1, ?_⟩
        rcases h2 with h2 | h2
        · exact Or.inl (List.mem_cons_of_mem _ h2)
        · exact Or.inr h2
      · rw [if_neg ha] at hc
        rcases List.mem_cons.mp hc with hc | hc
        · exact ⟨by rw [hc]; exact eq_false_of_ne_true ha, Or.inl (by rw [hc]; exact List.mem_cons_self _ _)⟩
        · obtain ⟨h1, h2⟩ := ih.1 c hc
          refine ⟨h1, ?_⟩
          rcases h2 with h2 | h2
          · exact Or.inl (List.mem_cons_of_mem _ h2)
          · exact Or.inr h2

theorem punct_sub_id (l : List Char) (h : ∀ c ∈ l, is_punct3 c = false) :
    punct_sub l = l := by
  induction l with
  | nil => rfl
  | cons a rest ih =>
    rw [show punct_sub (a :: rest)
        = (if is_punct3 a then ' ' :: punct_skip rest else a :: punct_sub rest) from rfl]
    rw [if_neg (by rw [h a (List.mem_cons_self _ _)]; simp)]
    rw [ih (fun c hc => h c (List.mem_cons_of_mem _ hc))]

theorem brackets_sub_mem (l : List Char) :
    ∀ c ∈ brackets_sub l, is_bracket c = false ∧ (c ∈ l ∨ c = ' ') := by
  intro c hc
  obtain ⟨a, ha, hfa⟩ := List.mem_map.mp hc
  by_cases hb : is_bracket a = true
  · rw [if_pos hb] at hfa
    exact ⟨by rw [← hfa]; decide, Or.inr hfa.symm⟩
  · rw [if_neg hb] at hfa
    exact ⟨by rw [← hfa]; exact eq_false_of_ne_true hb, Or.inl (hfa ▸ ha)⟩

theorem brackets_sub_id (l : List Char) (h : ∀ c ∈ l, is_bracket c = false) :
    brackets_sub l = l := by
  induction l with
  | nil => rfl
  | cons a rest ih =>
    show (if is_bracket a then ' ' else a) :: brackets_sub rest = a :: rest
    rw [if_neg (by rw [h a (List.mem_cons_self _ _)]; simp)]
    rw [ih (fun c hc => h c (List.mem_cons_of_mem _ hc))]

theorem junk_sub_aux_subset : ∀ (fuel : Nat) (prev : Option Char) (l : List Char),
    ∀ c ∈ junk_sub_aux fuel prev l, c ∈ l := by
  intro fuel
  induction fuel with
  | zero => intro prev l c hc; exact hc
  | succ f ih =>
    intro prev l c hc
    match l with
    | [] => cases hc
    | a :: rest =>
      rw [show junk_sub_aux (f + 1) prev (a :: rest)
          = (match junk_match_here prev (a :: rest) with
             | some n => junk_sub_aux f (((a :: rest).drop (n - 1)).head?) ((a :: rest).drop n)
             | none => a :: junk_sub_aux f (some a) rest) from rfl] at hc
      cases hm : junk_match_here prev (a :: rest) with
      | some n =>
        rw [hm] at hc
        exact List.drop_subset _ _ (ih _ _ c hc)
      | none =>
        rw [hm] at hc
        rcases List.mem_cons.mp hc with hc | hc
        · exact hc ▸ List.mem_cons_self _ _
        · exact List.mem_cons_of_mem _ (ih _ _ c hc)

theorem junk_sub_subset (l : List Char) : ∀ c ∈ junk_sub l, c ∈ l :=
  junk_sub_aux_subset l.length none l

theorem msp_mem (l : List Char) :
    (∀ c ∈ msp l, c ∈ l ∨ c = ' ') ∧ (∀ c ∈ msp_skip l, c ∈ l ∨ c = ' ') := by
  induction l with
  | nil => exact ⟨fun c h => absurd h (by simp [msp]), fun c h => absurd h (by simp [msp_skip])⟩
  | cons a rest ih =>
    constructor
    · intro c hc
      unfold msp at hc
      split at hc
      · rcases List.mem_cons.mp hc with hc | hc
        · exact Or.inr hc
        · rcases ih.2 c hc with h | h
          · exact Or.inl (List.mem_cons_of_mem _ h)
          · exact Or.inr h
      · rcases List.mem_cons.mp hc with hc | hc
        · exact Or.inl (hc ▸ List.mem_cons_self _ _)
        · rcases ih.1 c hc with h | h
          · exact Or.inl (List.mem_cons_of_mem _ h)
          · exact Or.inr h
    · intro c hc
      rw [show msp_skip (a :: rest)
          = (if py_ws a then msp_skip rest else a :: msp rest) from rfl] at hc
      split at hc
      · rcases ih.2 c hc with h | h
        · exact Or.inl (List.mem_cons_of_mem _ h)
        · exact Or.inr h
      · rcases List.mem_cons.mp hc with hc | hc
        · exact Or.inl (hc ▸ List.mem_cons_self _ _)
        · rcases ih.1 c hc with h | h
          · exact Or.inl (List.mem_cons_of_mem _ h)
          · exact Or.inr h

theorem dropWhile_id_of_head (p : Char → Bool) (l : List Char)
    (h : ∀ hd, l.head? = some hd → p hd = false) : l.dropWhile p = l := by
  cases l with
  | nil => rfl
  | cons a rest =>
    rw [List.dropWhile_cons, if_neg]
    rw [h a rfl]
    simp

theorem strip_chars_subset (l : List Char) : ∀ c ∈ strip_chars l, c ∈ l := by
  intro c hc
  unfold strip_chars at hc
  rw [List.mem_reverse] at hc
  have h1 := (List.dropWhile_sublist (l := (l.dropWhile strip_set).reverse)
    (p := strip_set)).subset hc
  rw [List.mem_reverse] at h1
  exact (List.dropWhile_sublist (l := l) (p := strip_set)).subset h1

theorem pstrip_subset (l : List Char) : ∀ c ∈ pstrip l, c ∈ l := by
  intro c hc
  unfold pstrip at hc
  rw [List.mem_reverse] at hc
  have h1 := (List.dropWhile_sublist (l := (l.dropWhile py_ws).reverse)
    (p := py_ws)).subset hc
  rw [List.mem_reverse] at h1
  exact (List.dropWhile_sublist (l := l) (p := py_ws)).subset h1

theorem strip_chars_id (l : List Char)
    (hh : ∀ hd, l.head? = some hd → strip_set hd = false)
    (hl : ∀ tl, l.getLast? = some tl → strip_set tl = false) : strip_chars l = l := by
  unfold strip_chars
  rw [dropWhile_id_of_head _ _ hh]
  rw [dropWhile_id_of_head _ _ (by
    intro hd hhd
    rw [List.head?_reverse] at hhd
    exact hl hd hhd)]
  exact List.reverse_reverse l

theorem pstrip_id (l : List Char)
    (hh : ∀ hd, l.head? = some hd → py_ws hd = false)
    (hl : ∀ tl, l.getLast? = some tl → py_ws tl = false) : pstrip l = l := by
  unfold pstrip
  rw [dropWhile_id_of_head _ _ hh]
  rw [dropWhile_id_of_head _ _ (by
    intro hd hhd
    rw [List.head?_reverse] at hhd
    exact hl hd hhd)]
  exact List.reverse_reverse l

theorem py_basename_no_slash (l : List Char) : '/' ∉ py_basename l := by
  intro h
  unfold py_basename at h
  rw [List.mem_reverse] at h
  have := List.mem_takeWhile_imp h
  simp at this

theorem py_basename_id (l : List Char) (h : '/' ∉ l) : py_basename l = l := by
  unfold py_basename
  rw [List.takeWhile_eq_self_iff.mpr]
  · exact List.reverse_reverse l
  · intro x hx
    rw [List.mem_reverse] at hx
    exact decide_eq_true (fun he => h (he ▸ hx))

theorem splitext_stem_id (l : List Char) (h : '.' ∉ l) : splitext_stem l = l := by
  unfold splitext_stem
  rw [List.findIdx?_eq_none_iff.mpr]
  intro x hx
  rw [List.mem_reverse] at hx
  exact beq_eq_false_iff_ne.mpr (fun he => h (he ▸ hx))

/-! ### Watermark no-op lemmas -/

theorem ci_pref_mem : ∀ (pat l : List Char), ci_pref pat l = true →
    ∀ p ∈ pat, ∃ c ∈ l, c.toLower = p := by
  intro pat
  induction pat with
  | nil => intro l h p hp; cases hp
  | cons q qs ih =>
    intro l h p hp
    cases l with
    | nil => cases h
    | cons c cs =>
      rw [show ci_pref (q :: qs) (c :: cs) = (c.toLower == q && ci_pref qs cs) from rfl,
        Bool.and_eq_true] at h
      rcases List.mem_cons.mp hp with hp | hp
      · exact ⟨c, List.mem_cons_self _ _, hp ▸ beq_iff_eq.mp h.1⟩
      · obtain ⟨d, hd, hdp⟩ := ih cs h.2 p hp
        exact ⟨d, List.mem_cons_of_mem _ hd, hdp⟩

theorem char_toLower_eq_dot (c : Char) (h : c.toLower = '.') : c = '.' := by
  by_cases hr : Char.toNat c ≥ 65 ∧ Char.toNat c ≤ 90
  · exfalso
    have he : Char.toLower c = Char.ofNat (Char.toNat c + 32) := by
      unfold Char.toLower
      rw [if_pos hr]
    rw [he] at h
    have := congrArg Char.toNat h
    rw [char_toNat_ofNat_valid _ (Or.inl (by omega))] at this
    have hdot : Char.toNat '.' = 46 := by decide
    omega
  · have he : Char.toLower c = c := by
      unfold Char.toLower
      rw [if_neg hr]
    rw [he] at h
    exact h

theorem match_url_none (l : List Char) (h : '.' ∉ l) : match_url l = none := by
  have hww : ci_pref ['w', 'w', 'w', '.'] l = false := by
    by_contra hb
    rw [Bool.not_eq_false] at hb
    obtain ⟨c, hc, hcl⟩ := ci_pref_mem _ _ hb '.' (by decide)
    exact h (char_toLower_eq_dot c hcl ▸ hc)
  unfold match_url
  simp only [hww, Bool.false_eq_true, if_false]
  by_cases hr : run_len is_wd l = 0
  · simp [hr]
  · rw [if_neg hr]
    cases hd : List.drop (run_len is_wd l) l with
    | nil => rfl
    | cons c l2 =>
      have hc : c ≠ '.' := by
        intro he
        exact h (he ▸ List.drop_subset _ _ (hd ▸ List.mem_cons_self c l2))
      split
      · rename_i l2' heq
        cases heq
        exact absurd rfl hc
      · rfl

theorem tag_tail_none (l : List Char) (h : '-' ∉ l) : tag_tail l = none := by
  unfold tag_tail
  by_cases hr : run_len py_ws l = 0
  · simp [hr]
  · rw [if_neg hr]
    cases hd : List.drop (run_len py_ws l) l with
    | nil => rfl
    | cons c l2 =>
      have hc : c ≠ '-' := by
        intro he
        exact h (he ▸ List.drop_subset _ _ (hd ▸ List.mem_cons_self c l2))
      split
      · rename_i l2' heq
        cases heq
        exact absurd rfl hc
      · rfl

theorem match_tag_from_none (l : List Char) (h : '-' ∉ l) :
    ∀ k, match_tag_from l k = none := by
  intro k
  induction k with
  | zero => rfl
  | succ m ih =>
    show (match tag_tail (l.drop (m + 1)) with
          | some n => some (m + 1 + n)
          | none => match_tag_from l m) = none
    rw [tag_tail_none _ (fun hm => h (List.drop_subset _ _ hm))]
    exact ih

theorem strip_watermark_id (l : List Char) (hdot : '.' ∉ l) (hdash : '-' ∉ l)
    (hps : pstrip l = l) : strip_watermark l = l := by
  unfold strip_watermark
  have hurl : url_sub l = l := by
    unfold url_sub
    rw [match_url_none l hdot]
  rw [hurl, hps]
  rw [if_neg (fun hne => hne rfl)]
  unfold match_tag
  rw [match_tag_from_none l hdash]

/-! ### Whitespace-run structure -/

theorem rws_symm (a b : Char) (h : Rws a b) : Rws b a := fun hc => h ⟨hc.2, hc.1⟩

theorem chain_rws_reverse (x : List Char) (h : List.Chain' Rws x) :
    List.Chain' Rws x.reverse :=
  List.chain'_reverse.mpr (h.imp rws_symm)

theorem chain_rws_strip_chars (x : List Char) (h : List.Chain' Rws x) :
    List.Chain' Rws (strip_chars x) := by
  unfold strip_chars
  apply chain_rws_reverse
  apply List.Chain'.suffix _ (List.dropWhile_suffix _)
  apply chain_rws_reverse
  exact List.Chain'.suffix h (List.dropWhile_suffix _)

theorem chain_rws_pstrip (x : List Char) (h : List.Chain' Rws x) :
    List.Chain' Rws (pstrip x) := by
  unfold pstrip
  apply chain_rws_reverse
  apply List.Chain'.suffix _ (List.dropWhile_suffix _)
  apply chain_rws_reverse
  exact List.Chain'.suffix h (List.dropWhile_suffix _)

theorem msp_skip_head_not_ws : ∀ (l : List Char) (d : Char),
    (msp_skip l).head? = some d → py_ws d = false := by
  intro l
  induction l with
  | nil => intro d h; cases h
  | cons a rest ih =>
    intro d h
    rw [show msp_skip (a :: rest) = (if py_ws a then msp_skip rest else a :: msp rest) from rfl] at h
    by_cases ha : py_ws a = true
    · rw [if_pos ha] at h
      exact ih d h
    · rw [if_neg ha] at h
      cases h
      exact eq_false_of_ne_true ha

theorem msp_nil_eq : msp [] = [] := rfl

theorem msp_one (a : Char) : msp [a] = [a] := by
  show (if py_ws a && false then ' ' :: msp_skip [] else a :: msp []) = [a]
  rw [Bool.and_false]
  rfl

theorem msp_cc (a r : Char) (rs : List Char) :
    msp (a :: r :: rs)
      = if py_ws a && py_ws r then ' ' :: msp_skip (r :: rs) else a :: msp (r :: rs) := rfl

theorem msp_head_ws : ∀ (l : List Char) (d : Char), (msp l).head? = some d →
    ∃ c, l.head? = some c ∧ py_ws d = py_ws c := by
  intro l d h
  cases l with
  | nil => cases h
  | cons a rest =>
    cases rest with
    | nil =>
      rw [msp_one] at h
      cases h
      exact ⟨d, rfl, rfl⟩
    | cons r rs =>
      rw [msp_cc] at h
      by_cases hc : (py_ws a && py_ws r) = true
      · rw [if_pos hc] at h
        cases h
        rw [Bool.and_eq_true] at hc
        exact ⟨a, rfl, by rw [hc.1]; decide⟩
      · rw [if_neg hc] at h
        cases h
        exact ⟨d, rfl, rfl⟩

theorem msp_chain (l : List Char) :
    List.Chain' Rws (msp l) ∧ List.Chain' Rws (msp_skip l) := by
  induction l with
  | nil => exact ⟨List.chain'_nil, List.chain'_nil⟩
  | cons a rest ih =>
    constructor
    · cases rest with
      | nil =>
        rw [msp_one]
        exact List.chain'_singleton a
      | cons r rs =>
        rw [msp_cc]
        by_cases hc : (py_ws a && py_ws r) = true
        · rw [if_pos hc]
          rw [List.chain'_cons']
          refine ⟨?_, ih.2⟩
          intro y hy hcc
          rw [msp_skip_head_not_ws _ y hy] at hcc
          cases hcc.2
        · rw [if_neg hc]
          rw [List.chain'_cons']
          refine ⟨?_, ih.1⟩
          intro y hy hcc
          obtain ⟨c, hch, hwy⟩ := msp_head_ws _ y hy
          cases hch
          apply hc
          rw [Bool.and_eq_true]
          exact ⟨hcc.1, hwy ▸ hcc.2⟩
    · show List.Chain' Rws (if py_ws a then msp_skip rest else a :: msp rest)
      by_cases ha : py_ws a = true
      · rw [if_pos ha]
        exact ih.2
      · rw [if_neg ha]
        rw [List.chain'_cons']
        refine ⟨?_, ih.1⟩
        intro y hy hcc
        exact ha hcc.1

theorem msp_id (l : List Char) (h : List.Chain' Rws l) : msp l = l := by
  induction l with
  | nil => rfl
  | cons a rest ih =>
    rw [List.chain'_cons'] at h
    cases rest with
    | nil => exact msp_one a
    | cons r rs =>
      rw [msp_cc]
      have hc : (py_ws a && py_ws r) = false := by
        by_contra hb
        rw [Bool.not_eq_false, Bool.and_eq_true] at hb
        exact h.1 r rfl ⟨hb.1, hb.2⟩
      rw [hc]
      simp only [Bool.false_eq_true, if_false]
      rw [ih h.2]

/-! ### Title-case transfer lemmas -/

theorem py_title_aux_head (b : Bool) (l : List Char) :
    (py_title_aux b l).head? = l.head?.map (tmap b) := by
  cases l with
  | nil => rfl
  | cons a rest => rfl

theorem py_title_chain (l : List Char) : ∀ b : Bool,
    List.Chain' Rws l → List.Chain' Rws (py_title_aux b l) := by
  induction l with
  | nil => intro b h; exact List.chain'_nil
  | cons a rest ih =>
    intro b h
    rw [List.chain'_cons'] at h
    rw [py_title_aux_cons, List.chain'_cons']
    refine ⟨?_, ih a.isAlpha h.2⟩
    intro y hy hcc
    rw [py_title_aux_head] at hy
    cases hrest : rest.head? with
    | none => rw [hrest] at hy; cases hy
    | some z =>
      rw [hrest] at hy
      cases hy
      apply h.1 z hrest
      constructor
      · rw [← tmap_pres py_ws py_ws_not_alpha b a]
        exact hcc.1
      · rw [← tmap_pres py_ws py_ws_not_alpha a.isAlpha z]
        exact hcc.2

theorem py_title_aux_getLast (F : Char → Bool)
    (hs : ∀ d : Char, F d = true → d.isAlpha = false) (l : List Char) : ∀ (b : Bool) (d : Char),
    (py_title_aux b l).getLast? = some d →
    ∃ c, l.getLast? = some c ∧ F d = F c := by
  induction l with
  | nil => intro b d h; cases h
  | cons a rest ih =>
    intro b d h
    cases rest with
    | nil =>
      rw [py_title_aux_cons] at h
      replace h : some (tmap b a) = some d := h
      cases h
      exact ⟨a, rfl, tmap_pres F hs b a⟩
    | cons r rs =>
      rw [py_title_aux_cons, py_title_aux_cons] at h
      rw [List.getLast?_cons_cons] at h
      rw [← py_title_aux_cons] at h
      obtain ⟨c, hc, hFc⟩ := ih a.isAlpha d h
      exact ⟨c, by rw [List.getLast?_cons_cons]; exact hc, hFc⟩

/-! ### Prefix / suffix bookkeeping -/

theorem head?_of_pref {l1 l2 : List Char} (h : l1 <+: l2) (hne : l1 ≠ []) :
    l2.head? = l1.head? := by
  obtain ⟨post, rfl⟩ := h
  cases l1 with
  | nil => exact absurd rfl hne
  | cons a t => rfl

theorem getLast?_of_suffix {l1 l2 : List Char} (h : l1 <:+ l2) (hne : l1 ≠ []) :
    l2.getLast? = l1.getLast? := by
  obtain ⟨pre, rfl⟩ := h
  cases l1 with
  | nil => exact absurd rfl hne
  | cons a t =>
    rw [List.getLast?_append]
    rfl

theorem dropWhile_head_false (p : Char → Bool) (l : List Char) :
    ∀ d rest2, l.dropWhile p = d :: rest2 → p d = false := by
  induction l with
  | nil => intro d rest2 h; cases h
  | cons a t ih =>
    intro d rest2 h
    rw [List.dropWhile_cons] at h
    by_cases ha : p a = true
    · rw [if_pos ha] at h
      exact ih d rest2 h
    · rw [if_neg ha] at h
      cases h
      exact eq_false_of_ne_true ha

theorem strip_chars_head (x : List Char) :
    ∀ d, (strip_chars x).head? = some d → strip_set d = false := by
  intro d h
  unfold strip_chars at h
  set A := x.dropWhile strip_set with hA
  set B := A.reverse.dropWhile strip_set with hB
  have hBne : B ≠ [] := by
    intro hBn
    rw [hBn] at h
    cases h
  have h1 : B.reverse.head? = B.getLast? := by
    rw [List.head?_reverse]
  rw [h1] at h
  have h2 : A.reverse.getLast? = B.getLast? :=
    getLast?_of_suffix (hB ▸ List.dropWhile_suffix _) hBne
  rw [← h2] at h
  rw [List.getLast?_reverse] at h
  cases hA2 : A with
  | nil => rw [hA2] at h; cases h
  | cons a t =>
    rw [hA2] at h
    replace h : some a = some d := h
    cases h
    exact dropWhile_head_false _ _ _ _ hA2

theorem strip_chars_last (x : List Char) :
    ∀ d, (strip_chars x).getLast? = some d → strip_set d = false := by
  intro d h
  unfold strip_chars at h
  rw [List.getLast?_reverse] at h
  cases hB : (x.dropWhile strip_set).reverse.dropWhile strip_set with
  | nil => rw [hB] at h; cases h
  | cons b t =>
    rw [hB] at h
    replace h : some b = some d := h
    cases h
    exact dropWhile_head_false _ _ _ _ hB

/-! ### Truncation lemmas -/

theorem strip_set_false_of (d : Char) (h1 : d ≠ ' ') (h2 : is_punct3 d = false) :
    strip_set d = false := by
  by_contra hb
  rw [Bool.not_eq_false] at hb
  simp [strip_set] at hb
  rcases hb with ((rfl | rfl) | rfl) | rfl
  · exact h1 rfl
  · rw [show is_punct3 '-' = true from rfl] at h2; cases h2
  · rw [show is_punct3 '_' = true from rfl] at h2; cases h2
  · rw [show is_punct3 '.' = true from rfl] at h2; cases h2

theorem rsplit_head_pref (l : List Char) : rsplit_head l <+: l := by
  unfold rsplit_head
  cases hd : l.reverse.dropWhile (fun c => !(c == ' ')) with
  | nil => exact List.prefix_refl l
  | cons x post =>
    refine ⟨x :: (l.reverse.takeWhile (fun c => !(c == ' '))).reverse, ?_⟩
    have hsplit := List.takeWhile_append_dropWhile
      (p := fun c => !(c == ' ')) (l := l.reverse)
    rw [hd] at hsplit
    have h2 := congrArg List.reverse hsplit
    rw [List.reverse_append, List.reverse_reverse, List.reverse_cons,
      List.append_assoc] at h2
    exact h2

theorem rsplit_head_last_not_strip (l : List Char) (hch : List.Chain' Rws l)
    (hpun : ∀ c ∈ l, is_punct3 c = false) :
    ∀ d, (rsplit_head l).getLast? = some d → strip_set d = false := by
  intro d h
  unfold rsplit_head at h
  cases hd : l.reverse.dropWhile (fun c => !(c == ' ')) with
  | nil =>
    rw [hd] at h
    have hall := List.dropWhile_eq_nil_iff.mp hd
    have hdm : d ∈ l := List.mem_of_getLast?_eq_some h
    have hne : d ≠ ' ' := by
      have := hall d (List.mem_reverse.mpr hdm)
      simp at this
      exact this
    exact strip_set_false_of d hne (hpun d hdm)
  | cons x post =>
    rw [hd] at h
    rw [List.getLast?_reverse] at h
    have hx : x = ' ' := by
      have := dropWhile_head_false _ _ _ _ hd
      simpa using this
    have hchain : List.Chain' Rws (x :: post) :=
      (chain_rws_reverse l hch).suffix (hd ▸ List.dropWhile_suffix _)
    rw [List.chain'_cons'] at hchain
    have hrel := hchain.1 d h
    subst hx
    have hwd : py_ws d = false := by
      by_contra hb
      rw [Bool.not_eq_false] at hb
      exact hrel ⟨by decide, hb⟩
    have hdm : d ∈ l := by
      have h1 : d ∈ post := List.mem_of_mem_head? (by rw [h]; rfl)
      have h2 : d ∈ l.reverse := by
        have hsuff : (' ' :: post) <:+ l.reverse := hd ▸ List.dropWhile_suffix _
        exact hsuff.subset (List.mem_cons_of_mem _ h1)
      exact List.mem_reverse.mp h2
    refine strip_set_false_of d ?_ (hpun d hdm)
    intro he
    rw [he] at hwd
    cases hwd
  
theorem rsplit_head_ne_nil (l : List Char) (hne : l ≠ [])
    (hh : ∀ hd, l.head? = some hd → hd ≠ ' ') : rsplit_head l ≠ [] := by
  unfold rsplit_head
  cases hd : l.reverse.dropWhile (fun c => !(c == ' ')) with
  | nil => exact hne
  | cons x post =>
    intro hp
    rw [List.reverse_eq_nil_iff] at hp
    subst hp
    have hx : x = ' ' := by
      have := dropWhile_head_false _ _ _ _ hd
      simpa using this
    have hsplit := List.takeWhile_append_dropWhile
      (p := fun c => !(c == ' ')) (l := l.reverse)
    rw [hd] at hsplit
    have h2 := congrArg List.reverse hsplit
    rw [List.reverse_append, List.reverse_reverse] at h2
    have hhead : l.head? = some x := by
      rw [← h2]
      rfl
    exact hh x hhead hx

theorem truncate120_pref (l : List Char) : truncate120 l <+: l := by
  unfold truncate120
  split
  · exact (rsplit_head_pref _).trans (List.take_prefix _ _)
  · exact List.prefix_refl l

theorem truncate120_len (l : List Char) : (truncate120 l).length ≤ 120 := by
  unfold truncate120
  split
  · have h1 := (rsplit_head_pref (l.take 120)).length_le
    have h2 : (l.take 120).length ≤ 120 := by
      rw [List.length_take]
      exact min_le_left _ _
    omega
  · omega

theorem truncate120_id (l : List Char) (h : l.length ≤ 120) : truncate120 l = l := by
  unfold truncate120
  rw [if_neg (by omega)]

theorem truncate120_ne_nil (l : List Char) (hne : l ≠ [])
    (hh : ∀ hd, l.head? = some hd → hd ≠ ' ') : truncate120 l ≠ [] := by
  unfold truncate120
  split
  · rename_i hlen
    apply rsplit_head_ne_nil
    · intro ht
      have h2 := congrArg List.length ht
      rw [List.length_take] at h2
      simp only [List.length_nil] at h2
      omega
    · intro hd hhd
      apply hh
      rw [head?_of_pref (List.take_prefix 120 l) (by
        intro ht
        have h2 := congrArg List.length ht
        rw [List.length_take] at h2
        simp only [List.length_nil] at h2
        omega)]
      exact hhd
  · exact hne

theorem truncate120_last_not_strip (l : List Char) (hch : List.Chain' Rws l)
    (hpun : ∀ c ∈ l, is_punct3 c = false)
    (hlast : ∀ d, l.getLast? = some d → strip_set d = false) :
    ∀ d, (truncate120 l).getLast? = some d → strip_set d = false := by
  intro d h
  unfold truncate120 at h
  split at h
  · refine rsplit_head_last_not_strip (l.take 120) ?_ ?_ d h
    · exact hch.prefix (List.take_prefix _ _)
    · intro c hc
      exact hpun c (List.take_subset _ _ hc)
  · exact hlast d h

/-! ### First-pass structure of `clean_stem` -/

theorem url_sub_subset (l : List Char) : ∀ c ∈ url_sub l, c ∈ l := by
  intro c hc
  unfold url_sub at hc
  cases hm : match_url l with
  | some n =>
    rw [hm] at hc
    exact List.drop_subset _ _ hc
  | none =>
    rw [hm] at hc
    exact hc

theorem strip_watermark_subset (l : List Char) : ∀ c ∈ strip_watermark l, c ∈ l := by
  intro c hc
  unfold strip_watermark at hc
  dsimp only at hc
  by_cases h1 : pstrip (url_sub l) ≠ l
  · rw [if_pos h1] at hc
    exact url_sub_subset _ _ (pstrip_subset _ _ hc)
  · rw [if_neg h1] at hc
    cases hm : match_tag l with
    | some n =>
      rw [hm] at hc
      dsimp only at hc
      by_cases h2 : (pstrip (l.drop n)).length ≥ 3
      · rw [if_pos h2] at hc
        exact List.drop_subset _ _ (pstrip_subset _ _ hc)
      · rw [if_neg h2] at hc
        exact hc
    | none =>
      rw [hm] at hc
      exact hc

theorem splitext_stem_subset (l : List Char) : ∀ c ∈ splitext_stem l, c ∈ l := by
  intro c hc
  unfold splitext_stem at hc
  cases hm : l.reverse.findIdx? (fun c => c == '.') with
  | none =>
    rw [hm] at hc
    exact hc
  | some k =>
    rw [hm] at hc
    dsimp only at hc
    by_cases h2 : (l.take (l.length - 1 - k)).any (fun c => c ≠ '.')
    · rw [if_pos h2] at hc
      exact List.take_subset _ _ hc
    · rw [if_neg h2] at hc
      exact hc

theorem py_basename_subset (l : List Char) : ∀ c ∈ py_basename l, c ∈ l := by
  intro c hc
  unfold py_basename at hc
  rw [List.mem_reverse] at hc
  have := (List.takeWhile_sublist (l := l.reverse) (p := fun c => c ≠ '/')).subset hc
  exact List.mem_reverse.mp this

theorem name2_props (x : List Char) : ∀ c ∈ brackets_sub (punct_sub x),
    is_punct3 c = false ∧ is_bracket c = false ∧ (c ∈ x ∨ c = ' ') := by
  intro c hc
  obtain ⟨hbr, h2⟩ := brackets_sub_mem _ c hc
  rcases h2 with h2 | h2
  · obtain ⟨hpn, h3⟩ := (punct_mem x).1 c h2
    exact ⟨hpn, hbr, h3⟩
  · exact ⟨by rw [h2]; decide, hbr, Or.inr h2⟩

theorem clean_stem_decomp (raw : String) : ∀ c ∈ clean_stem raw,
    c ∈ brackets_sub (punct_sub (strip_watermark (splitext_stem (py_basename raw.data))))
      ∨ c = ' ' := by
  intro c hc
  unfold clean_stem at hc
  dsimp only at hc
  have hc1 := strip_chars_subset _ _ hc
  rcases (msp_mem _).1 _ hc1 with hc2 | hc2
  · cases hyf : year_find (brackets_sub (punct_sub (strip_watermark
        (splitext_stem (py_basename raw.data))))) with
    | some i =>
      rw [hyf] at hc2
      exact Or.inl (List.take_subset _ _ (pstrip_subset _ _ hc2))
    | none =>
      rw [hyf] at hc2
      exact Or.inl (junk_sub_subset _ _ hc2)
  · exact Or.inr hc2

theorem clean_stem_not_punct3 (raw : String) :
    ∀ c ∈ clean_stem raw, is_punct3 c = false := by
  intro c hc
  rcases clean_stem_decomp raw c hc with h | h
  · exact (name2_props _ c h).1
  · rw [h]; decide

theorem clean_stem_not_bracket (raw : String) :
    ∀ c ∈ clean_stem raw, is_bracket c = false := by
  intro c hc
  rcases clean_stem_decomp raw c hc with h | h
  · exact (name2_props _ c h).2.1
  · rw [h]; decide

theorem clean_stem_no_slash (raw : String) : '/' ∉ clean_stem raw := by
  intro hc
  rcases clean_stem_decomp raw _ hc with h | h
  · rcases (name2_props _ _ h).2.2 with h2 | h2
    · exact py_basename_no_slash raw.data
        (splitext_stem_subset _ _ (strip_watermark_subset _ _ h2))
    · cases h2
  · cases h

theorem clean_stem_chain (raw : String) : List.Chain' Rws (clean_stem raw) := by
  unfold clean_stem
  dsimp only
  exact chain_rws_strip_chars _ (msp_chain _).1

theorem clean_stem_head (raw : String) :
    ∀ d, (clean_stem raw).head? = some d → strip_set d = false := by
  intro d h
  unfold clean_stem at h
  dsimp only at h
  exact strip_chars_head _ d h

theorem clean_stem_last (raw : String) :
    ∀ d, (clean_stem raw).getLast? = some d → strip_set d = false := by
  intro d h
  unfold clean_stem at h
  dsimp only at h
  exact strip_chars_last _ d h

/-! ### The title-cased, truncated first-pass output -/

theorem clean_filename_eq (raw : String) (hnf : clean_stem raw ≠ []) :
    (clean_filename raw).data = truncate120 (py_title (clean_stem raw)) := by
  unfold clean_filename
  dsimp only
  rw [if_pos hnf]


theorem py_title_ne_nil (u : List Char) (h : u ≠ []) : py_title u ≠ [] := by
  intro h0
  have hlen := py_title_aux_length u false
  unfold py_title at h0
  rw [h0] at hlen
  have : u.length = 0 := by simpa using hlen.symm
  exact h (List.length_eq_zero.mp this)

theorem py_title_of_pref (l u : List Char) (h : l <+: py_title u) : py_title l = l := by
  have hn := List.prefix_iff_eq_take.mp h
  unfold py_title at hn ⊢
  calc py_title_aux false l
      = py_title_aux false ((py_title_aux false u).take l.length) := by rw [← hn]
    _ = (py_title_aux false (py_title_aux false u)).take l.length :=
        py_title_aux_take (py_title_aux false u) false l.length
    _ = (py_title_aux false u).take l.length := by rw [py_title_aux_idem]
    _ = l := hn.symm

section CleanStemOpaque

attribute [local irreducible] clean_stem clean_filename

theorem py_title_props (raw : String) :
    (∀ c ∈ py_title (clean_stem raw), is_punct3 c = false) ∧
    (∀ c ∈ py_title (clean_stem raw), is_bracket c = false) ∧
    ('/' ∉ py_title (clean_stem raw)) ∧
    List.Chain' Rws (py_title (clean_stem raw)) ∧
    (∀ d, (py_title (clean_stem raw)).head? = some d → strip_set d = false) ∧
    (∀ d, (py_title (clean_stem raw)).getLast? = some d → strip_set d = false) := by
  unfold py_title
  refine ⟨?_, ?_, ?_, ?_, ?_, ?_⟩
  · intro c hc
    rcases mem_py_title_aux _ _ _ hc with h | h
    · exact clean_stem_not_punct3 raw c h
    · exact char_alpha_false _ punct3_not_alpha c h
  · intro c hc
    rcases mem_py_title_aux _ _ _ hc with h | h
    · exact clean_stem_not_bracket raw c h
    · exact char_alpha_false _ bracket_not_alpha c h
  · intro hc
    rcases mem_py_title_aux _ _ _ hc with h | h
    · exact clean_stem_no_slash raw h
    · rw [show ('/').isAlpha = false from rfl] at h
      cases h
  · exact py_title_chain _ false (clean_stem_chain raw)
  · intro d h
    rw [py_title_aux_head false (clean_stem raw)] at h
    cases hh : (clean_stem raw).head? with
    | none => rw [hh] at h; cases h
    | some a =>
      rw [hh] at h
      cases h
      rw [tmap_pres strip_set strip_set_not_alpha]
      exact clean_stem_head raw a hh
  · intro d h
    obtain ⟨c, hc, hFc⟩ := py_title_aux_getLast strip_set strip_set_not_alpha _ _ d h
    rw [hFc]
    exact clean_stem_last raw c hc

/-- C9 (amended): `clean_filename` is idempotent on every input whose
first pass is non-fallback (the cleaned stem is non-empty) and whose
output contains no year match, no junk-token match, and no exotic
whitespace.  The unconditional claim is refuted separately. -/
theorem C9_clean_filename_conditional_idempotent (raw : String)
    (hnf : clean_stem raw ≠ [])
    (hyear : year_find (clean_filename raw).data = none)
    (hjunk : junk_sub (clean_filename raw).data = (clean_filename raw).data)
    (hsp : ∀ c ∈ (clean_filename raw).data, py_ws c = true → c = ' ') :
    clean_filename (clean_filename raw) = clean_filename raw := by
  obtain ⟨hpun, hbrk, hslashX, hchX, hheadX, hlastX⟩ := py_title_props raw
  have hteq : (clean_filename raw).data = truncate120 (py_title (clean_stem raw)) :=
    clean_filename_eq raw hnf
  have hXne : py_title (clean_stem raw) ≠ [] := py_title_ne_nil _ hnf
  have hXhead : ∀ hd, (py_title (clean_stem raw)).head? = some hd → hd ≠ ' ' := by
    intro hd h hsp2
    have h2 := hheadX hd h
    rw [hsp2] at h2
    exact absurd h2 (by decide)
  have hLpref : (clean_filename raw).data <+: py_title (clean_stem raw) := by
    rw [hteq]
    exact truncate120_pref _
  have hLsub := hLpref.sublist.subset
  have hLne : (clean_filename raw).data ≠ [] := by
    rw [hteq]
    exact truncate120_ne_nil _ hXne hXhead
  have hLpun : ∀ c ∈ (clean_filename raw).data, is_punct3 c = false :=
    fun c hc => hpun c (hLsub hc)
  have hLbrk : ∀ c ∈ (clean_filename raw).data, is_bracket c = false :=
    fun c hc => hbrk c (hLsub hc)
  have hLslash : ('/') ∉ (clean_filename raw).data := fun hc => hslashX (hLsub hc)
  have hLch : List.Chain' Rws (clean_filename raw).data := List.Chain'.prefix hchX hLpref
  have hLhead : ∀ hd, (clean_filename raw).data.head? = some hd → strip_set hd = false := by
    intro hd h
    apply hheadX hd
    rw [head?_of_pref hLpref hLne]
    exact h
  have hLlast : ∀ d, (clean_filename raw).data.getLast? = some d → strip_set d = false := by
    intro d h
    rw [hteq] at h
    exact truncate120_last_not_strip _ hchX hpun hlastX d h
  have hdotL : ('.') ∉ (clean_filename raw).data := by
    intro hc
    exact absurd (hLpun _ hc) (by decide)
  have hdashL : ('-') ∉ (clean_filename raw).data := by
    intro hc
    exact absurd (hLpun _ hc) (by decide)
  have hps : pstrip (clean_filename raw).data = (clean_filename raw).data := by
    apply pstrip_id
    · intro hd h
      by_contra hb
      rw [Bool.not_eq_false] at hb
      have hsp2 := hsp hd (List.mem_of_mem_head? h) hb
      have h2 := hLhead hd h
      rw [hsp2] at h2
      exact absurd h2 (by decide)
    · intro tl h
      by_contra hb
      rw [Bool.not_eq_false] at hb
      have hsp2 := hsp tl (List.mem_of_getLast?_eq_some h) hb
      have h2 := hLlast tl h
      rw [hsp2] at h2
      exact absurd h2 (by decide)
  have hstem : clean_stem (clean_filename raw) = (clean_filename raw).data := by
    unfold clean_stem
    dsimp only
    rw [py_basename_id _ hLslash, splitext_stem_id _ hdotL,
        strip_watermark_id _ hdotL hdashL hps,
        punct_sub_id _ hLpun, brackets_sub_id _ hLbrk, hyear]
    dsimp only
    rw [hjunk, msp_id _ hLch, strip_chars_id _ hLhead hLlast]
  have hLlen : (clean_filename raw).data.length ≤ 120 := by
    rw [hteq]
    exact truncate120_len _
  have hpt : py_title (clean_filename raw).data = (clean_filename raw).data :=
    py_title_of_pref _ _ hLpref
  apply String.ext
  rw [clean_filename_eq (clean_filename raw) (by rw [hstem]; exact hLne), hstem, hpt,
      truncate120_id _ hLlen]

end CleanStemOpaque


theorem C9_clean_filename_conditional_idempotent_witness :
    clean_stem "My.Great.Film.x264.mkv" ≠ [] ∧
    clean_filename (clean_filename "My.Great.Film.x264.mkv") =
      clean_filename "My.Great.Film.x264.mkv" :=
  ⟨by decide, C9_clean_filename_conditional_idempotent "My.Great.Film.x264.mkv"
    (by decide) (by decide) (by decide) (by decide)⟩

end SpaceSaver
